import Mathlib

/-!
# coreKV skip list (`src/db/skiplist_.h`)

A shallow embedding of the `corekv::SkipList` template and a verification of
its search and insert operations.

* Nodes live in an arena; a `Node *` is an index into the arena, `nullptr` is
  `none`.
* `next_` of a node is the list of its forward slots; a slot that was allocated
  but never stored to is `Slot.uninit`.
* Every `while (true)` loop takes a fuel argument and reports `Fault.outOfFuel`
  when it is exhausted; every pointer dereference and slot access that C++
  leaves undefined is reported as a `Fault`.
* The comparator and the random source are parameters. A comparator result is an
  integer of any size; where the source stores it in an `int32_t` (`FindLessThan`)
  it is converted by `toInt32`.
* Heights and levels are `int32_t` in the source; they stay within
  `0 .. kMaxHeight` and are natural numbers here.
-/

namespace corekv

/-- The constant `SkipListOption::kMaxHeight`. -/
def kMaxHeight : Nat := 20

/-- The constant `SkipListOption::kBranching`. -/
def kBranching : Nat := 4

/-- Ways in which an operation of the embedding can fail to return a value. -/
inductive Fault where
  /-- a `nullptr` (or a pointer to no allocated node) was dereferenced -/
  | nullDeref
  /-- `next_[n]` or `prev[n]` was accessed outside the allocated array -/
  | slotRange
  /-- a forward slot was read before any store to it -/
  | uninitRead
  /-- the loop did not finish within the given fuel -/
  | outOfFuel
  deriving DecidableEq, Repr

/-- A `Node *`: an arena index, or `none` for `nullptr`. -/
abbrev Ptr := Option Nat

/-- One `std::atomic<Node *>` cell of `next_`. -/
inductive Slot where
  | uninit
  | ptr (p : Ptr)
  deriving DecidableEq, Repr

/-- The struct `SkipList::Node`: the immutable key and the forward slots, one per level. -/
structure Node (K : Type) where
  key : K
  next_ : List Slot
  deriving Repr

/-- The data members of `SkipList`; `arena_` holds every node allocated so far. -/
structure SkipList (K R : Type) where
  arena_ : List (Node K)
  head_ : Ptr
  cur_height_ : Nat
  rnd_ : R
  deriving Repr

section Code

variable {K R : Type}

/-- The accessor `Node::Next(n)`: the acquire load of `next_[n]` of the node `p` points to. -/
def Next (s : SkipList K R) (p : Ptr) (n : Nat) : Except Fault Ptr :=
  match p with
  | none => .error .nullDeref
  | some i =>
    match s.arena_[i]? with
    | none => .error .nullDeref
    | some nd =>
      match nd.next_[n]? with
      | none => .error .slotRange
      | some .uninit => .error .uninitRead
      | some (.ptr x) => .ok x

/-- The accessor `Node::NoBarrier_Next(n)`: the relaxed load of `next_[n]`. -/
def NoBarrier_Next (s : SkipList K R) (p : Ptr) (n : Nat) : Except Fault Ptr :=
  Next s p n

/-- The mutator `Node::SetNext(n, x)`: the release store of `x` into `next_[n]`. -/
def SetNext (s : SkipList K R) (p : Ptr) (n : Nat) (x : Ptr) : Except Fault (SkipList K R) :=
  match p with
  | none => .error .nullDeref
  | some i =>
    match s.arena_[i]? with
    | none => .error .nullDeref
    | some nd =>
      if n < nd.next_.length then
        .ok { s with arena_ := s.arena_.set i { nd with next_ := nd.next_.set n (.ptr x) } }
      else .error .slotRange

/-- The mutator `Node::NoBarrier_SetNext(n, x)`: the relaxed store of `x` into `next_[n]`. -/
def NoBarrier_SetNext (s : SkipList K R) (p : Ptr) (n : Nat) (x : Ptr) :
    Except Fault (SkipList K R) :=
  SetNext s p n x

/-- The read `n->key`. -/
def keyOf (s : SkipList K R) (p : Ptr) : Except Fault K :=
  match p with
  | none => .error .nullDeref
  | some i =>
    match s.arena_[i]? with
    | none => .error .nullDeref
    | some nd => .ok nd.key

/-- The allocation `SkipList::NewNode(key, height)`: a node with `height` forward slots, none of
them written yet, placed at the next free arena address. -/
def NewNode (s : SkipList K R) (key : K) (height : Nat) : Ptr × SkipList K R :=
  (some s.arena_.length,
    { s with arena_ := s.arena_ ++ [{ key := key, next_ := List.replicate height Slot.uninit }] })

/-- The method `SkipList::GetMaxHeight`. -/
def GetMaxHeight (s : SkipList K R) : Nat := s.cur_height_

/-- The method `SkipList::Equal`. -/
def Equal (cmp : K → K → Int) (a b : K) : Bool := decide (cmp a b = 0)

/-- The method `SkipList::KeyIsAfterNode(key, n)`. -/
def KeyIsAfterNode (cmp : K → K → Int) (s : SkipList K R) (key : K) (n : Ptr) :
    Except Fault Bool :=
  match n with
  | none => .ok false
  | some i =>
    match keyOf s (some i) with
    | .error e => .error e
    | .ok k => .ok (decide (cmp k key < 0))

/-- The store `prev[level] = x` into the caller's array. -/
def setPrev (prev : List Ptr) (level : Nat) (x : Ptr) : Except Fault (List Ptr) :=
  if level < prev.length then .ok (prev.set level x) else .error .slotRange

/-- The `while (true)` loop of `SkipList::FindGreaterOrEqual`; `prev = none` is a
`NULL` array argument. -/
def FindGreaterOrEqual.loop (cmp : K → K → Int) (s : SkipList K R) (key : K) :
    Nat → Ptr → Nat → Option (List Ptr) → Except Fault (Ptr × Option (List Ptr))
  | 0, _, _, _ => .error .outOfFuel
  | fuel + 1, cur, level, prev =>
    match Next s cur level with
    | .error e => .error e
    | .ok next =>
      match KeyIsAfterNode cmp s key next with
      | .error e => .error e
      | .ok true => FindGreaterOrEqual.loop cmp s key fuel next level prev
      | .ok false =>
        let stored : Except Fault (Option (List Ptr)) :=
          match prev with
          | none => .ok none
          | some p =>
            match setPrev p level cur with
            | .error e => .error e
            | .ok q => .ok (some q)
        match stored with
        | .error e => .error e
        | .ok prev1 =>
          if level = 0 then .ok (next, prev1)
          else FindGreaterOrEqual.loop cmp s key fuel cur (level - 1) prev1

/-- The method `SkipList::FindGreaterOrEqual(key, prev)`: the node found and the array `prev`
as the call leaves it. -/
def FindGreaterOrEqual (cmp : K → K → Int) (fuel : Nat) (s : SkipList K R) (key : K)
    (prev : Option (List Ptr)) : Except Fault (Ptr × Option (List Ptr)) :=
  if GetMaxHeight s = 0 then .error .slotRange
  else FindGreaterOrEqual.loop cmp s key fuel s.head_ (GetMaxHeight s - 1) prev

/-- The conversion of a comparator result to `int32_t`: the value modulo 2^32 in the
range -2^31 .. 2^31 - 1. `FindLessThan` stores the result of `Compare` in a local
`int32_t cmp` before it tests `cmp >= 0`; `KeyIsAfterNode` and `Equal` test the
result of `Compare` itself. -/
def toInt32 (x : Int) : Int := (x + 2147483648) % 4294967296 - 2147483648

/-- The `while (true)` loop of `SkipList::FindLessThan`; the local `int32_t cmp` holds
1 when `next` is `nullptr` and the converted result of `Compare` otherwise. -/
def FindLessThan.loop (cmp : K → K → Int) (s : SkipList K R) (key : K) :
    Nat → Ptr → Nat → Except Fault Ptr
  | 0, _, _ => .error .outOfFuel
  | fuel + 1, cur, level =>
    match Next s cur level with
    | .error e => .error e
    | .ok next =>
      let cmpRes : Except Fault Int :=
        match next with
        | none => .ok 1
        | some i =>
          match keyOf s (some i) with
          | .error e => .error e
          | .ok k => .ok (toInt32 (cmp k key))
      match cmpRes with
      | .error e => .error e
      | .ok c =>
        if c ≥ 0 then
          if level = 0 then .ok cur
          else FindLessThan.loop cmp s key fuel cur (level - 1)
        else FindLessThan.loop cmp s key fuel next level

/-- The method `SkipList::FindLessThan(key)`. -/
def FindLessThan (cmp : K → K → Int) (fuel : Nat) (s : SkipList K R) (key : K) :
    Except Fault Ptr :=
  if GetMaxHeight s = 0 then .error .slotRange
  else FindLessThan.loop cmp s key fuel s.head_ (GetMaxHeight s - 1)

/-- The `while (true)` loop of `SkipList::FindLast` (`kBaseLevel = 0`). -/
def FindLast.loop (s : SkipList K R) : Nat → Ptr → Except Fault Ptr
  | 0, _ => .error .outOfFuel
  | fuel + 1, cur =>
    match Next s cur 0 with
    | .error e => .error e
    | .ok none => .ok cur
    | .ok (some i) => FindLast.loop s fuel (some i)

/-- The method `SkipList::FindLast()`. -/
def FindLast (fuel : Nat) (s : SkipList K R) : Except Fault Ptr :=
  FindLast.loop s fuel s.head_

/-- The loop of `SkipList::RandomHeight`; `gen` is `rnd_.GetSimpleRandomNum()`,
returning the draw and the generator's next state. A draw is made only when
`height < kMaxHeight` (short-circuit `&&`). -/
def RandomHeight.loop (gen : R → Nat × R) : Nat → Nat → R → Except Fault (Nat × R)
  | 0, _, _ => .error .outOfFuel
  | fuel + 1, height, r =>
    if height < kMaxHeight then
      if (gen r).1 % kBranching = 0 then RandomHeight.loop gen fuel (height + 1) (gen r).2
      else .ok (height, (gen r).2)
    else .ok (height, r)

/-- The method `SkipList::RandomHeight()`: the height drawn and the generator state after. -/
def RandomHeight (gen : R → Nat × R) (r : R) : Except Fault (Nat × R) :=
  RandomHeight.loop gen kMaxHeight 1 r

/-- The method `SkipList::Contains(key)`. -/
def Contains (cmp : K → K → Int) (fuel : Nat) (s : SkipList K R) (key : K) :
    Except Fault Bool :=
  match FindGreaterOrEqual cmp fuel s key none with
  | .error e => .error e
  | .ok (none, _) => .ok false
  | .ok (some i, _) =>
    match keyOf s (some i) with
    | .error e => .error e
    | .ok k => .ok (Equal cmp key k)

/-- The loop `for (index = cur_max_level; index < new_level; ++index) prev[index] = head_;`
of `Insert`. -/
def Insert.raise (head : Ptr) (cur_max_level new_level : Nat) (prev : List Ptr) :
    Except Fault (List Ptr) :=
  (List.range' cur_max_level (new_level - cur_max_level)).foldlM
    (fun p index => setPrev p index head) prev

/-- One iteration of the linking loop of `Insert`:
`new_node->NoBarrier_SetNext(index, prev[index]->NoBarrier_Next(index));`
`prev[index]->NoBarrier_SetNext(index, new_node);` -/
def Insert.linkStep (prev : List Ptr) (new_node : Ptr) (s : SkipList K R) (index : Nat) :
    Except Fault (SkipList K R) :=
  match prev[index]? with
  | none => .error .slotRange
  | some p =>
    match NoBarrier_Next s p index with
    | .error e => .error e
    | .ok nx =>
      match NoBarrier_SetNext s new_node index nx with
      | .error e => .error e
      | .ok s1 => NoBarrier_SetNext s1 p index new_node

/-- The linking loop `for (index = 0; index < new_level; ++index)` of `Insert`. -/
def Insert.link (prev : List Ptr) (new_node : Ptr) (new_level : Nat) (s : SkipList K R) :
    Except Fault (SkipList K R) :=
  (List.range' 0 new_level).foldlM (Insert.linkStep prev new_node) s

/-- The part of `SkipList::Insert(key)` after the duplicate check. -/
def Insert.fresh (gen : R → Nat × R) (s : SkipList K R) (key : K) (prev : List Ptr) :
    Except Fault (SkipList K R) :=
  match RandomHeight gen s.rnd_ with
  | .error e => .error e
  | .ok (new_level, r) =>
    let s1 : SkipList K R := { s with rnd_ := r }
    let cur_max_level := GetMaxHeight s1
    let raised : Except Fault (List Ptr × SkipList K R) :=
      if new_level > cur_max_level then
        match Insert.raise s1.head_ cur_max_level new_level prev with
        | .error e => .error e
        | .ok p => .ok (p, { s1 with cur_height_ := new_level })
      else .ok (prev, s1)
    match raised with
    | .error e => .error e
    | .ok (prev1, s2) =>
      let (new_node, s3) := NewNode s2 key new_level
      Insert.link prev1 new_node new_level s3

/-- The method `SkipList::Insert(key)`. `FindGreaterOrEqual` hands back the array it
was given, so the branch for a `NULL` array is never taken. -/
def Insert (cmp : K → K → Int) (gen : R → Nat × R) (fuel : Nat) (s : SkipList K R) (key : K) :
    Except Fault (SkipList K R) :=
  match FindGreaterOrEqual cmp fuel s key (some (List.replicate kMaxHeight none)) with
  | .error e => .error e
  | .ok (_, none) => .error .nullDeref
  | .ok (none, some prev) => Insert.fresh gen s key prev
  | .ok (some i, some prev) =>
    match keyOf s (some i) with
    | .error e => .error e
    | .ok k => if Equal cmp key k then .ok s else Insert.fresh gen s key prev

/-- The loop `for (int i = 0; i < kMaxHeight; i++) head_->SetNext(i, nullptr);` of the
constructor. -/
def SkipList.initHead (s : SkipList K R) : Except Fault (SkipList K R) :=
  (List.range' 0 kMaxHeight).foldlM (fun t i => SetNext t t.head_ i none) s

/-- The constructor `SkipList::SkipList(cmp)`; `zero` is the key `Node(0)` builds
for the head and `r0` the initial state of `rnd_`. -/
def SkipList.new (zero : K) (r0 : R) : Except Fault (SkipList K R) :=
  let s0 : SkipList K R := { arena_ := [], head_ := none, cur_height_ := 1, rnd_ := r0 }
  let (h, s1) := NewNode s0 zero kMaxHeight
  SkipList.initHead { s1 with head_ := h }

/-- The nodes visited after `cur` when following the level-`L` forward
pointers (`Next(L)`) until `nullptr`. -/
def levelWalk (s : SkipList K R) (L : Nat) : Nat → Ptr → Except Fault (List Nat)
  | 0, _ => .error .outOfFuel
  | fuel + 1, cur =>
    match Next s cur L with
    | .error e => .error e
    | .ok none => .ok []
    | .ok (some i) =>
      match levelWalk s L fuel (some i) with
      | .error e => .error e
      | .ok rest => .ok (i :: rest)

/-- The nodes reached from `head_` along the level-`L` forward pointers, in the
order visited (the head itself is not listed). -/
def levelNodes (fuel : Nat) (s : SkipList K R) (L : Nat) : Except Fault (List Nat) :=
  levelWalk s L fuel s.head_

/-- A sequence of `Insert` calls, stopping at the first fault. -/
def insertAll (cmp : K → K → Int) (gen : R → Nat × R) (fuel : Nat) :
    SkipList K R → List K → Except Fault (SkipList K R)
  | s, [] => .ok s
  | s, k :: ks =>
    match Insert cmp gen fuel s k with
    | .error e => .error e
    | .ok s1 => insertAll cmp gen fuel s1 ks

/-- The list states reachable from the constructor by `Insert` calls. -/
inductive Reachable (cmp : K → K → Int) (gen : R → Nat × R) : SkipList K R → Prop where
  | init (zero : K) (r0 : R) (s : SkipList K R) :
      SkipList.new zero r0 = .ok s → Reachable cmp gen s
  | insert (fuel : Nat) (s s1 : SkipList K R) (key : K) :
      Reachable cmp gen s → Insert cmp gen fuel s key = .ok s1 → Reachable cmp gen s1

/-- The comparator contract: `cmp a b < 0` is a strict order on keys, `cmp a b > 0`
is its converse, and `cmp a b = 0` (equal keys) is compatible with the order. A
three-way comparison of a strict total order, where `cmp a b = 0` holds exactly
for `a = b`, satisfies it. -/
structure StrictTotal (cmp : K → K → Int) : Prop where
  flip : ∀ a b, cmp a b < 0 ↔ 0 < cmp b a
  trans : ∀ a b c, cmp a b < 0 → cmp b c < 0 → cmp a c < 0
  eqv_left : ∀ a b c, cmp a b = 0 → cmp b c < 0 → cmp a c < 0
  eqv_right : ∀ a b c, cmp a b < 0 → cmp b c = 0 → cmp a c < 0

/-- The key stored in arena cell `i`, if the cell is allocated. -/
def keyAt (s : SkipList K R) (i : Nat) : Option K :=
  match s.arena_[i]? with
  | none => none
  | some nd => some nd.key

/-- The number of forward slots of arena cell `i` (0 if not allocated). -/
def heightAt (s : SkipList K R) (i : Nat) : Nat :=
  match s.arena_[i]? with
  | none => 0
  | some nd => nd.next_.length

/-- The content of forward slot `L` of arena cell `i`. -/
def slotAt (s : SkipList K R) (i L : Nat) : Option Slot :=
  match s.arena_[i]? with
  | none => none
  | some nd => nd.next_[L]?

/-- The keys of a sequence of `Insert` arguments that are not equal (under the
comparator) to a key of `acc` or to an earlier argument, appended to `acc` in the
order of their first occurrence. -/
def firstOccurrences (cmp : K → K → Int) : List K → List K → List K
  | acc, [] => acc
  | acc, k :: ks =>
    firstOccurrences cmp
      (if acc.any (fun a => decide (cmp k a = 0)) then acc else acc ++ [k]) ks

/-- Whether `Compare(key of node i, t) < 0`. -/
def keyBelow (cmp : K → K → Int) (s : SkipList K R) (t : K) (i : Nat) : Bool :=
  match keyAt s i with
  | some k => decide (cmp k t < 0)
  | none => false

/-- Whether `Compare(key of node i, t) >= 0`. -/
def keyAtLeast (cmp : K → K → Int) (s : SkipList K R) (t : K) (i : Nat) : Bool :=
  match keyAt s i with
  | some k => decide (0 ≤ cmp k t)
  | none => false

/-- The key of node `i` compares strictly less than the key of node `j`. -/
def nodeLt (cmp : K → K → Int) (s : SkipList K R) (i j : Nat) : Prop :=
  ∃ a b, keyAt s i = some a ∧ keyAt s j = some b ∧ cmp a b < 0

/-- The level-`L` predecessor of a target: the last of `nodes` (the level-`L`
traversal) whose key is below `t`, or `head_` when there is none. -/
def lastBelow (cmp : K → K → Int) (s : SkipList K R) (t : K) (nodes : List Nat) : Ptr :=
  match (nodes.filter (keyBelow cmp s t)).getLast? with
  | some i => some i
  | none => s.head_

/-- The constructor followed by a sequence of `Insert` calls. -/
def build (cmp : K → K → Int) (gen : R → Nat × R) (fuel : Nat) (zero : K) (r0 : R)
    (keys : List K) : Except Fault (SkipList K R) :=
  match SkipList.new zero r0 with
  | .error e => .error e
  | .ok s0 => insertAll cmp gen fuel s0 keys

/-- A three-way comparator on natural-number keys. -/
def natCompare (a b : Nat) : Int := (a : Int) - (b : Int)

/-- A random source whose `n`-th draw is `n`. -/
def counterGen (r : Nat) : Nat × Nat := (r, r + 1)

/-- The list built by inserting 5, 3, 8, 3, 1, 9 with the draws 3, 4, 5, ... -/
def sampleList : SkipList Nat Nat :=
  match build natCompare counterGen 40 0 3 [5, 3, 8, 3, 1, 9] with
  | .ok s => s
  | .error _ => ⟨[], none, 0, 0⟩

/-- The level-`L` traversal of `s` returns, visits nodes with strictly increasing
keys, and is a subsequence of the level-0 traversal. -/
def LevelOrdered (cmp : K → K → Int) (fuel : Nat) (s : SkipList K R) (L : Nat) : Prop :=
  ∃ nodesL nodes0 ks, levelNodes fuel s L = .ok nodesL ∧ levelNodes fuel s 0 = .ok nodes0 ∧
    nodesL.Sublist nodes0 ∧ nodesL.map (keyAt s) = ks.map some ∧
    List.Pairwise (fun a b => cmp a b < 0) ks

/-- The state of the random source after `n` draws made from state `r`. -/
def stateAfter (gen : R → Nat × R) : Nat → R → R
  | 0, r => r
  | n + 1, r => stateAfter gen n (gen r).2

/-- The draw number `n` (counting from 0) of the random source started in state `r`. -/
def nthDraw (gen : R → Nat × R) (n : Nat) (r : R) : Nat :=
  (gen (stateAfter gen n r)).1

/-- The maximum of 1 and the heights of the real nodes (every allocated node but
the head). -/
def maxRealHeight (s : SkipList K R) : Nat :=
  ((List.range s.arena_.length).filter (fun i => decide (some i ≠ s.head_))).foldl
    (fun m i => max m (heightAt s i)) 1

/-! ### Memory accesses and comparator calls in program order -/

/-- The `std::memory_order` argument of an atomic access. -/
inductive MemOrder where
  | relaxed
  | acquire
  | release
  deriving DecidableEq, Repr

/-- One step an operation makes that another thread or the comparator can observe. -/
inductive Event where
  /-- the load `node->next_[slot].load(order)` -/
  | load (order : MemOrder) (node : Ptr) (slot : Nat)
  /-- the store `node->next_[slot].store(value, order)` -/
  | store (order : MemOrder) (node : Ptr) (slot : Nat) (value : Ptr)
  /-- the key `node->key` is handed to `comparator_.Compare` -/
  | compare (node : Ptr)
  deriving DecidableEq, Repr

/-- The event of `Node::Next(n)`: `next_[n].load(std::memory_order_acquire)`. -/
def NextEvent (p : Ptr) (n : Nat) : Event := .load .acquire p n

/-- The event of `Node::SetNext(n, x)`: `next_[n].store(x, std::memory_order_release)`. -/
def SetNextEvent (p : Ptr) (n : Nat) (x : Ptr) : Event := .store .release p n x

/-- The event of `Node::NoBarrier_Next(n)`: `next_[n].load(std::memory_order_relaxed)`. -/
def NoBarrier_NextEvent (p : Ptr) (n : Nat) : Event := .load .relaxed p n

/-- The event of `Node::NoBarrier_SetNext(n, x)`:
`next_[n].store(x, std::memory_order_relaxed)`. -/
def NoBarrier_SetNextEvent (p : Ptr) (n : Nat) (x : Ptr) : Event := .store .relaxed p n x

/-- The comparator call of `KeyIsAfterNode(key, n)` and of the test in
`FindLessThan`: `n->key` is compared when `n` is not `nullptr`. -/
def compareEvents (n : Ptr) : List Event :=
  match n with
  | none => []
  | some i => [.compare (some i)]

/-- The loop of `FindGreaterOrEqual` together with the events it makes. -/
def FindGreaterOrEqual.loopLog (cmp : K → K → Int) (s : SkipList K R) (key : K) :
    Nat → Ptr → Nat → Option (List Ptr) →
      Except Fault ((Ptr × Option (List Ptr)) × List Event)
  | 0, _, _, _ => .error .outOfFuel
  | fuel + 1, cur, level, prev =>
    match Next s cur level with
    | .error e => .error e
    | .ok next =>
      match KeyIsAfterNode cmp s key next with
      | .error e => .error e
      | .ok true =>
        match FindGreaterOrEqual.loopLog cmp s key fuel next level prev with
        | .error e => .error e
        | .ok (r, evs) => .ok (r, NextEvent cur level :: (compareEvents next ++ evs))
      | .ok false =>
        let stored : Except Fault (Option (List Ptr)) :=
          match prev with
          | none => .ok none
          | some p =>
            match setPrev p level cur with
            | .error e => .error e
            | .ok q => .ok (some q)
        match stored with
        | .error e => .error e
        | .ok prev1 =>
          if level = 0 then .ok ((next, prev1), NextEvent cur level :: compareEvents next)
          else
            match FindGreaterOrEqual.loopLog cmp s key fuel cur (level - 1) prev1 with
            | .error e => .error e
            | .ok (r, evs) => .ok (r, NextEvent cur level :: (compareEvents next ++ evs))

/-- The method `FindGreaterOrEqual` together with the events it makes. -/
def FindGreaterOrEqualLog (cmp : K → K → Int) (fuel : Nat) (s : SkipList K R) (key : K)
    (prev : Option (List Ptr)) : Except Fault ((Ptr × Option (List Ptr)) × List Event) :=
  if GetMaxHeight s = 0 then .error .slotRange
  else FindGreaterOrEqual.loopLog cmp s key fuel s.head_ (GetMaxHeight s - 1) prev

/-- The loop of `FindLessThan` together with the events it makes. -/
def FindLessThan.loopLog (cmp : K → K → Int) (s : SkipList K R) (key : K) :
    Nat → Ptr → Nat → Except Fault (Ptr × List Event)
  | 0, _, _ => .error .outOfFuel
  | fuel + 1, cur, level =>
    match Next s cur level with
    | .error e => .error e
    | .ok next =>
      let cmpRes : Except Fault Int :=
        match next with
        | none => .ok 1
        | some i =>
          match keyOf s (some i) with
          | .error e => .error e
          | .ok k => .ok (toInt32 (cmp k key))
      match cmpRes with
      | .error e => .error e
      | .ok c =>
        if c ≥ 0 then
          if level = 0 then .ok (cur, NextEvent cur level :: compareEvents next)
          else
            match FindLessThan.loopLog cmp s key fuel cur (level - 1) with
            | .error e => .error e
            | .ok (r, evs) => .ok (r, NextEvent cur level :: (compareEvents next ++ evs))
        else
          match FindLessThan.loopLog cmp s key fuel next level with
          | .error e => .error e
          | .ok (r, evs) => .ok (r, NextEvent cur level :: (compareEvents next ++ evs))

/-- The method `FindLessThan` together with the events it makes. -/
def FindLessThanLog (cmp : K → K → Int) (fuel : Nat) (s : SkipList K R) (key : K) :
    Except Fault (Ptr × List Event) :=
  if GetMaxHeight s = 0 then .error .slotRange
  else FindLessThan.loopLog cmp s key fuel s.head_ (GetMaxHeight s - 1)

/-- The loop of `FindLast` together with the events it makes. -/
def FindLast.loopLog (s : SkipList K R) : Nat → Ptr → Except Fault (Ptr × List Event)
  | 0, _ => .error .outOfFuel
  | fuel + 1, cur =>
    match Next s cur 0 with
    | .error e => .error e
    | .ok none => .ok (cur, [NextEvent cur 0])
    | .ok (some i) =>
      match FindLast.loopLog s fuel (some i) with
      | .error e => .error e
      | .ok (r, evs) => .ok (r, NextEvent cur 0 :: evs)

/-- The method `FindLast` together with the events it makes. -/
def FindLastLog (fuel : Nat) (s : SkipList K R) : Except Fault (Ptr × List Event) :=
  FindLast.loopLog s fuel s.head_

/-- The method `Contains` together with the events it makes; `Equal(key, node->key)`
hands `node->key` to the comparator. -/
def ContainsLog (cmp : K → K → Int) (fuel : Nat) (s : SkipList K R) (key : K) :
    Except Fault (Bool × List Event) :=
  match FindGreaterOrEqualLog cmp fuel s key none with
  | .error e => .error e
  | .ok ((none, _), evs) => .ok (false, evs)
  | .ok ((some i, _), evs) =>
    match keyOf s (some i) with
    | .error e => .error e
    | .ok k => .ok (Equal cmp key k, evs ++ [.compare (some i)])

/-- One iteration of the linking loop of `Insert` together with its events: the
relaxed load of `prev[index]`'s slot, the relaxed store into the new node and the
relaxed store into `prev[index]`. -/
def Insert.linkStepLog (prev : List Ptr) (new_node : Ptr) (s : SkipList K R) (index : Nat) :
    Except Fault (SkipList K R × List Event) :=
  match prev[index]? with
  | none => .error .slotRange
  | some p =>
    match NoBarrier_Next s p index with
    | .error e => .error e
    | .ok nx =>
      match NoBarrier_SetNext s new_node index nx with
      | .error e => .error e
      | .ok s1 =>
        match NoBarrier_SetNext s1 p index new_node with
        | .error e => .error e
        | .ok s2 =>
          .ok (s2, [NoBarrier_NextEvent p index, NoBarrier_SetNextEvent new_node index nx,
            NoBarrier_SetNextEvent p index new_node])

/-- The linking loop of `Insert` over the levels in `indices`, with its events. -/
def Insert.linkLog (prev : List Ptr) (new_node : Ptr) :
    List Nat → SkipList K R → Except Fault (SkipList K R × List Event)
  | [], s => .ok (s, [])
  | index :: rest, s =>
    match Insert.linkStepLog prev new_node s index with
    | .error e => .error e
    | .ok (s1, evs) =>
      match Insert.linkLog prev new_node rest s1 with
      | .error e => .error e
      | .ok (s2, evs2) => .ok (s2, evs ++ evs2)

/-- The part of `Insert` after the duplicate check together with the events of its
linking loop, and the node created with its height. -/
def Insert.freshLog (gen : R → Nat × R) (s : SkipList K R) (key : K) (prev : List Ptr) :
    Except Fault (SkipList K R × List Event × Ptr × Nat) :=
  match RandomHeight gen s.rnd_ with
  | .error e => .error e
  | .ok (new_level, r) =>
    let s1 : SkipList K R := { s with rnd_ := r }
    let cur_max_level := GetMaxHeight s1
    let raised : Except Fault (List Ptr × SkipList K R) :=
      if new_level > cur_max_level then
        match Insert.raise s1.head_ cur_max_level new_level prev with
        | .error e => .error e
        | .ok p => .ok (p, { s1 with cur_height_ := new_level })
      else .ok (prev, s1)
    match raised with
    | .error e => .error e
    | .ok (prev1, s2) =>
      let (new_node, s3) := NewNode s2 key new_level
      match Insert.linkLog prev1 new_node (List.range' 0 new_level) s3 with
      | .error e => .error e
      | .ok (s4, evs) => .ok (s4, evs, new_node, new_level)

/-- The method `Insert` together with the events it makes, the node it created
(`nullptr` when the key was present) and the height of that node. -/
def InsertLog (cmp : K → K → Int) (gen : R → Nat × R) (fuel : Nat) (s : SkipList K R)
    (key : K) : Except Fault (SkipList K R × List Event × Ptr × Nat) :=
  match FindGreaterOrEqualLog cmp fuel s key (some (List.replicate kMaxHeight none)) with
  | .error e => .error e
  | .ok ((_, none), _) => .error .nullDeref
  | .ok ((none, some prev), evs) =>
    match Insert.freshLog gen s key prev with
    | .error e => .error e
    | .ok (s1, evs1, nn, h) => .ok (s1, evs ++ evs1, nn, h)
  | .ok ((some i, some prev), evs) =>
    match keyOf s (some i) with
    | .error e => .error e
    | .ok k =>
      if Equal cmp key k then .ok (s, evs ++ [.compare (some i)], none, 0)
      else
        match Insert.freshLog gen s key prev with
        | .error e => .error e
        | .ok (s1, evs1, nn, h) => .ok (s1, evs ++ .compare (some i) :: evs1, nn, h)

/-- The freshly constructed list with key 0 in the head and the random source in
state 0. -/
def emptyList : SkipList Nat Nat :=
  match SkipList.new 0 0 with
  | .ok s => s
  | .error _ => ⟨[], none, 0, 0⟩

/-- The stores among the events, in program order. -/
def storesOf (evs : List Event) : List Event :=
  evs.filter (fun e => match e with
    | .store _ _ _ _ => true
    | _ => false)

/-- The store sequence `stores` consists, for each level of `levels` in turn, of the
relaxed store into the level's slot of the node at address `n` followed by the
relaxed store of that node into the same level's slot of a node at an address
`j < n`. With `n` the number of nodes allocated before the `Insert`, `n` is the
address of the new node and the nodes below `n` are the ones that existed before:
the head and the real nodes. -/
def LevelwiseStores (n : Nat) : List Nat → List Event → Prop
  | [], stores => stores = []
  | L :: rest, stores =>
    ∃ v j tail, j < n ∧
      stores = .store .relaxed (some n) L v :: .store .relaxed (some j) L (some n) :: tail ∧
      LevelwiseStores n rest tail

/-- A reachable state whose random source is at a draw divisible by 4, so that the
next `Insert` of a new key draws height 2. -/
def sampleListTall : SkipList Nat Nat :=
  match build natCompare counterGen 40 0 3 [5, 3, 8, 3, 1] with
  | .ok s => s
  | .error _ => ⟨[], none, 0, 0⟩

/-- The pointer `n` is a real node of `s`: allocated and not the head. -/
def IsRealNode (s : SkipList K R) (n : Ptr) : Prop :=
  ∃ i, n = some i ∧ i < s.arena_.length ∧ some i ≠ s.head_

end Code

/-! ## Abstract view of a list state -/

section Ghost

variable {K R : Type}

/-- One node of the abstract view: its arena index, key and height. -/
structure Entry (K : Type) where
  idx : Nat
  key : K
  height : Nat

/-- Index of the first entry taller than `L`. -/
def firstAbove (L : Nat) : List (Entry K) → Ptr
  | [] => none
  | e :: es => if L < e.height then some e.idx else firstAbove L es

/-- Index of the last entry taller than `L`, or `d` when there is none. -/
def lastAbove (L : Nat) : Nat → List (Entry K) → Nat
  | d, [] => d
  | d, e :: es => lastAbove L (if L < e.height then e.idx else d) es

/-- Every entry of the list describes an allocated node. -/
def Describes (s : SkipList K R) (es : List (Entry K)) : Prop :=
  ∀ e ∈ es, keyAt s e.idx = some e.key ∧ heightAt s e.idx = e.height

/-- Every forward slot of every listed node points at the first later node that
is tall enough. -/
def Linked (s : SkipList K R) : List (Entry K) → Prop
  | [] => True
  | c :: Y => (∀ L, L < c.height → slotAt s c.idx L = some (.ptr (firstAbove L Y))) ∧ Linked s Y

/-- The list state `s` represents the key-sorted sequence `order` of real nodes
behind the head `hd`. -/
structure Models (cmp : K → K → Int) (s : SkipList K R) (hd : Entry K)
    (order : List (Entry K)) : Prop where
  head_eq : s.head_ = some hd.idx
  head_height : hd.height = kMaxHeight
  describes : Describes s (hd :: order)
  linked : Linked s (hd :: order)
  nodup : ((hd :: order).map Entry.idx).Nodup
  size : s.arena_.length = order.length + 1
  covers : ∀ i, i < s.arena_.length → i ∈ (hd :: order).map Entry.idx
  height_pos : ∀ e ∈ order, 1 ≤ e.height
  height_le : ∀ e ∈ order, e.height ≤ s.cur_height_
  cur_pos : 1 ≤ s.cur_height_
  cur_le : s.cur_height_ ≤ kMaxHeight
  cur_max : s.cur_height_ = 1 ∨ ∃ e ∈ order, e.height = s.cur_height_
  sorted : order.Pairwise (fun a b => cmp a.key b.key < 0)

/-- The array `prev` after the levels `level, level - 1, ..., 0` were stored. -/
def recordPrev (f : Nat → Ptr) : Nat → List Ptr → List Ptr
  | 0, p => p.set 0 (f 0)
  | l + 1, p => recordPrev f l (p.set (l + 1) (f (l + 1)))

/-- The state `s1` has the same nodes as `s` (same keys, same heights) and the same
head, height counter and generator state; only forward-slot contents may differ. -/
structure SameNodes (s s1 : SkipList K R) : Prop where
  head_eq : s1.head_ = s.head_
  cur_eq : s1.cur_height_ = s.cur_height_
  rnd_eq : s1.rnd_ = s.rnd_
  len_eq : s1.arena_.length = s.arena_.length
  key_eq : ∀ j, keyAt s1 j = keyAt s j
  height_eq : ∀ j, heightAt s1 j = heightAt s j

/-- The state of the linking loop of `Insert` once the levels below `j` are done:
the new node `newIdx` holds `N L` and the predecessor `P L` holds the new node at
every level `L < j`; all other slots are as in the state `s0` before the loop. -/
def LinkInv (s0 : SkipList K R) (newIdx : Nat) (P : Nat → Nat) (N : Nat → Ptr) (j : Nat)
    (s1 : SkipList K R) : Prop :=
  SameNodes s0 s1 ∧
    ∀ i L, slotAt s1 i L =
      if L < j ∧ i = newIdx then some (.ptr (N L))
      else if L < j ∧ i = P L then some (.ptr (some newIdx))
      else slotAt s0 i L

end Ghost

/-! ## Lemmas on the abstract view -/

section GhostLemmas

variable {K R : Type}

theorem firstAbove_append (L : Nat) (X Y : List (Entry K)) :
    firstAbove L (X ++ Y) = (firstAbove L X).orElse (fun _ => firstAbove L Y) := by
  induction X with
  | nil => simp [firstAbove]
  | cons e es ih =>
    by_cases h : L < e.height
    · simp [firstAbove, h]
    · simp [firstAbove, h, ih]

theorem firstAbove_append_none (L : Nat) (X Y : List (Entry K)) (h : firstAbove L X = none) :
    firstAbove L (X ++ Y) = firstAbove L Y := by
  simp [firstAbove_append, h]

theorem firstAbove_eq_none_iff (L : Nat) (X : List (Entry K)) :
    firstAbove L X = none ↔ ∀ e ∈ X, e.height ≤ L := by
  induction X with
  | nil => simp [firstAbove]
  | cons e es ih =>
    by_cases h : L < e.height
    · simp [firstAbove, h]
    · simp [firstAbove, h, ih]
      omega

/-- Either no entry is taller than `L`, or the list splits at the first one. -/
theorem firstAbove_cases (L : Nat) (X : List (Entry K)) :
    firstAbove L X = none ∨
      ∃ X0 e X1, X = X0 ++ e :: X1 ∧ L < e.height ∧ firstAbove L X0 = none ∧
        firstAbove L X = some e.idx := by
  induction X with
  | nil => left; rfl
  | cons e es ih =>
    by_cases h : L < e.height
    · right
      exact ⟨[], e, es, rfl, h, rfl, by simp [firstAbove, h]⟩
    · rcases ih with ih | ⟨X0, c, X1, h1, h2, h3, h4⟩
      · left; simp [firstAbove, h, ih]
      · right
        refine ⟨e :: X0, c, X1, by simp [h1], h2, by simp [firstAbove, h, h3], ?_⟩
        simp [firstAbove, h, h4]

theorem firstAbove_mem (L : Nat) (X : List (Entry K)) (i : Nat) (h : firstAbove L X = some i) :
    ∃ e ∈ X, e.idx = i ∧ L < e.height := by
  rcases firstAbove_cases L X with h0 | ⟨X0, e, X1, h1, h2, _, h4⟩
  · rw [h0] at h; cases h
  · rw [h4] at h
    refine ⟨e, by simp [h1], by simpa using h, h2⟩

theorem lastAbove_of_none (L d : Nat) (X : List (Entry K)) (h : firstAbove L X = none) :
    lastAbove L d X = d := by
  induction X generalizing d with
  | nil => rfl
  | cons e es ih =>
    by_cases hL : L < e.height
    · simp [firstAbove, hL] at h
    · simp [firstAbove, hL] at h
      simp [lastAbove, hL, ih _ h]

theorem lastAbove_append (L d : Nat) (X Y : List (Entry K)) :
    lastAbove L d (X ++ Y) = lastAbove L (lastAbove L d X) Y := by
  induction X generalizing d with
  | nil => rfl
  | cons e es ih => simp [lastAbove, ih]

theorem lastAbove_mem (L d : Nat) (X : List (Entry K)) (h : firstAbove L X ≠ none) :
    lastAbove L d X ∈ X.map Entry.idx := by
  induction X generalizing d with
  | nil => simp [firstAbove] at h
  | cons e es ih =>
    by_cases hes : firstAbove L es = none
    · by_cases hL : L < e.height
      · simp [lastAbove, hL, lastAbove_of_none _ _ _ hes]
      · simp [firstAbove, hL, hes] at h
    · have := ih (if L < e.height then e.idx else d) hes
      simp only [lastAbove, List.map_cons, List.mem_cons]
      right; exact this

/-- The last entry taller than `L` in a list `X ++ c :: Y` is `c` when `c` is tall
enough and nothing in `Y` is. -/
theorem lastAbove_split (L d : Nat) (X Y : List (Entry K)) (c : Entry K) (hc : L < c.height)
    (hY : firstAbove L Y = none) : lastAbove L d (X ++ c :: Y) = c.idx := by
  rw [lastAbove_append]
  simp [lastAbove, hc, lastAbove_of_none _ _ _ hY]

theorem linked_suffix (s : SkipList K R) (X Y : List (Entry K)) (h : Linked s (X ++ Y)) :
    Linked s Y := by
  induction X with
  | nil => exact h
  | cons e es ih => exact ih h.2

theorem linked_slot (s : SkipList K R) (X Y : List (Entry K)) (c : Entry K)
    (h : Linked s (X ++ c :: Y)) (L : Nat) (hL : L < c.height) :
    slotAt s c.idx L = some (.ptr (firstAbove L Y)) :=
  (linked_suffix s X (c :: Y) h).1 L hL

theorem Next_of_slotAt (s : SkipList K R) (i L : Nat) (x : Ptr)
    (h : slotAt s i L = some (.ptr x)) : Next s (some i) L = .ok x := by
  unfold slotAt at h
  unfold Next
  cases hn : s.arena_[i]? with
  | none => simp [hn] at h
  | some nd =>
    simp only [hn] at h
    simp [hn, h]

theorem keyOf_of_keyAt (s : SkipList K R) (i : Nat) (k : K) (h : keyAt s i = some k) :
    keyOf s (some i) = .ok k := by
  unfold keyAt at h
  unfold keyOf
  cases hn : s.arena_[i]? with
  | none => simp [hn] at h
  | some nd =>
    simp only [hn, Option.some.injEq] at h
    simp [hn, h]

end GhostLemmas

/-! ## The search loops on a modelled state -/

section Search

variable {K R : Type}

theorem mem_tail_of_split (hd c : Entry K) (At X A2 : List (Entry K))
    (h : hd :: At = X ++ c :: A2) : ∀ e ∈ A2, e ∈ At := by
  intro e he
  cases X with
  | nil =>
    simp only [List.nil_append, List.cons.injEq] at h
    rw [h.2]; exact he
  | cons x X1 =>
    simp only [List.cons_append, List.cons.injEq] at h
    rw [h.2]; simp [he]

theorem keyIsAfter_of_lt (cmp : K → K → Int) (s : SkipList K R) (t : K) (e : Entry K)
    (hk : keyAt s e.idx = some e.key) (hlt : cmp e.key t < 0) :
    KeyIsAfterNode cmp s t (some e.idx) = .ok true := by
  simp [KeyIsAfterNode, keyOf_of_keyAt s _ _ hk, hlt]

theorem keyIsAfter_of_not_lt (cmp : K → K → Int) (s : SkipList K R) (t : K)
    (Bt : List (Entry K)) (hdesc : Describes s Bt) (hB : ∀ b ∈ Bt, ¬ cmp b.key t < 0)
    (L : Nat) : KeyIsAfterNode cmp s t (firstAbove L Bt) = .ok false := by
  cases h : firstAbove L Bt with
  | none => rfl
  | some i =>
    obtain ⟨b, hb, hi, _⟩ := firstAbove_mem L Bt i h
    subst hi
    simp [KeyIsAfterNode, keyOf_of_keyAt s _ _ (hdesc b hb).1, hB b hb]

theorem describes_mono (s : SkipList K R) (X Y : List (Entry K)) (h : Describes s Y)
    (hsub : ∀ e ∈ X, e ∈ Y) : Describes s X :=
  fun e he => h e (hsub e he)

/-- The loop of `FindGreaterOrEqual`, started at a node `c` of the part `hd :: At`
below the target and at a level `c` reaches: it returns the first node of `Bt`
and stores the last taller-than-`L` node of `hd :: At` at every level `L` it
passes. -/
theorem fge_loop_spec (cmp : K → K → Int) (s : SkipList K R) (t : K) (hd : Entry K)
    (At Bt : List (Entry K))
    (hdesc : Describes s (hd :: (At ++ Bt))) (hlink : Linked s (hd :: (At ++ Bt)))
    (hA : ∀ a ∈ At, cmp a.key t < 0) (hB : ∀ b ∈ Bt, ¬ cmp b.key t < 0) :
    ∀ (fuel level : Nat) (X : List (Entry K)) (c : Entry K) (A2 : List (Entry K))
      (prev : Option (List Ptr)),
      hd :: At = X ++ c :: A2 → level < c.height → A2.length + level < fuel →
      (∀ p, prev = some p → level < p.length) →
      FindGreaterOrEqual.loop cmp s t fuel (some c.idx) level prev =
        .ok (firstAbove 0 Bt,
          prev.map (recordPrev (fun L => some (lastAbove L hd.idx (hd :: At))) level)) := by
  intro fuel
  induction fuel with
  | zero => intro level X c A2 prev _ _ hfuel; omega
  | succ fuel ih =>
    intro level X c A2 prev hsplit hc hfuel hprev
    have hfull : hd :: (At ++ Bt) = X ++ c :: (A2 ++ Bt) := by
      rw [← List.cons_append, hsplit]; simp
    have hnext : Next s (some c.idx) level = .ok (firstAbove level (A2 ++ Bt)) :=
      Next_of_slotAt _ _ _ _ (linked_slot s X (A2 ++ Bt) c (hfull ▸ hlink) level hc)
    rcases firstAbove_cases level A2 with hnone | ⟨A20, e, A21, hA2, he, _, hsome⟩
    · -- nothing further at this level is below the target: store and go down
      have hnext1 : Next s (some c.idx) level = .ok (firstAbove level Bt) := by
        rw [hnext, firstAbove_append_none _ _ _ hnone]
      have hkey : KeyIsAfterNode cmp s t (firstAbove level Bt) = .ok false :=
        keyIsAfter_of_not_lt cmp s t Bt
          (describes_mono s Bt _ hdesc (fun e he => by simp [he])) hB level
      have hcur : lastAbove level hd.idx (hd :: At) = c.idx := by
        rw [hsplit]; exact lastAbove_split level hd.idx X A2 c hc hnone
      cases prev with
      | none =>
        by_cases h0 : level = 0
        · subst h0
          simp [FindGreaterOrEqual.loop, hnext1, hkey]
        · have := ih (level - 1) X c A2 none hsplit (by omega) (by omega) (by simp)
          simp [FindGreaterOrEqual.loop, hnext1, hkey, h0, this]
      | some p =>
        have hp : level < p.length := hprev p rfl
        by_cases h0 : level = 0
        · subst h0
          simp [FindGreaterOrEqual.loop, hnext1, hkey, setPrev, hp, recordPrev, hcur]
        · obtain ⟨l, rfl⟩ : ∃ l, level = l + 1 := ⟨level - 1, by omega⟩
          have := ih l X c A2 (some (p.set (l + 1) (some c.idx))) hsplit (by omega) (by omega)
            (by intro q hq; cases hq; simp; omega)
          simp [FindGreaterOrEqual.loop, hnext1, hkey, setPrev, hp, recordPrev, hcur, this]
    · -- the next node at this level is below the target: move right
      have hnext1 : Next s (some c.idx) level = .ok (some e.idx) := by
        rw [hnext, firstAbove_append, hsome]; rfl
      have heA : e ∈ At := mem_tail_of_split hd c At X A2 hsplit e (by simp [hA2])
      have hkey : KeyIsAfterNode cmp s t (some e.idx) = .ok true :=
        keyIsAfter_of_lt cmp s t e (hdesc e (by simp [heA])).1 (hA e heA)
      have := ih level (X ++ c :: A20) e A21 prev (by rw [hsplit, hA2]; simp) he
        (by rw [hA2] at hfuel; simp at hfuel; omega) hprev
      simp [FindGreaterOrEqual.loop, hnext1, hkey, this]

/-- Following the level-`L` pointers from a listed node visits exactly the later
entries taller than `L`, in list order. -/
theorem levelWalk_spec (s : SkipList K R) (L : Nat) :
    ∀ (fuel : Nat) (X : List (Entry K)) (c : Entry K) (Y : List (Entry K)),
      Linked s (X ++ c :: Y) → L < c.height → Y.length < fuel →
      levelWalk s L fuel (some c.idx) =
        .ok ((Y.filter (fun e => decide (L < e.height))).map Entry.idx) := by
  intro fuel
  induction fuel with
  | zero => intro X c Y _ _ hfuel; omega
  | succ fuel ih =>
    intro X c Y hlink hc hfuel
    have hnext : Next s (some c.idx) L = .ok (firstAbove L Y) :=
      Next_of_slotAt _ _ _ _ (linked_slot s X Y c hlink L hc)
    rcases firstAbove_cases L Y with hnone | ⟨Y0, e, Y1, hY, he, h0, hsome⟩
    · have hf : Y.filter (fun e => decide (L < e.height)) = [] := by
        rw [List.filter_eq_nil_iff]
        intro e he
        have := (firstAbove_eq_none_iff L Y).1 hnone e he
        simp; omega
      simp [levelWalk, hnext, hnone, hf]
    · have hf0 : Y0.filter (fun e => decide (L < e.height)) = [] := by
        rw [List.filter_eq_nil_iff]
        intro e he
        have := (firstAbove_eq_none_iff L Y0).1 h0 e he
        simp; omega
      have := ih (X ++ c :: Y0) e Y1 (by rw [hY] at hlink; simpa using hlink) he
        (by rw [hY] at hfuel; simp at hfuel; omega)
      simp only [levelWalk, hnext, hsome, this]
      simp [hY, List.filter_append, hf0, he]

/-- The loop of `FindLast` started at a listed node returns the last listed node. -/
theorem findLast_loop_spec (s : SkipList K R) :
    ∀ (fuel : Nat) (X : List (Entry K)) (c : Entry K) (Y : List (Entry K)),
      Linked s (X ++ c :: Y) → 0 < c.height → (∀ e ∈ Y, 1 ≤ e.height) → Y.length < fuel →
      FindLast.loop s fuel (some c.idx) = .ok (some (lastAbove 0 c.idx Y)) := by
  intro fuel
  induction fuel with
  | zero => intro X c Y _ _ _ hfuel; omega
  | succ fuel ih =>
    intro X c Y hlink hc hY hfuel
    have hnext : Next s (some c.idx) 0 = .ok (firstAbove 0 Y) :=
      Next_of_slotAt _ _ _ _ (linked_slot s X Y c hlink 0 hc)
    cases Y with
    | nil => simp [FindLast.loop, hnext, firstAbove, lastAbove]
    | cons e Y1 =>
      have he : 0 < e.height := hY e (by simp)
      have := ih (X ++ [c]) e Y1 (by simpa using hlink) he
        (fun x hx => hY x (by simp [hx])) (by simp at hfuel; omega)
      simp [FindLast.loop, hnext, firstAbove, lastAbove, he, this]

/-- A key-sorted list splits into the entries below a target and the rest. -/
theorem exists_split (cmp : K → K → Int) (hcmp : StrictTotal cmp) (t : K)
    (order : List (Entry K)) (hs : order.Pairwise (fun a b => cmp a.key b.key < 0)) :
    ∃ At Bt, order = At ++ Bt ∧ (∀ a ∈ At, cmp a.key t < 0) ∧
      (∀ b ∈ Bt, ¬ cmp b.key t < 0) := by
  induction order with
  | nil => exact ⟨[], [], rfl, by simp, by simp⟩
  | cons e es ih =>
    rw [List.pairwise_cons] at hs
    by_cases he : cmp e.key t < 0
    · obtain ⟨At, Bt, h1, h2, h3⟩ := ih hs.2
      refine ⟨e :: At, Bt, by simp [h1], ?_, h3⟩
      intro a ha
      rcases List.mem_cons.1 ha with rfl | ha
      · exact he
      · exact h2 a ha
    · refine ⟨[], e :: es, rfl, by simp, ?_⟩
      intro b hb
      rcases List.mem_cons.1 hb with rfl | hb
      · exact he
      · exact fun hlt => he (hcmp.trans _ _ _ (hs.1 b hb) hlt)

end Search

/-! ## Effect of the primitive stores -/

section Heap

variable {K R : Type}

theorem SameNodes.refl (s : SkipList K R) : SameNodes s s :=
  ⟨rfl, rfl, rfl, rfl, fun _ => rfl, fun _ => rfl⟩

theorem SameNodes.trans {s s1 s2 : SkipList K R} (h1 : SameNodes s s1) (h2 : SameNodes s1 s2) :
    SameNodes s s2 :=
  ⟨h2.head_eq.trans h1.head_eq, h2.cur_eq.trans h1.cur_eq, h2.rnd_eq.trans h1.rnd_eq,
    h2.len_eq.trans h1.len_eq, fun j => (h2.key_eq j).trans (h1.key_eq j),
    fun j => (h2.height_eq j).trans (h1.height_eq j)⟩

/-- A store into an allocated slot succeeds and changes that slot only. -/
theorem SetNext_spec (s : SkipList K R) (i n : Nat) (x : Ptr) (v : Slot)
    (h : slotAt s i n = some v) :
    ∃ s1, SetNext s (some i) n x = .ok s1 ∧ SameNodes s s1 ∧
      ∀ j L, slotAt s1 j L = if j = i ∧ L = n then some (.ptr x) else slotAt s j L := by
  unfold slotAt at h
  cases hn : s.arena_[i]? with
  | none => simp [hn] at h
  | some nd =>
    simp only [hn] at h
    have hlen : n < nd.next_.length := by
      by_contra hc
      rw [List.getElem?_eq_none (by omega)] at h
      cases h
    have hi : i < s.arena_.length := by
      by_contra hc
      rw [List.getElem?_eq_none (by omega)] at hn
      cases hn
    refine ⟨{ s with arena_ := s.arena_.set i { nd with next_ := nd.next_.set n (.ptr x) } },
      by simp [SetNext, hn, hlen], ⟨rfl, rfl, rfl, by simp, ?_, ?_⟩, ?_⟩
    · intro j
      by_cases hj : i = j
      · subst hj; simp [keyAt, hn, hi]
      · simp [keyAt, List.getElem?_set, hj]
    · intro j
      by_cases hj : i = j
      · subst hj; simp [heightAt, hn, hi]
      · simp [heightAt, List.getElem?_set, hj]
    · intro j L
      by_cases hj : i = j
      · subst hj
        by_cases hL : n = L
        · subst hL; simp [slotAt, hi, hlen]
        · have hL1 : ¬ L = n := fun h => hL h.symm
          simp [slotAt, hn, hi, List.getElem?_set, hL, hL1]
      · have hj1 : ¬ j = i := fun h => hj h.symm
        simp [slotAt, List.getElem?_set, hj, hj1]

/-- One iteration of the linking loop advances `LinkInv` by one level. -/
theorem linkStep_spec (s0 : SkipList K R) (newIdx : Nat) (P : Nat → Nat) (N : Nat → Ptr)
    (h : Nat) (prev : List Ptr)
    (hprev : ∀ L, L < h → prev[L]? = some (some (P L)))
    (hPne : ∀ L, L < h → P L ≠ newIdx)
    (hPslot : ∀ L, L < h → slotAt s0 (P L) L = some (.ptr (N L)))
    (hnew : ∀ L, L < h → slotAt s0 newIdx L = some .uninit)
    (j : Nat) (hj : j < h) (s1 : SkipList K R) (hinv : LinkInv s0 newIdx P N j s1) :
    ∃ s2, Insert.linkStep prev (some newIdx) s1 j = .ok s2 ∧
      LinkInv s0 newIdx P N (j + 1) s2 := by
  have h1 : slotAt s1 (P j) j = some (.ptr (N j)) := by
    rw [hinv.2]; simp [hPslot j hj]
  have h2 : slotAt s1 newIdx j = some .uninit := by
    rw [hinv.2]; simp [hnew j hj]
  obtain ⟨sa, hsa, hsame_a, hslot_a⟩ := SetNext_spec s1 newIdx j (N j) _ h2
  have h3 : slotAt sa (P j) j = some (.ptr (N j)) := by
    rw [hslot_a]; simp [hPne j hj, h1]
  obtain ⟨sb, hsb, hsame_b, hslot_b⟩ := SetNext_spec sa (P j) j (some newIdx) _ h3
  refine ⟨sb, ?_, (hinv.1.trans hsame_a).trans hsame_b, ?_⟩
  · simp [Insert.linkStep, hprev j hj, NoBarrier_Next, Next_of_slotAt _ _ _ _ h1,
      NoBarrier_SetNext, hsa, hsb]
  · intro i L
    rw [hslot_b, hslot_a, hinv.2]
    have hP := hPne j hj
    by_cases hL : L = j
    · subst hL
      by_cases hi : i = newIdx
      · subst hi
        have : ¬ i = P L := fun h => hP h.symm
        simp [this]
      · by_cases hi2 : i = P L
        · simp [hi2, hP]
        · simp [hi, hi2]
    · have hlt : (L < j + 1) = (L < j) := by
        apply propext; constructor <;> intro h <;> omega
      simp [hL, hlt]

/-- The linking loop, run from level `j` for `n` more levels. -/
theorem link_loop_spec (s0 : SkipList K R) (newIdx : Nat) (P : Nat → Nat) (N : Nat → Ptr)
    (h : Nat) (prev : List Ptr)
    (hprev : ∀ L, L < h → prev[L]? = some (some (P L)))
    (hPne : ∀ L, L < h → P L ≠ newIdx)
    (hPslot : ∀ L, L < h → slotAt s0 (P L) L = some (.ptr (N L)))
    (hnew : ∀ L, L < h → slotAt s0 newIdx L = some .uninit) :
    ∀ (n j : Nat) (s1 : SkipList K R), j + n ≤ h → LinkInv s0 newIdx P N j s1 →
      ∃ s2, (List.range' j n).foldlM (Insert.linkStep prev (some newIdx)) s1 = .ok s2 ∧
        LinkInv s0 newIdx P N (j + n) s2 := by
  intro n
  induction n with
  | zero => intro j s1 _ hinv; exact ⟨s1, rfl, hinv⟩
  | succ n ih =>
    intro j s1 hle hinv
    obtain ⟨sa, hsa, hinva⟩ :=
      linkStep_spec s0 newIdx P N h prev hprev hPne hPslot hnew j (by omega) s1 hinv
    obtain ⟨sb, hsb, hinvb⟩ := ih (j + 1) sa (by omega) hinva
    refine ⟨sb, ?_, by rw [show j + (n + 1) = j + 1 + n by omega]; exact hinvb⟩
    rw [List.range'_succ, List.foldlM_cons, hsa]
    exact hsb

theorem keyAt_lt_length (s : SkipList K R) (i : Nat) (k : K) (h : keyAt s i = some k) :
    i < s.arena_.length := by
  unfold keyAt at h
  by_contra hc
  rw [List.getElem?_eq_none (by omega)] at h
  cases h

/-- The call `NewNode` appends one node with unwritten slots and leaves the others alone. -/
theorem NewNode_spec (s : SkipList K R) (key : K) (h : Nat) :
    (NewNode s key h).1 = some s.arena_.length ∧
    (NewNode s key h).2.head_ = s.head_ ∧
    (NewNode s key h).2.cur_height_ = s.cur_height_ ∧
    (NewNode s key h).2.rnd_ = s.rnd_ ∧
    (NewNode s key h).2.arena_.length = s.arena_.length + 1 ∧
    (∀ j, keyAt (NewNode s key h).2 j = if j = s.arena_.length then some key else keyAt s j) ∧
    (∀ j, heightAt (NewNode s key h).2 j = if j = s.arena_.length then h else heightAt s j) ∧
    (∀ j L, slotAt (NewNode s key h).2 j L =
      if j = s.arena_.length then (if L < h then some Slot.uninit else none)
      else slotAt s j L) := by
  refine ⟨rfl, rfl, rfl, rfl, by simp [NewNode], ?_, ?_, ?_⟩
  · intro j
    rcases Nat.lt_trichotomy j s.arena_.length with hj | hj | hj
    · simp [NewNode, keyAt, List.getElem?_append_left hj, Nat.ne_of_lt hj]
    · subst hj; simp [NewNode, keyAt]
    · have h1 : s.arena_[j]? = none := List.getElem?_eq_none (by omega)
      have h2 : (s.arena_ ++ [({ key := key, next_ := List.replicate h Slot.uninit } : Node K)])[j]?
          = none := List.getElem?_eq_none (by simp; omega)
      simp [NewNode, keyAt, h1, h2, Nat.ne_of_gt hj]
  · intro j
    rcases Nat.lt_trichotomy j s.arena_.length with hj | hj | hj
    · simp [NewNode, heightAt, List.getElem?_append_left hj, Nat.ne_of_lt hj]
    · subst hj; simp [NewNode, heightAt]
    · have h1 : s.arena_[j]? = none := List.getElem?_eq_none (by omega)
      have h2 : (s.arena_ ++ [({ key := key, next_ := List.replicate h Slot.uninit } : Node K)])[j]?
          = none := List.getElem?_eq_none (by simp; omega)
      simp [NewNode, heightAt, h1, h2, Nat.ne_of_gt hj]
  · intro j L
    rcases Nat.lt_trichotomy j s.arena_.length with hj | hj | hj
    · simp [NewNode, slotAt, List.getElem?_append_left hj, Nat.ne_of_lt hj]
    · subst hj
      by_cases hL : L < h
      · simp [NewNode, slotAt, hL, List.getElem?_replicate]
      · simp [NewNode, slotAt, hL, List.getElem?_replicate]
    · have h1 : s.arena_[j]? = none := List.getElem?_eq_none (by omega)
      have h2 : (s.arena_ ++ [({ key := key, next_ := List.replicate h Slot.uninit } : Node K)])[j]?
          = none := List.getElem?_eq_none (by simp; omega)
      simp [NewNode, slotAt, h1, h2, Nat.ne_of_gt hj]

theorem recordPrev_length (f : Nat → Ptr) (level : Nat) (p : List Ptr) :
    (recordPrev f level p).length = p.length := by
  induction level generalizing p with
  | zero => simp [recordPrev]
  | succ l ih => simp [recordPrev, ih]

theorem recordPrev_get (f : Nat → Ptr) (level : Nat) (p : List Ptr) (L : Nat) :
    (recordPrev f level p)[L]? = if L ≤ level ∧ L < p.length then some (f L) else p[L]? := by
  induction level generalizing p with
  | zero =>
    by_cases hL : L = 0
    · subst hL
      by_cases hp : 0 < p.length
      · simp [recordPrev, hp]
      · have : p = [] := List.eq_nil_of_length_eq_zero (by omega)
        simp [recordPrev, this]
    · have : ¬ 0 = L := fun h => hL h.symm
      simp [recordPrev, List.getElem?_set, this, hL]
  | succ l ih =>
    rw [recordPrev, ih]
    by_cases hL : L = l + 1
    · subst hL
      by_cases hp : l + 1 < p.length
      · simp [hp]
      · have : p[l + 1]? = none := List.getElem?_eq_none (by omega)
        simp [hp, this]
        omega
    · have h1 : ¬ l + 1 = L := fun h => hL h.symm
      have h2 : (L ≤ l + 1) = (L ≤ l) := by
        apply propext; constructor <;> intro h <;> omega
      simp [List.getElem?_set, h1, h2]

/-- The loop `prev[index] = head_` for `index` from `a` to `a + n - 1`. -/
theorem raise_loop_spec (head : Ptr) :
    ∀ (n a : Nat) (prev : List Ptr), a + n ≤ prev.length →
      ∃ q, (List.range' a n).foldlM (fun p index => setPrev p index head) prev = .ok q ∧
        q.length = prev.length ∧
        ∀ L, q[L]? = if a ≤ L ∧ L < a + n then some head else prev[L]? := by
  intro n
  induction n with
  | zero =>
    intro a prev _
    refine ⟨prev, rfl, rfl, ?_⟩
    intro L
    have : ¬ (a ≤ L ∧ L < a + 0) := by omega
    rw [if_neg this]
  | succ n ih =>
    intro a prev hle
    obtain ⟨q, hq, hlen, hget⟩ := ih (a + 1) (prev.set a head) (by simp; omega)
    refine ⟨q, ?_, by simpa using hlen, ?_⟩
    · rw [List.range'_succ, List.foldlM_cons]
      simp only [setPrev, show a < prev.length by omega, if_true]
      exact hq
    · intro L
      rw [hget]
      by_cases hL : L = a
      · subst hL
        simp [show L < prev.length by omega]
      · have h1 : ¬ a = L := fun h => hL h.symm
        have h2 : (a + 1 ≤ L ∧ L < a + 1 + n) = (a ≤ L ∧ L < a + (n + 1)) := by
          apply propext; constructor <;> intro h <;> omega
        simp [List.getElem?_set, h1, h2]

/-- The loop of `RandomHeight` returns within `kMaxHeight - height + 1` iterations
with a height between its start value and `kMaxHeight`. -/
theorem randomHeight_loop_spec (gen : R → Nat × R) :
    ∀ (fuel height : Nat) (r : R), kMaxHeight - height < fuel → height ≤ kMaxHeight →
      ∃ h r1, RandomHeight.loop gen fuel height r = .ok (h, r1) ∧ height ≤ h ∧
        h ≤ kMaxHeight := by
  intro fuel
  induction fuel with
  | zero => intro height r hf; omega
  | succ fuel ih =>
    intro height r hf hle
    by_cases hlt : height < kMaxHeight
    · by_cases hd : (gen r).1 % kBranching = 0
      · obtain ⟨h, r1, h1, h2, h3⟩ := ih (height + 1) (gen r).2 (by omega) (by omega)
        exact ⟨h, r1, by simp [RandomHeight.loop, hlt, hd, h1], by omega, h3⟩
      · exact ⟨height, (gen r).2, by simp [RandomHeight.loop, hlt, hd], le_refl _, hle⟩
    · exact ⟨height, r, by simp [RandomHeight.loop, hlt], le_refl _, hle⟩

theorem randomHeight_spec (gen : R → Nat × R) (r : R) :
    ∃ h r1, RandomHeight gen r = .ok (h, r1) ∧ 1 ≤ h ∧ h ≤ kMaxHeight :=
  randomHeight_loop_spec gen kMaxHeight 1 r (by simp [kMaxHeight]) (by simp [kMaxHeight])

end Heap

/-! ## `Insert` on a modelled state -/

section InsertProof

variable {K R : Type}

theorem linked_cons (s : SkipList K R) (c : Entry K) (Y : List (Entry K)) :
    Linked s (c :: Y) ↔
      (∀ L, L < c.height → slotAt s c.idx L = some (.ptr (firstAbove L Y))) ∧ Linked s Y :=
  Iff.rfl

theorem linked_frame (s s1 : SkipList K R) (Bt : List (Entry K)) (h : Linked s Bt)
    (hf : ∀ b ∈ Bt, ∀ L, L < b.height → slotAt s1 b.idx L = slotAt s b.idx L) :
    Linked s1 Bt := by
  induction Bt with
  | nil => trivial
  | cons b Y ih =>
    refine ⟨fun L hL => ?_, ih h.2 (fun e he => hf e (by simp [he]))⟩
    rw [hf b (by simp) L hL]
    exact h.1 L hL

/-- Linking of the list with the new entry spliced in, proved along the part `P`
that precedes the new entry. -/
theorem linked_insert_prefix (s s1 : SkipList K R) (newE : Entry K) (Bt : List (Entry K))
    (PL : Nat → Nat)
    (hslot_new : ∀ L, L < newE.height →
      slotAt s1 newE.idx L = some (.ptr (firstAbove L Bt)))
    (hslot_P : ∀ L, L < newE.height → PL L ≠ newE.idx →
      slotAt s1 (PL L) L = some (.ptr (some newE.idx)))
    (hslot_frame : ∀ i L, i ≠ newE.idx → ¬ (L < newE.height ∧ i = PL L) →
      slotAt s1 i L = slotAt s i L)
    (hB : Linked s1 Bt) :
    ∀ (P : List (Entry K)) (g : Nat → Nat),
      Linked s (P ++ Bt) → (P.map Entry.idx).Nodup → (∀ e ∈ P, e.idx ≠ newE.idx) →
      (∀ L, L < newE.height → PL L = lastAbove L (g L) P) →
      Linked s1 (P ++ newE :: Bt) := by
  intro P
  induction P with
  | nil => intro g _ _ _ _; exact ⟨hslot_new, hB⟩
  | cons c P1 ih =>
    intro g hlink hnodup hne hPL
    rw [List.map_cons, List.nodup_cons] at hnodup
    rw [List.cons_append, linked_cons] at hlink ⊢
    refine ⟨?_, ih (fun L => if L < c.height then c.idx else g L) hlink.2 hnodup.2
      (fun e he => hne e (by simp [he])) (fun L hL => hPL L hL)⟩
    intro L hL
    have hold : slotAt s c.idx L = some (.ptr (firstAbove L (P1 ++ Bt))) := hlink.1 L hL
    have hcne : c.idx ≠ newE.idx := hne c (by simp)
    by_cases hnone : firstAbove L P1 = none
    · rw [firstAbove_append_none _ _ _ hnone]
      by_cases hLh : L < newE.height
      · have hPc : PL L = c.idx := by
          rw [hPL L hLh]
          simp [lastAbove, hL, lastAbove_of_none _ _ _ hnone]
        have := hslot_P L hLh (by rw [hPc]; exact hcne)
        rw [hPc] at this
        simp [firstAbove, hLh, this]
      · rw [hslot_frame c.idx L hcne (fun h => hLh h.1), hold,
          firstAbove_append_none _ _ _ hnone]
        simp [firstAbove, hLh]
    · have hfa : firstAbove L (P1 ++ newE :: Bt) = firstAbove L (P1 ++ Bt) := by
        rw [firstAbove_append, firstAbove_append]
        cases h : firstAbove L P1 with
        | none => exact absurd h hnone
        | some i => rfl
      rw [hfa, ← hold]
      apply hslot_frame c.idx L hcne
      rintro ⟨hLh, hci⟩
      have hmem : lastAbove L (g L) (c :: P1) ∈ P1.map Entry.idx := by
        simp only [lastAbove]
        exact lastAbove_mem L _ P1 hnone
      rw [← hPL L hLh, ← hci] at hmem
      exact hnodup.1 hmem

theorem lastAbove_head_mem (L d : Nat) (hd : Entry K) (At : List (Entry K))
    (h : L < hd.height) : lastAbove L d (hd :: At) ∈ (hd :: At).map Entry.idx :=
  lastAbove_mem L d (hd :: At) (by simp [firstAbove, h])

/-- The slot of the level-`L` predecessor in `hd :: At` points at the first entry of
`Bt` taller than `L`. -/
theorem linked_pred_slot (s : SkipList K R) (L : Nat) (Bt : List (Entry K)) :
    ∀ (P : List (Entry K)) (d : Nat), Linked s (P ++ Bt) → firstAbove L P ≠ none →
      slotAt s (lastAbove L d P) L = some (.ptr (firstAbove L Bt)) := by
  intro P
  induction P with
  | nil => intro d _ h; simp [firstAbove] at h
  | cons c P1 ih =>
    intro d hlink hne
    rw [List.cons_append, linked_cons] at hlink
    by_cases hnone : firstAbove L P1 = none
    · have hL : L < c.height := by
        by_contra hc
        simp [firstAbove, hc, hnone] at hne
      have := hlink.1 L hL
      rw [firstAbove_append_none _ _ _ hnone] at this
      simp [lastAbove, hL, lastAbove_of_none _ _ _ hnone, this]
    · simp only [lastAbove]
      exact ih _ hlink.2 hnone

/-- The method `FindGreaterOrEqual` on a modelled state whose nodes split into those below the
target (`At`) and the rest (`Bt`). -/
theorem fge_spec (cmp : K → K → Int) (s : SkipList K R) (t : K) (hd : Entry K)
    (At Bt : List (Entry K)) (M : Models cmp s hd (At ++ Bt))
    (hA : ∀ a ∈ At, cmp a.key t < 0) (hB : ∀ b ∈ Bt, ¬ cmp b.key t < 0)
    (fuel : Nat) (hfuel : At.length + s.cur_height_ ≤ fuel) (prev : Option (List Ptr))
    (hprev : ∀ p, prev = some p → s.cur_height_ ≤ p.length) :
    FindGreaterOrEqual cmp fuel s t prev =
      .ok (firstAbove 0 Bt,
        prev.map (recordPrev (fun L => some (lastAbove L hd.idx (hd :: At)))
          (s.cur_height_ - 1))) := by
  have hpos := M.cur_pos
  have hle := M.cur_le
  have := fge_loop_spec cmp s t hd At Bt M.describes M.linked hA hB fuel (s.cur_height_ - 1)
    [] hd At prev rfl (by rw [M.head_height]; omega) (by omega)
    (fun p hp => by have := hprev p hp; omega)
  simp [FindGreaterOrEqual, GetMaxHeight, Nat.ne_of_gt hpos, M.head_eq, this]

/-- The loop of `FindLessThan` returns a listed node whatever the comparator answers:
each iteration moves to a later listed node or goes down one level. -/
theorem flt_loop_total (cmp : K → K → Int) (s : SkipList K R) (t : K) (hd : Entry K)
    (order : List (Entry K))
    (hdesc : Describes s (hd :: order)) (hlink : Linked s (hd :: order)) :
    ∀ (fuel level : Nat) (X : List (Entry K)) (c : Entry K) (Y : List (Entry K)),
      hd :: order = X ++ c :: Y → level < c.height → Y.length + level < fuel →
      ∃ e ∈ hd :: order, FindLessThan.loop cmp s t fuel (some c.idx) level =
        .ok (some e.idx) := by
  intro fuel
  induction fuel with
  | zero => intro level X c Y _ _ hfuel; omega
  | succ fuel ih =>
    intro level X c Y hsplit hc hfuel
    have hnext : Next s (some c.idx) level = .ok (firstAbove level Y) :=
      Next_of_slotAt _ _ _ _ (linked_slot s X Y c (hsplit ▸ hlink) level hc)
    have hcmem : c ∈ hd :: order := by rw [hsplit]; simp
    have hdown : ∃ e ∈ hd :: order,
        (if level = 0 then (.ok (some c.idx) : Except Fault Ptr)
          else FindLessThan.loop cmp s t fuel (some c.idx) (level - 1)) =
          .ok (some e.idx) := by
      by_cases h0 : level = 0
      · exact ⟨c, hcmem, by simp [h0]⟩
      · obtain ⟨e, he, hl⟩ := ih (level - 1) X c Y hsplit (by omega) (by omega)
        exact ⟨e, he, by simp [h0, hl]⟩
    rcases firstAbove_cases level Y with hnone | ⟨Y0, e, Y1, hY, he, _, hsome⟩
    · obtain ⟨e1, he1, hl⟩ := hdown
      refine ⟨e1, he1, ?_⟩
      rw [hnone] at hnext
      simp only [FindLessThan.loop, hnext, ge_iff_le, zero_le_one, if_true]
      exact hl
    · rw [hsome] at hnext
      have heY : e ∈ hd :: order := by rw [hsplit, hY]; simp
      have hkey := keyOf_of_keyAt s _ _ (hdesc e heY).1
      by_cases hge : toInt32 (cmp e.key t) ≥ 0
      · obtain ⟨e1, he1, hl⟩ := hdown
        refine ⟨e1, he1, ?_⟩
        simp only [FindLessThan.loop, hnext, hkey, hge, if_true]
        exact hl
      · obtain ⟨e1, he1, hl⟩ := ih level (X ++ c :: Y0) e Y1 (by rw [hsplit, hY]; simp) he
          (by rw [hY] at hfuel; simp at hfuel; omega)
        refine ⟨e1, he1, ?_⟩
        simp only [FindLessThan.loop, hnext, hkey, hge, if_false]
        exact hl

/-- The method `FindLessThan` returns a listed node on a modelled state, for every
comparator. -/
theorem flt_total (cmp cmp1 : K → K → Int) (s : SkipList K R) (t : K) (hd : Entry K)
    (order : List (Entry K)) (M : Models cmp1 s hd order)
    (fuel : Nat) (hfuel : order.length + s.cur_height_ ≤ fuel) :
    ∃ e ∈ hd :: order, FindLessThan cmp fuel s t = .ok (some e.idx) := by
  have hpos := M.cur_pos
  have hle := M.cur_le
  obtain ⟨e, he, hl⟩ := flt_loop_total cmp s t hd order M.describes M.linked fuel
    (s.cur_height_ - 1) [] hd order rfl (by rw [M.head_height]; omega) (by omega)
  refine ⟨e, he, ?_⟩
  simp [FindLessThan, GetMaxHeight, Nat.ne_of_gt hpos, M.head_eq, hl]

/-- The abstract effect of a completed `Insert` of a fresh key: the new entry sits
between the entries below the key and those above it. -/
theorem models_insert (cmp : K → K → Int) (s s2 s1 : SkipList K R)
    (hd : Entry K) (At Bt : List (Entry K)) (t : K) (h : Nat)
    (M : Models cmp s hd (At ++ Bt))
    (hA : ∀ a ∈ At, cmp a.key t < 0) (hB : ∀ b ∈ Bt, cmp t b.key < 0)
    (h1 : 1 ≤ h) (h2 : h ≤ kMaxHeight)
    (hs2a : s2.arena_ = s.arena_) (hs2h : s2.head_ = s.head_)
    (hs2c : s2.cur_height_ = max s.cur_height_ h)
    (hinv : LinkInv (NewNode s2 t h).2 s.arena_.length
      (fun L => lastAbove L hd.idx (hd :: At)) (fun L => firstAbove L Bt) h s1) :
    Models cmp s1 hd (At ++ ⟨s.arena_.length, t, h⟩ :: Bt) := by
  obtain ⟨_, hnh, hnc, _, hnl, hnk, hnht, hns⟩ := NewNode_spec s2 t h
  rw [hs2a] at hnl hnk hnht hns
  have hk2 : ∀ j, keyAt s2 j = keyAt s j := fun j => by simp [keyAt, hs2a]
  have hh2 : ∀ j, heightAt s2 j = heightAt s j := fun j => by simp [heightAt, hs2a]
  have hsl2 : ∀ j L, slotAt s2 j L = slotAt s j L := fun j L => by simp [slotAt, hs2a]
  have hidx : ∀ e ∈ hd :: (At ++ Bt), e.idx < s.arena_.length := fun e he =>
    keyAt_lt_length s _ _ (M.describes e he).1
  have hmemP : ∀ L, L < h → lastAbove L hd.idx (hd :: At) ∈ (hd :: At).map Entry.idx :=
    fun L hL => lastAbove_head_mem L hd.idx hd At (by rw [M.head_height]; omega)
  have hPlt : ∀ L, L < h → lastAbove L hd.idx (hd :: At) < s.arena_.length := by
    intro L hL
    obtain ⟨e, he, hei⟩ := List.mem_map.1 (hmemP L hL)
    rw [← hei]
    exact hidx e (by
      rcases List.mem_cons.1 he with rfl | he
      · simp
      · simp [he])
  have hold : ∀ e, e ∈ hd :: (At ++ ⟨s.arena_.length, t, h⟩ :: Bt) →
      e = ⟨s.arena_.length, t, h⟩ ∨ e ∈ hd :: (At ++ Bt) := by
    intro e he
    simp only [List.mem_cons, List.mem_append] at he ⊢
    tauto
  have hmono : ∀ e, e ∈ At ++ Bt → e ∈ At ++ ⟨s.arena_.length, t, h⟩ :: Bt := by
    intro e he
    simp only [List.mem_cons, List.mem_append] at he ⊢
    tauto
  refine ⟨?_, M.head_height, ?_, ?_, ?_, ?_, ?_, ?_, ?_, ?_, ?_, ?_, ?_⟩
  · rw [hinv.1.head_eq, hnh, hs2h, M.head_eq]
  · intro e he
    rw [hinv.1.key_eq, hinv.1.height_eq, hnk, hnht]
    rcases hold e he with rfl | he
    · simp
    · have := hidx e he
      rw [if_neg (by omega), if_neg (by omega), hk2, hh2]
      exact M.describes e he
  · have hfr : ∀ i L, i ≠ s.arena_.length →
        ¬ (L < h ∧ i = lastAbove L hd.idx (hd :: At)) → slotAt s1 i L = slotAt s i L := by
      intro i L hi hn
      rw [hinv.2, hns, hsl2]
      simp only [hi, and_false, if_false]
      rw [if_neg hn]
    have hlinkB : Linked s1 Bt := by
      apply linked_frame s s1 Bt (linked_suffix s (hd :: At) Bt M.linked)
      intro b hb L _
      apply hfr b.idx L (by have := hidx b (by simp [hb]); omega)
      rintro ⟨hL, hbi⟩
      have hnd := M.nodup
      rw [← List.cons_append, List.map_append, List.nodup_append] at hnd
      exact hnd.2.2 (hbi ▸ hmemP L hL) (List.mem_map_of_mem _ hb)
    have := linked_insert_prefix s s1 ⟨s.arena_.length, t, h⟩ Bt
      (fun L => lastAbove L hd.idx (hd :: At))
      (fun L hL => by rw [hinv.2]; simp at hL; simp [hL])
      (fun L hL hne => by
        rw [hinv.2]
        simp only at hL hne
        simp [hL, hne])
      (fun i L hi hn => hfr i L hi hn) hlinkB (hd :: At) (fun _ => hd.idx)
      M.linked
      (by
        have hnd := M.nodup
        rw [← List.cons_append, List.map_append, List.nodup_append] at hnd
        exact hnd.1)
      (fun e he => by
        have := hidx e (by
          rcases List.mem_cons.1 he with rfl | he
          · simp
          · simp [he])
        simp; omega)
      (fun L _ => rfl)
    exact this
  · have hnd := M.nodup
    have hnew : s.arena_.length ∉ (hd :: (At ++ Bt)).map Entry.idx := by
      intro hmem
      obtain ⟨e, he, hei⟩ := List.mem_map.1 hmem
      have := hidx e he
      omega
    rw [← List.cons_append, List.map_append, List.map_cons]
    rw [← List.cons_append, List.map_append] at hnd hnew
    exact List.nodup_middle.2 (List.nodup_cons.2 ⟨hnew, hnd⟩)
  · rw [hinv.1.len_eq, hnl, M.size]
    simp
    omega
  · intro i hi
    rw [hinv.1.len_eq, hnl] at hi
    by_cases hin : i = s.arena_.length
    · subst hin; simp
    · have := M.covers i (by omega)
      simp only [List.map_cons, List.map_append, List.mem_cons, List.mem_append] at this ⊢
      tauto
  · intro e he
    rcases hold e (List.mem_cons_of_mem _ he) with rfl | he1
    · exact h1
    · rcases List.mem_cons.1 he1 with rfl | he2
      · rw [M.head_height]; simp [kMaxHeight]
      · exact M.height_pos e he2
  · intro e he
    rw [hinv.1.cur_eq, hnc, hs2c]
    simp only [List.mem_append, List.mem_cons] at he
    rcases he with he | rfl | he
    · exact le_trans (M.height_le e (by simp [he])) (le_max_left _ _)
    · exact le_max_right _ _
    · exact le_trans (M.height_le e (by simp [he])) (le_max_left _ _)
  · rw [hinv.1.cur_eq, hnc, hs2c]
    exact le_trans M.cur_pos (le_max_left _ _)
  · rw [hinv.1.cur_eq, hnc, hs2c]
    exact max_le M.cur_le h2
  · rw [hinv.1.cur_eq, hnc, hs2c]
    by_cases hgt : s.cur_height_ < h
    · right
      exact ⟨⟨s.arena_.length, t, h⟩, by simp, by simp [max_eq_right (le_of_lt hgt)]⟩
    · rw [max_eq_left (by omega)]
      rcases M.cur_max with hc | ⟨e, he, hec⟩
      · left; exact hc
      · right; exact ⟨e, hmono e he, hec⟩
  · have hs := M.sorted
    rw [List.pairwise_append] at hs ⊢
    refine ⟨hs.1, ?_, ?_⟩
    · rw [List.pairwise_cons]
      exact ⟨fun b hb => hB b hb, hs.2.1⟩
    · intro a ha b hb
      rcases List.mem_cons.1 hb with rfl | hb
      · exact hA a ha
      · exact hs.2.2 a ha b hb

/-- The allocation and the linking loop of `Insert`, given the predecessor array. -/
theorem fresh_link (cmp : K → K → Int) (s s2 : SkipList K R)
    (hd : Entry K) (At Bt : List (Entry K)) (t : K) (h : Nat)
    (M : Models cmp s hd (At ++ Bt))
    (hA : ∀ a ∈ At, cmp a.key t < 0) (hB : ∀ b ∈ Bt, cmp t b.key < 0)
    (h1 : 1 ≤ h) (h2 : h ≤ kMaxHeight)
    (hs2a : s2.arena_ = s.arena_) (hs2h : s2.head_ = s.head_)
    (hs2c : s2.cur_height_ = max s.cur_height_ h)
    (prev1 : List Ptr)
    (hprev1 : ∀ L, L < h → prev1[L]? = some (some (lastAbove L hd.idx (hd :: At)))) :
    ∃ s1, Insert.link prev1 (NewNode s2 t h).1 h (NewNode s2 t h).2 = .ok s1 ∧
      Models cmp s1 hd (At ++ ⟨s.arena_.length, t, h⟩ :: Bt) ∧
      s1.cur_height_ = s2.cur_height_ ∧ s1.rnd_ = s2.rnd_ := by
  obtain ⟨hn1, _, hnc, hnr, _, _, _, hns⟩ := NewNode_spec s2 t h
  rw [hs2a] at hn1 hns
  have hsl2 : ∀ j L, slotAt s2 j L = slotAt s j L := fun j L => by simp [slotAt, hs2a]
  have hPlt : ∀ L, L < h → lastAbove L hd.idx (hd :: At) < s.arena_.length := by
    intro L hL
    have hm := lastAbove_head_mem L hd.idx hd At (by rw [M.head_height]; omega)
    obtain ⟨e, he, hei⟩ := List.mem_map.1 hm
    rw [← hei]
    exact keyAt_lt_length s _ _ (M.describes e (by
      rcases List.mem_cons.1 he with rfl | he
      · simp
      · simp [he])).1
  obtain ⟨s1, hs1, hinv⟩ := link_loop_spec (NewNode s2 t h).2 s.arena_.length
    (fun L => lastAbove L hd.idx (hd :: At)) (fun L => firstAbove L Bt) h prev1 hprev1
    (fun L hL => by have := hPlt L hL; simp only; omega)
    (fun L hL => by
      have := hPlt L hL
      rw [hns, if_neg (by simp only; omega), hsl2]
      have hL20 : L < hd.height := by rw [M.head_height]; omega
      exact linked_pred_slot s L Bt (hd :: At) hd.idx M.linked (by simp [firstAbove, hL20]))
    (fun L hL => by rw [hns]; simp [hL])
    h 0 (NewNode s2 t h).2 (by omega)
    ⟨SameNodes.refl _, fun i L => by simp⟩
  rw [Nat.zero_add] at hinv
  refine ⟨s1, ?_, models_insert cmp s s2 s1 hd At Bt t h M hA hB h1 h2 hs2a hs2h hs2c hinv,
    by rw [hinv.1.cur_eq, hnc], by rw [hinv.1.rnd_eq, hnr]⟩
  rw [Insert.link, hn1]
  exact hs1

/-- The part of `Insert` after the duplicate check, on a modelled state and with
the predecessor array `FindGreaterOrEqual` leaves. -/
theorem fresh_spec (cmp : K → K → Int) (gen : R → Nat × R) (s : SkipList K R)
    (hd : Entry K) (At Bt : List (Entry K)) (t : K)
    (M : Models cmp s hd (At ++ Bt))
    (hA : ∀ a ∈ At, cmp a.key t < 0) (hB : ∀ b ∈ Bt, cmp t b.key < 0)
    (prev : List Ptr) (hlen : prev.length = kMaxHeight)
    (hprev : ∀ L, L < s.cur_height_ →
      prev[L]? = some (some (lastAbove L hd.idx (hd :: At)))) :
    ∃ s1 h r, RandomHeight gen s.rnd_ = .ok (h, r) ∧ 1 ≤ h ∧ h ≤ kMaxHeight ∧
      Insert.fresh gen s t prev = .ok s1 ∧
      Models cmp s1 hd (At ++ ⟨s.arena_.length, t, h⟩ :: Bt) ∧
      s1.cur_height_ = max s.cur_height_ h ∧ s1.rnd_ = r := by
  obtain ⟨h, r, hrh, h1, h2⟩ := randomHeight_spec gen s.rnd_
  by_cases hgt : s.cur_height_ < h
  · obtain ⟨q, hq, _, hget⟩ := raise_loop_spec s.head_ (h - s.cur_height_)
      s.cur_height_ prev (by rw [hlen]; omega)
    have hq1 : ∀ L, L < h → q[L]? = some (some (lastAbove L hd.idx (hd :: At))) := by
      intro L hL
      rw [hget]
      by_cases hc : L < s.cur_height_
      · rw [if_neg (by omega)]; exact hprev L hc
      · rw [if_pos (by omega)]
        have hnone : firstAbove L At = none := by
          rw [firstAbove_eq_none_iff]
          intro e he
          have := M.height_le e (by simp [he])
          omega
        have hL20 : L < hd.height := by rw [M.head_height]; omega
        simp [lastAbove, hL20, lastAbove_of_none _ _ _ hnone, M.head_eq]
    obtain ⟨s1, hs1, hM, hc, hr⟩ := fresh_link cmp s
      { s with rnd_ := r, cur_height_ := h } hd At Bt t h M hA hB h1 h2 rfl rfl
      (by simp [max_eq_right (le_of_lt hgt)]) q hq1
    refine ⟨s1, h, r, hrh, h1, h2, ?_, hM, by rw [hc]; simp [max_eq_right (le_of_lt hgt)],
      by rw [hr]⟩
    simp only [Insert.fresh, hrh, GetMaxHeight, gt_iff_lt, hgt, if_true, Insert.raise, hq]
    exact hs1
  · have hp1 : ∀ L, L < h → prev[L]? = some (some (lastAbove L hd.idx (hd :: At))) :=
      fun L hL => hprev L (by omega)
    obtain ⟨s1, hs1, hM, hc, hr⟩ := fresh_link cmp s
      { s with rnd_ := r } hd At Bt t h M hA hB h1 h2 rfl rfl
      (by simp [max_eq_left (not_lt.mp hgt)]) prev hp1
    refine ⟨s1, h, r, hrh, h1, h2, ?_, hM, by rw [hc]; simp [max_eq_left (not_lt.mp hgt)],
      by rw [hr]⟩
    simp only [Insert.fresh, hrh, GetMaxHeight, gt_iff_lt, hgt, if_false]
    exact hs1

theorem cmp_eq_zero_symm (cmp : K → K → Int) (hcmp : StrictTotal cmp) (a b : K)
    (h : cmp a b = 0) : cmp b a = 0 := by
  have h1 := hcmp.flip a b
  have h2 := hcmp.flip b a
  omega

theorem cmp_lt_of_not_lt_of_ne (cmp : K → K → Int) (hcmp : StrictTotal cmp) (a b : K)
    (h1 : ¬ cmp b a < 0) (h2 : cmp a b ≠ 0) : cmp a b < 0 := by
  have := hcmp.flip b a
  omega

/-- The method `Insert` on a modelled state: either an equal key is present and the state is
returned as it is, or no equal key is present and the result models the sequence
with one new entry, of the drawn height, at its place in key order. -/
theorem insert_spec (cmp : K → K → Int) (hcmp : StrictTotal cmp) (gen : R → Nat × R)
    (s : SkipList K R) (hd : Entry K) (order : List (Entry K)) (M : Models cmp s hd order)
    (t : K) (fuel : Nat) (hfuel : order.length + s.cur_height_ ≤ fuel) :
    ((∃ e ∈ order, cmp t e.key = 0) ∧ Insert cmp gen fuel s t = .ok s) ∨
    ((∀ e ∈ order, cmp t e.key ≠ 0) ∧
      ∃ s1 At Bt h r, order = At ++ Bt ∧ (∀ a ∈ At, cmp a.key t < 0) ∧
        (∀ b ∈ Bt, cmp t b.key < 0) ∧ RandomHeight gen s.rnd_ = .ok (h, r) ∧
        1 ≤ h ∧ h ≤ kMaxHeight ∧ Insert cmp gen fuel s t = .ok s1 ∧
        Models cmp s1 hd (At ++ ⟨s.arena_.length, t, h⟩ :: Bt) ∧
        s1.cur_height_ = max s.cur_height_ h ∧ s1.rnd_ = r) := by
  obtain ⟨At, Bt, rfl, hA, hB⟩ := exists_split cmp hcmp t order M.sorted
  have hcl := M.cur_le
  have hcp := M.cur_pos
  have hfge := fge_spec cmp s t hd At Bt M hA hB fuel (by simp at hfuel; omega)
    (some (List.replicate kMaxHeight none)) (by intro p hp; cases hp; simpa using hcl)
  simp only [Option.map_some'] at hfge
  have hlen : (recordPrev (fun L => some (lastAbove L hd.idx (hd :: At)))
      (s.cur_height_ - 1) (List.replicate kMaxHeight none)).length = kMaxHeight := by
    rw [recordPrev_length]; simp
  have hprev : ∀ L, L < s.cur_height_ →
      (recordPrev (fun L => some (lastAbove L hd.idx (hd :: At)))
        (s.cur_height_ - 1) (List.replicate kMaxHeight none))[L]? =
        some (some (lastAbove L hd.idx (hd :: At))) := by
    intro L hL
    rw [recordPrev_get, if_pos ⟨by omega, by simp; omega⟩]
  have hAne : ∀ a ∈ At, cmp t a.key ≠ 0 := by
    intro a ha h0
    have := hA a ha
    have := cmp_eq_zero_symm cmp hcmp _ _ h0
    omega
  have hfresh : (∀ b ∈ Bt, cmp t b.key < 0) →
      Insert cmp gen fuel s t = Insert.fresh gen s t
        (recordPrev (fun L => some (lastAbove L hd.idx (hd :: At)))
          (s.cur_height_ - 1) (List.replicate kMaxHeight none)) →
      ((∃ e ∈ At ++ Bt, cmp t e.key = 0) ∧ Insert cmp gen fuel s t = .ok s) ∨
      ((∀ e ∈ At ++ Bt, cmp t e.key ≠ 0) ∧
        ∃ s1 At1 Bt1 h r, At ++ Bt = At1 ++ Bt1 ∧ (∀ a ∈ At1, cmp a.key t < 0) ∧
          (∀ b ∈ Bt1, cmp t b.key < 0) ∧ RandomHeight gen s.rnd_ = .ok (h, r) ∧
          1 ≤ h ∧ h ≤ kMaxHeight ∧ Insert cmp gen fuel s t = .ok s1 ∧
          Models cmp s1 hd (At1 ++ ⟨s.arena_.length, t, h⟩ :: Bt1) ∧
          s1.cur_height_ = max s.cur_height_ h ∧ s1.rnd_ = r) := by
    intro hB1 hins
    right
    obtain ⟨s1, h, r, hrh, h1, h2, hfr, hM, hc, hr⟩ :=
      fresh_spec cmp gen s hd At Bt t M hA hB1 _ hlen hprev
    refine ⟨?_, s1, At, Bt, h, r, rfl, hA, hB1, hrh, h1, h2, by rw [hins]; exact hfr, hM, hc, hr⟩
    intro e he
    rcases List.mem_append.1 he with he | he
    · exact hAne e he
    · have := hB1 e he; omega
  cases Bt with
  | nil =>
    apply hfresh (by simp)
    simp [Insert, hfge, firstAbove]
  | cons b Bt1 =>
    have hb1 : 0 < b.height := M.height_pos b (by simp)
    have hkey : keyOf s (some b.idx) = .ok b.key :=
      keyOf_of_keyAt s _ _ (M.describes b (by simp)).1
    by_cases heq : cmp t b.key = 0
    · left
      refine ⟨⟨b, by simp, heq⟩, ?_⟩
      simp [Insert, hfge, firstAbove, hb1, hkey, Equal, heq]
    · apply hfresh
      · intro e he
        have hbt : cmp t b.key < 0 :=
          cmp_lt_of_not_lt_of_ne cmp hcmp t b.key (hB b (by simp)) heq
        rcases List.mem_cons.1 he with rfl | he1
        · exact hbt
        · have hs := M.sorted
          rw [List.pairwise_append, List.pairwise_cons] at hs
          exact hcmp.trans _ _ _ hbt (hs.2.1.1 e he1)
      · simp [Insert, hfge, firstAbove, hb1, hkey, Equal, heq]

/-- The loop of the constructor stores `nullptr` into the head's slots one by one. -/
theorem initHead_loop (s0 : SkipList K R) (i0 H : Nat) (hh : s0.head_ = some i0)
    (hs : ∀ L, L < H → ∃ v, slotAt s0 i0 L = some v) :
    ∀ (n j : Nat) (s1 : SkipList K R), j + n ≤ H → SameNodes s0 s1 →
      (∀ i L, slotAt s1 i L =
        if i = i0 ∧ L < j then some (.ptr none) else slotAt s0 i L) →
      ∃ s2, (List.range' j n).foldlM (fun t i => SetNext t t.head_ i none) s1 = .ok s2 ∧
        SameNodes s0 s2 ∧
        ∀ i L, slotAt s2 i L =
          if i = i0 ∧ L < j + n then some (.ptr none) else slotAt s0 i L := by
  intro n
  induction n with
  | zero => intro j s1 _ hsame hslot; exact ⟨s1, rfl, hsame, hslot⟩
  | succ n ih =>
    intro j s1 hle hsame hslot
    obtain ⟨v, hv⟩ := hs j (by omega)
    have h1 : slotAt s1 i0 j = some v := by rw [hslot]; simp [hv]
    obtain ⟨sa, hsa, hsame_a, hslot_a⟩ := SetNext_spec s1 i0 j none v h1
    obtain ⟨sb, hsb, hsame_b, hslot_b⟩ := ih (j + 1) sa (by omega) (hsame.trans hsame_a)
      (by
        intro i L
        rw [hslot_a, hslot]
        by_cases hi : i = i0
        · by_cases hL : L = j
          · simp [hi, hL]
          · have : (L < j + 1) = (L < j) := by
              apply propext; constructor <;> intro h <;> omega
            simp [hi, hL, this]
        · simp [hi])
    refine ⟨sb, ?_, hsame_b, by rw [show j + (n + 1) = j + 1 + n by omega]; exact hslot_b⟩
    rw [List.range'_succ, List.foldlM_cons]
    simp only [hsame.head_eq, hh]
    rw [hsa]
    exact hsb

/-- The constructor returns a state that models the empty sequence. -/
theorem new_spec (cmp : K → K → Int) (zero : K) (r0 : R) :
    ∃ s, SkipList.new zero r0 = .ok s ∧ Models cmp s ⟨0, zero, kMaxHeight⟩ [] ∧
      s.cur_height_ = 1 ∧ s.rnd_ = r0 := by
  have hs0 : ∀ L, L < kMaxHeight → ∃ v,
      slotAt (⟨[⟨zero, List.replicate kMaxHeight Slot.uninit⟩], some 0, 1, r0⟩ : SkipList K R)
        0 L = some v := by
    intro L hL
    exact ⟨Slot.uninit, by simp [slotAt, List.getElem?_replicate, hL]⟩
  obtain ⟨s, hs, hsame, hslot⟩ := initHead_loop
    (⟨[⟨zero, List.replicate kMaxHeight Slot.uninit⟩], some 0, 1, r0⟩ : SkipList K R)
    0 kMaxHeight rfl hs0 kMaxHeight 0 _ (by omega) (SameNodes.refl _) (by intro i L; simp)
  refine ⟨s, hs, ?_, hsame.cur_eq, hsame.rnd_eq⟩
  refine ⟨hsame.head_eq, rfl, ?_, ?_, by simp, hsame.len_eq,
    by rw [hsame.len_eq]; intro i hi; simp at hi; simp [hi], by simp, by simp,
    by rw [hsame.cur_eq], by rw [hsame.cur_eq]; simp [kMaxHeight], Or.inl hsame.cur_eq,
    List.Pairwise.nil⟩
  · intro e he
    simp only [List.mem_singleton] at he
    subst he
    rw [hsame.key_eq, hsame.height_eq]
    exact ⟨rfl, by simp [heightAt]⟩
  · refine ⟨?_, trivial⟩
    intro L hL
    simp only at hL
    rw [hslot]
    simp [firstAbove, hL]

/-- More fuel does not change a result of the loop of `FindGreaterOrEqual`. -/
theorem fge_loop_mono (cmp : K → K → Int) (s : SkipList K R) (key : K) :
    ∀ (fuel fuel1 : Nat) (cur : Ptr) (level : Nat) (prev : Option (List Ptr))
      (r : Ptr × Option (List Ptr)), fuel ≤ fuel1 →
      FindGreaterOrEqual.loop cmp s key fuel cur level prev = .ok r →
      FindGreaterOrEqual.loop cmp s key fuel1 cur level prev = .ok r := by
  intro fuel
  induction fuel with
  | zero => intro fuel1 cur level prev r _ h; simp [FindGreaterOrEqual.loop] at h
  | succ n ih =>
    intro fuel1 cur level prev r hle h
    cases fuel1 with
    | zero => omega
    | succ m =>
      simp only [FindGreaterOrEqual.loop] at h ⊢
      cases hN : Next s cur level with
      | error e => simp [hN] at h
      | ok next =>
        simp only [hN] at h ⊢
        cases hK : KeyIsAfterNode cmp s key next with
        | error e => simp [hK] at h
        | ok b =>
          cases b with
          | true =>
            simp only [hK] at h ⊢
            exact ih m _ _ _ _ (by omega) h
          | false =>
            simp only [hK] at h ⊢
            split at h
            · exact absurd h (by simp)
            · rename_i prev1 hst
              by_cases h0 : level = 0
              · simpa [h0] using h
              · simp only [h0, if_false] at h ⊢
                exact ih m _ _ _ _ (by omega) h

theorem fge_mono (cmp : K → K → Int) (s : SkipList K R) (key : K) (fuel k : Nat)
    (prev : Option (List Ptr)) (r : Ptr × Option (List Ptr))
    (h : FindGreaterOrEqual cmp fuel s key prev = .ok r) :
    FindGreaterOrEqual cmp (fuel + k) s key prev = .ok r := by
  unfold FindGreaterOrEqual at h ⊢
  by_cases h0 : GetMaxHeight s = 0
  · simp [h0] at h
  · simp only [h0, if_false] at h ⊢
    exact fge_loop_mono cmp s key fuel (fuel + k) _ _ _ _ (by omega) h

theorem insert_mono (cmp : K → K → Int) (gen : R → Nat × R) (s s1 : SkipList K R) (key : K)
    (fuel k : Nat) (h : Insert cmp gen fuel s key = .ok s1) :
    Insert cmp gen (fuel + k) s key = .ok s1 := by
  unfold Insert at h ⊢
  cases hF : FindGreaterOrEqual cmp fuel s key (some (List.replicate kMaxHeight none)) with
  | error e => simp [hF] at h
  | ok r =>
    rw [fge_mono cmp s key fuel k _ r hF]
    rw [hF] at h
    exact h

/-- Every reachable state models some key-sorted sequence of nodes. -/
theorem reachable_models (cmp : K → K → Int) (hcmp : StrictTotal cmp) (gen : R → Nat × R)
    (s : SkipList K R) (hr : Reachable cmp gen s) :
    ∃ hd order, Models cmp s hd order := by
  induction hr with
  | init zero r0 s hs =>
    obtain ⟨s1, hs1, hM, _⟩ := new_spec cmp zero r0
    rw [hs] at hs1
    cases hs1
    exact ⟨_, _, hM⟩
  | insert fuel s s1 key _ hins ih =>
    obtain ⟨hd, order, M⟩ := ih
    have hbig := insert_mono cmp gen s s1 key fuel (order.length + s.cur_height_) hins
    rcases insert_spec cmp hcmp gen s hd order M key (fuel + (order.length + s.cur_height_))
        (by omega) with ⟨_, h1⟩ | ⟨_, s2, At, Bt, h, r, _, _, _, _, _, _, h1, hM, _⟩
    · rw [hbig] at h1
      cases h1
      exact ⟨hd, order, M⟩
    · rw [hbig] at h1
      cases h1
      exact ⟨hd, _, hM⟩

end InsertProof

/-! ## From the abstract view back to the code -/

section Bridge

variable {K R : Type}

theorem cmp_eq_zero_trans (cmp : K → K → Int) (hcmp : StrictTotal cmp) (a b c : K)
    (h1 : cmp a b = 0) (h2 : cmp b c = 0) : cmp a c = 0 := by
  have h3 := cmp_eq_zero_symm cmp hcmp _ _ h2
  have h4 := hcmp.eqv_right a c b
  have h5 := hcmp.eqv_right c a b
  have h6 := hcmp.flip c a
  omega

/-- The level-`L` traversal of a modelled state lists the nodes taller than `L`. -/
theorem models_levelNodes (cmp : K → K → Int) (s : SkipList K R) (hd : Entry K)
    (order : List (Entry K)) (M : Models cmp s hd order) (L : Nat) (hL : L < kMaxHeight)
    (fuel : Nat) (hfuel : order.length < fuel) :
    levelNodes fuel s L =
      .ok ((order.filter (fun e => decide (L < e.height))).map Entry.idx) := by
  rw [levelNodes, M.head_eq]
  exact levelWalk_spec s L fuel [] hd order M.linked (by rw [M.head_height]; exact hL) hfuel

/-- The level-0 traversal of a modelled state lists every real node. -/
theorem models_level0 (cmp : K → K → Int) (s : SkipList K R) (hd : Entry K)
    (order : List (Entry K)) (M : Models cmp s hd order)
    (fuel : Nat) (hfuel : order.length < fuel) :
    levelNodes fuel s 0 = .ok (order.map Entry.idx) := by
  rw [models_levelNodes cmp s hd order M 0 (by simp [kMaxHeight]) fuel hfuel]
  congr 2
  rw [List.filter_eq_self]
  intro e he
  have := M.height_pos e he
  simp; omega

theorem models_fuel (cmp : K → K → Int) (s : SkipList K R) (hd : Entry K)
    (order : List (Entry K)) (M : Models cmp s hd order)
    (fuel : Nat) (hfuel : s.arena_.length + kMaxHeight ≤ fuel) :
    order.length + s.cur_height_ ≤ fuel ∧ order.length < fuel := by
  have := M.size
  have := M.cur_le
  have : 0 < kMaxHeight := by simp [kMaxHeight]
  omega

/-- The method `Contains` on a modelled state. -/
theorem contains_spec (cmp : K → K → Int) (hcmp : StrictTotal cmp) (s : SkipList K R)
    (hd : Entry K) (order : List (Entry K)) (M : Models cmp s hd order) (k : K)
    (fuel : Nat) (hfuel : order.length + s.cur_height_ ≤ fuel) :
    ∃ b, Contains cmp fuel s k = .ok b ∧ (b = true ↔ ∃ e ∈ order, cmp k e.key = 0) := by
  obtain ⟨At, Bt, rfl, hA, hB⟩ := exists_split cmp hcmp k order M.sorted
  have hfge := fge_spec cmp s k hd At Bt M hA hB fuel (by simp at hfuel; omega) none
    (by intro p hp; cases hp)
  simp only [Option.map_none'] at hfge
  have hAne : ∀ a ∈ At, cmp k a.key ≠ 0 := by
    intro a ha h0
    have := hA a ha
    have := cmp_eq_zero_symm cmp hcmp _ _ h0
    omega
  cases Bt with
  | nil =>
    refine ⟨false, by simp [Contains, hfge, firstAbove], ?_⟩
    simp only [Bool.false_eq_true, false_iff, not_exists, not_and]
    intro e he
    exact hAne e (by simpa using he)
  | cons b Bt1 =>
    have hb1 : 0 < b.height := M.height_pos b (by simp)
    have hkey : keyOf s (some b.idx) = .ok b.key :=
      keyOf_of_keyAt s _ _ (M.describes b (by simp)).1
    refine ⟨Equal cmp k b.key, by simp [Contains, hfge, firstAbove, hb1, hkey], ?_⟩
    by_cases heq : cmp k b.key = 0
    · simp only [Equal, heq, decide_True, true_iff]
      exact ⟨b, by simp, heq⟩
    · simp only [Equal, heq, decide_False, Bool.false_eq_true, false_iff, not_exists, not_and]
      intro e he
      have hbt : cmp k b.key < 0 :=
        cmp_lt_of_not_lt_of_ne cmp hcmp k b.key (hB b (by simp)) heq
      rcases List.mem_append.1 he with he | he
      · exact hAne e he
      · rcases List.mem_cons.1 he with rfl | he1
        · exact heq
        · have hs := M.sorted
          rw [List.pairwise_append, List.pairwise_cons] at hs
          have := hcmp.trans _ _ _ hbt (hs.2.1.1 e he1)
          omega

theorem firstOccurrences_equal_iff (cmp : K → K → Int) (hcmp : StrictTotal cmp) (k : K) :
    ∀ (keys acc : List K),
      (∃ a ∈ firstOccurrences cmp acc keys, cmp k a = 0) ↔
        (∃ a ∈ acc, cmp k a = 0) ∨ (∃ k1 ∈ keys, cmp k k1 = 0) := by
  intro keys
  induction keys with
  | nil => intro acc; simp [firstOccurrences]
  | cons k0 ks ih =>
    intro acc
    rw [firstOccurrences, ih]
    by_cases hany : acc.any (fun a => decide (cmp k0 a = 0)) = true
    · rw [if_pos hany]
      simp only [List.any_eq_true, decide_eq_true_eq] at hany
      obtain ⟨a, ha, h0⟩ := hany
      constructor
      · rintro (h | ⟨k1, hk1, h1⟩)
        · exact Or.inl h
        · exact Or.inr ⟨k1, by simp [hk1], h1⟩
      · rintro (h | ⟨k1, hk1, h1⟩)
        · exact Or.inl h
        · rcases List.mem_cons.1 hk1 with rfl | hk1
          · exact Or.inl ⟨a, ha, cmp_eq_zero_trans cmp hcmp _ _ _ h1 h0⟩
          · exact Or.inr ⟨k1, hk1, h1⟩
    · rw [if_neg hany]
      constructor
      · rintro (⟨a, ha, h0⟩ | ⟨k1, hk1, h1⟩)
        · rcases List.mem_append.1 ha with ha | ha
          · exact Or.inl ⟨a, ha, h0⟩
          · simp only [List.mem_singleton] at ha
            subst ha
            exact Or.inr ⟨a, by simp, h0⟩
        · exact Or.inr ⟨k1, by simp [hk1], h1⟩
      · rintro (⟨a, ha, h0⟩ | ⟨k1, hk1, h1⟩)
        · exact Or.inl ⟨a, by simp [ha], h0⟩
        · rcases List.mem_cons.1 hk1 with rfl | hk1
          · exact Or.inl ⟨k1, by simp, h1⟩
          · exact Or.inr ⟨k1, hk1, h1⟩

/-- A sequence of `Insert` calls on a modelled state runs to completion; the
resulting state models the first occurrences of the inserted keys. -/
theorem insertAll_spec (cmp : K → K → Int) (hcmp : StrictTotal cmp) (gen : R → Nat × R)
    (fuel : Nat) (hd : Entry K) :
    ∀ (keys : List K) (s : SkipList K R) (order : List (Entry K)) (acc : List K),
      Models cmp s hd order → (order.map Entry.key).Perm acc → Reachable cmp gen s →
      order.length + keys.length + kMaxHeight ≤ fuel →
      ∃ s1 order1, insertAll cmp gen fuel s keys = .ok s1 ∧ Models cmp s1 hd order1 ∧
        (order1.map Entry.key).Perm (firstOccurrences cmp acc keys) ∧
        order1.length ≤ order.length + keys.length ∧ Reachable cmp gen s1 := by
  intro keys
  induction keys with
  | nil => intro s order acc M hp hr _; exact ⟨s, order, rfl, M, hp, by simp, hr⟩
  | cons k ks ih =>
    intro s order acc M hp hr hfuel
    have hcl := M.cur_le
    simp only [List.length_cons] at hfuel
    rcases insert_spec cmp hcmp gen s hd order M k fuel (by omega) with
      ⟨⟨e, he, h0⟩, hins⟩ | ⟨hne, s1, At, Bt, h, r, rfl, hA, hB, _, _, _, hins, hM, _, _⟩
    · have hany : acc.any (fun a => decide (cmp k a = 0)) = true := by
        simp only [List.any_eq_true, decide_eq_true_eq]
        exact ⟨e.key, hp.mem_iff.1 (List.mem_map_of_mem _ he), h0⟩
      obtain ⟨s1, order1, h1, h2, h3, h4, h5⟩ := ih s order acc M hp hr (by omega)
      refine ⟨s1, order1, by simp [insertAll, hins, h1], h2, ?_, by simp; omega, h5⟩
      rw [firstOccurrences, if_pos hany]
      exact h3
    · have hany : ¬ acc.any (fun a => decide (cmp k a = 0)) = true := by
        simp only [List.any_eq_true, decide_eq_true_eq, not_exists, not_and]
        intro a ha
        obtain ⟨e, he, hek⟩ := List.mem_map.1 (hp.mem_iff.2 ha)
        rw [← hek]
        exact hne e he
      have hp1 : ((At ++ ⟨s.arena_.length, k, h⟩ :: Bt).map Entry.key).Perm (acc ++ [k]) := by
        rw [List.map_append, List.map_cons]
        rw [List.map_append] at hp
        exact (List.perm_middle.trans (List.Perm.cons k hp)).trans
          (List.perm_append_singleton k acc).symm
      obtain ⟨s2, order2, h1, h2, h3, h4, h5⟩ := ih s1 _ (acc ++ [k]) hM hp1
        (Reachable.insert fuel s s1 k hr hins) (by simp at hfuel ⊢; omega)
      refine ⟨s2, order2, by simp [insertAll, hins, h1], h2, ?_, by simp at h4 ⊢; omega, h5⟩
      rw [firstOccurrences, if_neg hany]
      exact h3

/-- A sequence of `Insert` calls on a freshly constructed list. -/
theorem build_spec (cmp : K → K → Int) (hcmp : StrictTotal cmp) (gen : R → Nat × R)
    (zero : K) (r0 : R) (keys : List K) (fuel : Nat) (hfuel : keys.length + kMaxHeight ≤ fuel) :
    ∃ s0 s hd order, SkipList.new zero r0 = .ok s0 ∧ insertAll cmp gen fuel s0 keys = .ok s ∧
      Models cmp s hd order ∧ (order.map Entry.key).Perm (firstOccurrences cmp [] keys) ∧
      order.length ≤ keys.length ∧ Reachable cmp gen s := by
  obtain ⟨s0, hs0, hM, _, _⟩ := new_spec cmp zero r0
  obtain ⟨s, order, h1, h2, h3, h4, h5⟩ := insertAll_spec cmp hcmp gen fuel _ keys s0 [] []
    hM (by simp) (Reachable.init zero r0 s0 hs0) (by simpa using hfuel)
  exact ⟨s0, s, _, order, hs0, h1, h2, h3, by simpa using h4, h5⟩

end Bridge

/-! ## Shape of `Insert` for an arbitrary comparator -/

section Shape

variable {K R : Type}

theorem SetNext_ok (s s1 : SkipList K R) (p : Ptr) (n : Nat) (x : Ptr)
    (h : SetNext s p n x = .ok s1) : SameNodes s s1 := by
  cases p with
  | none => simp [SetNext] at h
  | some i =>
    cases hn : s.arena_[i]? with
    | none => simp [SetNext, hn] at h
    | some nd =>
      by_cases hlen : n < nd.next_.length
      · obtain ⟨s2, hs2, hsame, _⟩ := SetNext_spec s i n x (nd.next_[n]) (by
          simp [slotAt, hn, List.getElem?_eq_getElem hlen])
        rw [h] at hs2
        cases hs2
        exact hsame
      · simp [SetNext, hn, hlen] at h

theorem linkStep_ok (prev : List Ptr) (nn : Ptr) (s s1 : SkipList K R) (index : Nat)
    (h : Insert.linkStep prev nn s index = .ok s1) : SameNodes s s1 := by
  unfold Insert.linkStep at h
  cases hp : prev[index]? with
  | none => simp [hp] at h
  | some p =>
    simp only [hp] at h
    cases hx : NoBarrier_Next s p index with
    | error e => simp [hx] at h
    | ok nx =>
      simp only [hx] at h
      cases ha : NoBarrier_SetNext s nn index nx with
      | error e => simp [ha] at h
      | ok sa =>
        simp only [ha] at h
        exact (SetNext_ok s sa nn index nx ha).trans (SetNext_ok sa s1 p index nn h)

theorem link_fold_ok (prev : List Ptr) (nn : Ptr) :
    ∀ (l : List Nat) (s s1 : SkipList K R),
      l.foldlM (Insert.linkStep prev nn) s = .ok s1 → SameNodes s s1 := by
  intro l
  induction l with
  | nil => intro s s1 h; cases h; exact SameNodes.refl s
  | cons a l ih =>
    intro s s1 h
    rw [List.foldlM_cons] at h
    cases ha : Insert.linkStep prev nn s a with
    | error e => rw [ha] at h; cases h
    | ok sa =>
      rw [ha] at h
      exact (linkStep_ok prev nn s sa a ha).trans (ih sa s1 h)

/-- A returning `Insert.fresh` drew a height, raised `cur_height_` to at least it
and appended one node of that height; no other node changed key or height. -/
theorem fresh_shape (gen : R → Nat × R) (s s1 : SkipList K R) (key : K) (prev : List Ptr)
    (h : Insert.fresh gen s key prev = .ok s1) :
    ∃ hgt r s2, RandomHeight gen s.rnd_ = .ok (hgt, r) ∧ s2.arena_ = s.arena_ ∧
      s2.cur_height_ = max s.cur_height_ hgt ∧ SameNodes (NewNode s2 key hgt).2 s1 := by
  unfold Insert.fresh at h
  cases hrh : RandomHeight gen s.rnd_ with
  | error e => simp [hrh] at h
  | ok res =>
    obtain ⟨hgt, r⟩ := res
    simp only [hrh, GetMaxHeight] at h
    by_cases hgt1 : hgt > s.cur_height_
    · simp only [hgt1, if_true] at h
      cases hra : Insert.raise s.head_ s.cur_height_ hgt prev with
      | error e => simp [hra] at h
      | ok q =>
        simp only [hra] at h
        exact ⟨hgt, r, { s with rnd_ := r, cur_height_ := hgt }, rfl, rfl,
          by simp [max_eq_right (le_of_lt hgt1)], link_fold_ok _ _ _ _ _ h⟩
    · simp only [hgt1, if_false] at h
      exact ⟨hgt, r, { s with rnd_ := r }, rfl, rfl,
        by simp [max_eq_left (not_lt.mp hgt1)], link_fold_ok _ _ _ _ _ h⟩

/-- A returning store leaves every slot at another level as it was. -/
theorem SetNext_frame (s s1 : SkipList K R) (p : Ptr) (n : Nat) (x : Ptr)
    (h : SetNext s p n x = .ok s1) : ∀ j L, L ≠ n → slotAt s1 j L = slotAt s j L := by
  cases p with
  | none => simp [SetNext] at h
  | some i =>
    cases hn : s.arena_[i]? with
    | none => simp [SetNext, hn] at h
    | some nd =>
      by_cases hlen : n < nd.next_.length
      · obtain ⟨s2, hs2, _, hslot⟩ := SetNext_spec s i n x (nd.next_[n]) (by
          simp [slotAt, hn, List.getElem?_eq_getElem hlen])
        rw [h] at hs2
        cases hs2
        intro j L hL
        rw [hslot, if_neg (fun hc => hL hc.2)]
      · simp [SetNext, hn, hlen] at h

theorem linkStep_frame (prev : List Ptr) (nn : Ptr) (s s1 : SkipList K R) (index : Nat)
    (h : Insert.linkStep prev nn s index = .ok s1) :
    ∀ j L, L ≠ index → slotAt s1 j L = slotAt s j L := by
  unfold Insert.linkStep at h
  cases hp : prev[index]? with
  | none => simp [hp] at h
  | some p =>
    simp only [hp] at h
    cases hx : NoBarrier_Next s p index with
    | error e => simp [hx] at h
    | ok nx =>
      simp only [hx] at h
      cases ha : NoBarrier_SetNext s nn index nx with
      | error e => simp [ha] at h
      | ok sa =>
        simp only [ha] at h
        intro j L hL
        rw [SetNext_frame sa s1 p index nn h j L hL, SetNext_frame s sa nn index nx ha j L hL]

theorem link_fold_frame (prev : List Ptr) (nn : Ptr) (hgt : Nat) :
    ∀ (l : List Nat) (s s1 : SkipList K R), (∀ a ∈ l, a < hgt) →
      l.foldlM (Insert.linkStep prev nn) s = .ok s1 →
      ∀ j L, hgt ≤ L → slotAt s1 j L = slotAt s j L := by
  intro l
  induction l with
  | nil => intro s s1 _ h; cases h; intro j L _; rfl
  | cons a l ih =>
    intro s s1 hl h
    rw [List.foldlM_cons] at h
    cases ha : Insert.linkStep prev nn s a with
    | error e => rw [ha] at h; cases h
    | ok sa =>
      rw [ha] at h
      intro j L hL
      have ha1 : a < hgt := hl a (by simp)
      rw [ih sa s1 (fun b hb => hl b (by simp [hb])) h j L hL,
        linkStep_frame prev nn s sa a ha j L (by omega)]

/-- In addition to `fresh_shape`: the head pointer is kept, and the linking loop
leaves every slot at a level `>=` the drawn height as it was. -/
theorem fresh_shape_slots (gen : R → Nat × R) (s s1 : SkipList K R) (key : K)
    (prev : List Ptr) (h : Insert.fresh gen s key prev = .ok s1) :
    ∃ hgt r s2, RandomHeight gen s.rnd_ = .ok (hgt, r) ∧ s2.arena_ = s.arena_ ∧
      s2.head_ = s.head_ ∧ s2.cur_height_ = max s.cur_height_ hgt ∧
      SameNodes (NewNode s2 key hgt).2 s1 ∧
      ∀ j L, hgt ≤ L → slotAt s1 j L = slotAt (NewNode s2 key hgt).2 j L := by
  have hrange : ∀ hgt a, a ∈ List.range' 0 hgt → a < hgt := by
    intro hgt a ha
    rw [List.mem_range'_1] at ha
    omega
  unfold Insert.fresh at h
  cases hrh : RandomHeight gen s.rnd_ with
  | error e => simp [hrh] at h
  | ok res =>
    obtain ⟨hgt, r⟩ := res
    simp only [hrh, GetMaxHeight] at h
    by_cases hgt1 : hgt > s.cur_height_
    · simp only [hgt1, if_true] at h
      cases hra : Insert.raise s.head_ s.cur_height_ hgt prev with
      | error e => simp [hra] at h
      | ok q =>
        simp only [hra] at h
        exact ⟨hgt, r, { s with rnd_ := r, cur_height_ := hgt }, rfl, rfl, rfl,
          by simp [max_eq_right (le_of_lt hgt1)], link_fold_ok _ _ _ _ _ h,
          link_fold_frame _ _ hgt _ _ _ (hrange hgt) h⟩
    · simp only [hgt1, if_false] at h
      exact ⟨hgt, r, { s with rnd_ := r }, rfl, rfl, rfl,
        by simp [max_eq_left (not_lt.mp hgt1)], link_fold_ok _ _ _ _ _ h,
        link_fold_frame _ _ hgt _ _ _ (hrange hgt) h⟩

/-- A returning `Insert` either left the state as it was or went through
`Insert.fresh`. -/
theorem insert_shape (cmp : K → K → Int) (gen : R → Nat × R) (fuel : Nat)
    (s s1 : SkipList K R) (key : K) (h : Insert cmp gen fuel s key = .ok s1) :
    s1 = s ∨ ∃ prev, Insert.fresh gen s key prev = .ok s1 := by
  unfold Insert at h
  cases hF : FindGreaterOrEqual cmp fuel s key (some (List.replicate kMaxHeight none)) with
  | error e => simp [hF] at h
  | ok res =>
    obtain ⟨node, prev⟩ := res
    cases prev with
    | none => simp [hF] at h
    | some prev =>
      cases node with
      | none =>
        simp only [hF] at h
        exact Or.inr ⟨prev, h⟩
      | some i =>
        simp only [hF] at h
        cases hk : keyOf s (some i) with
        | error e => simp [hk] at h
        | ok k =>
          simp only [hk] at h
          by_cases he : Equal cmp key k = true
          · simp only [he, if_true] at h
            cases h
            exact Or.inl rfl
          · simp only [he, if_false] at h
            exact Or.inr ⟨prev, h⟩

/-- Height bounds after a returning `Insert`, for any comparator. -/
theorem insert_heights (cmp : K → K → Int) (gen : R → Nat × R) (fuel : Nat)
    (s s1 : SkipList K R) (key : K) (h : Insert cmp gen fuel s key = .ok s1)
    (hc : 1 ≤ s.cur_height_ ∧ s.cur_height_ ≤ kMaxHeight)
    (hn : ∀ i, i < s.arena_.length → 1 ≤ heightAt s i ∧ heightAt s i ≤ kMaxHeight) :
    s.cur_height_ ≤ s1.cur_height_ ∧ (1 ≤ s1.cur_height_ ∧ s1.cur_height_ ≤ kMaxHeight) ∧
      ∀ i, i < s1.arena_.length → 1 ≤ heightAt s1 i ∧ heightAt s1 i ≤ kMaxHeight := by
  rcases insert_shape cmp gen fuel s s1 key h with rfl | ⟨prev, hf⟩
  · exact ⟨le_refl _, hc, hn⟩
  · obtain ⟨hgt, r, s2, hrh, h2a, h2c, hsame⟩ := fresh_shape gen s s1 key prev hf
    obtain ⟨hgt1, r1, hrh1, hb1, hb2⟩ := randomHeight_spec gen s.rnd_
    rw [hrh] at hrh1
    cases hrh1
    obtain ⟨_, _, hnc, _, hnl, _, hnh, _⟩ := NewNode_spec s2 key hgt
    rw [h2a] at hnl hnh
    have hcur : s1.cur_height_ = max s.cur_height_ hgt := by
      rw [hsame.cur_eq, hnc, h2c]
    refine ⟨by rw [hcur]; exact le_max_left _ _,
      ⟨by rw [hcur]; exact le_trans hc.1 (le_max_left _ _),
       by rw [hcur]; exact max_le hc.2 hb2⟩, ?_⟩
    intro i hi
    rw [hsame.len_eq, hnl] at hi
    rw [hsame.height_eq, hnh]
    by_cases hin : i = s.arena_.length
    · rw [if_pos hin]; exact ⟨hb1, hb2⟩
    · rw [if_neg hin]
      have : heightAt s2 i = heightAt s i := by simp [heightAt, h2a]
      rw [this]
      exact hn i (by omega)

/-- Height bounds in every reachable state, for any comparator. -/
theorem reachable_heights (cmp : K → K → Int) (gen : R → Nat × R) (s : SkipList K R)
    (hr : Reachable cmp gen s) :
    (1 ≤ s.cur_height_ ∧ s.cur_height_ ≤ kMaxHeight) ∧
      ∀ i, i < s.arena_.length → 1 ≤ heightAt s i ∧ heightAt s i ≤ kMaxHeight := by
  induction hr with
  | init zero r0 s hs =>
    obtain ⟨s1, hs1, M, hc, _⟩ := new_spec cmp zero r0
    rw [hs] at hs1
    cases hs1
    refine ⟨by rw [hc]; simp [kMaxHeight], ?_⟩
    intro i hi
    have := M.covers i hi
    simp only [List.map_cons, List.map_nil, List.mem_singleton] at this
    subst this
    have := (M.describes ⟨0, zero, kMaxHeight⟩ (by simp)).2
    simp only at this
    rw [this]
    simp [kMaxHeight]
  | insert fuel s s1 key _ hins ih =>
    exact (insert_heights cmp gen fuel s s1 key hins ih.1 ih.2).2

theorem insert_length (cmp : K → K → Int) (gen : R → Nat × R) (fuel : Nat)
    (s s1 : SkipList K R) (key : K) (h : Insert cmp gen fuel s key = .ok s1) :
    s1.arena_.length ≤ s.arena_.length + 1 := by
  rcases insert_shape cmp gen fuel s s1 key h with rfl | ⟨prev, hf⟩
  · omega
  · obtain ⟨hgt, r, s2, _, h2a, _, hsame⟩ := fresh_shape gen s s1 key prev hf
    obtain ⟨_, _, _, _, hnl, _⟩ := NewNode_spec s2 key hgt
    rw [hsame.len_eq, hnl, h2a]

/-- For any comparator: in a reachable state the head is node 0, `cur_height_`
bounds the heights of the real nodes and is 1 or the height of one of them, and
the head's slots from `cur_height_` up hold `nullptr`. -/
theorem reachable_cur_max (cmp : K → K → Int) (gen : R → Nat × R) (s : SkipList K R)
    (hr : Reachable cmp gen s) :
    s.head_ = some 0 ∧ 0 < s.arena_.length ∧
    (∀ i, i < s.arena_.length → i ≠ 0 → heightAt s i ≤ s.cur_height_) ∧
    (s.cur_height_ = 1 ∨ ∃ i, i < s.arena_.length ∧ i ≠ 0 ∧ heightAt s i = s.cur_height_) ∧
    (∀ L, s.cur_height_ ≤ L → L < kMaxHeight → slotAt s 0 L = some (.ptr none)) := by
  induction hr with
  | init zero r0 s hs =>
    obtain ⟨s1, hs1, M, hc, _⟩ := new_spec cmp zero r0
    rw [hs] at hs1
    cases hs1
    have hsz := M.size
    simp only [List.length_nil] at hsz
    refine ⟨M.head_eq, by omega, fun i hi hne => by omega, Or.inl hc, ?_⟩
    intro L _ hL
    have := M.linked.1 L hL
    simpa [firstAbove] using this
  | insert fuel s s1 key _ hins ih =>
    obtain ⟨hh, hlen, hb, hc, hd⟩ := ih
    rcases insert_shape cmp gen fuel s s1 key hins with rfl | ⟨prev, hf⟩
    · exact ⟨hh, hlen, hb, hc, hd⟩
    · obtain ⟨hgt, r, s2, _, h2a, h2h, h2c, hsame, hfr⟩ :=
        fresh_shape_slots gen s s1 key prev hf
      obtain ⟨_, hnh, hnc, _, hnl, _, hnht, hns⟩ := NewNode_spec s2 key hgt
      rw [h2a] at hnl hnht hns
      have hcur : s1.cur_height_ = max s.cur_height_ hgt := by
        rw [hsame.cur_eq, hnc, h2c]
      have hht : ∀ i, heightAt s1 i = if i = s.arena_.length then hgt else heightAt s i := by
        intro i
        rw [hsame.height_eq, hnht]
        have : heightAt s2 i = heightAt s i := by simp [heightAt, h2a]
        rw [this]
      refine ⟨by rw [hsame.head_eq, hnh, h2h, hh], by rw [hsame.len_eq, hnl]; omega,
        ?_, ?_, ?_⟩
      · intro i hi hne
        rw [hsame.len_eq, hnl] at hi
        rw [hht, hcur]
        by_cases hin : i = s.arena_.length
        · rw [if_pos hin]; exact le_max_right _ _
        · rw [if_neg hin]
          exact le_trans (hb i (by omega) hne) (le_max_left _ _)
      · rw [hcur, hsame.len_eq, hnl]
        by_cases hgt1 : s.cur_height_ < hgt
        · right
          refine ⟨s.arena_.length, by omega, by omega, ?_⟩
          rw [hht, if_pos rfl, max_eq_right (le_of_lt hgt1)]
        · rw [max_eq_left (not_lt.mp hgt1)]
          rcases hc with hc | ⟨i, hi, hne, hic⟩
          · exact Or.inl hc
          · right
            refine ⟨i, by omega, hne, ?_⟩
            rw [hht, if_neg (by omega)]
            exact hic
      · intro L hL hL20
        rw [hcur] at hL
        have h1 : hgt ≤ L := le_trans (le_max_right _ _) hL
        have h2 : s.cur_height_ ≤ L := le_trans (le_max_left _ _) hL
        rw [hfr 0 L h1, hns, if_neg (by omega)]
        have : slotAt s2 0 L = slotAt s 0 L := by simp [slotAt, h2a]
        rw [this]
        exact hd L h2 hL20

theorem foldl_max_eq (f : Nat → Nat) :
    ∀ (l : List Nat) (m c : Nat), m ≤ c → (∀ i ∈ l, f i ≤ c) →
      (c = m ∨ ∃ i ∈ l, f i = c) → l.foldl (fun m i => max m (f i)) m = c := by
  intro l
  induction l with
  | nil =>
    intro m c _ _ hc
    rcases hc with hc | ⟨i, hi, _⟩
    · exact hc.symm
    · cases hi
  | cons a l ih =>
    intro m c hm hl hc
    rw [List.foldl_cons]
    have ha : f a ≤ c := hl a (by simp)
    apply ih (max m (f a)) c (max_le hm ha) (fun i hi => hl i (by simp [hi]))
    rcases hc with hc | ⟨i, hi, hic⟩
    · left
      rw [hc] at ha ⊢
      exact (max_eq_left ha).symm
    · rcases List.mem_cons.1 hi with rfl | hi1
      · left
        rw [← hic] at hm ⊢
        exact (max_eq_right hm).symm
      · exact Or.inr ⟨i, hi1, hic⟩

end Shape

/-! ## `RandomHeight` -/

section Random

variable {R : Type}

theorem nthDraw_zero (gen : R → Nat × R) (r : R) : nthDraw gen 0 r = (gen r).1 := rfl

theorem nthDraw_succ (gen : R → Nat × R) (n : Nat) (r : R) :
    nthDraw gen (n + 1) r = nthDraw gen n (gen r).2 := rfl

/-- The loop of `RandomHeight` when the draw number `j` is the first that is not
divisible by `kBranching` and the cap is not reached before it. -/
theorem randomHeight_loop_stop (gen : R → Nat × R) :
    ∀ (j fuel height : Nat) (r : R), j < fuel → height + j < kMaxHeight →
      (∀ i, i < j → nthDraw gen i r % kBranching = 0) →
      nthDraw gen j r % kBranching ≠ 0 →
      RandomHeight.loop gen fuel height r = .ok (height + j, stateAfter gen (j + 1) r) := by
  intro j
  induction j with
  | zero =>
    intro fuel height r hf hh _ hj
    obtain ⟨n, rfl⟩ : ∃ n, fuel = n + 1 := ⟨fuel - 1, by omega⟩
    rw [nthDraw_zero] at hj
    simp [RandomHeight.loop, show height < kMaxHeight by omega, hj, stateAfter]
  | succ j ih =>
    intro fuel height r hf hh hall hj
    obtain ⟨n, rfl⟩ : ∃ n, fuel = n + 1 := ⟨fuel - 1, by omega⟩
    have h0 : (gen r).1 % kBranching = 0 := hall 0 (by omega)
    have := ih n (height + 1) (gen r).2 (by omega) (by omega)
      (fun i hi => by rw [← nthDraw_succ]; exact hall (i + 1) (by omega))
      (by rw [← nthDraw_succ]; exact hj)
    simp only [RandomHeight.loop, show height < kMaxHeight by omega, if_true, h0, this]
    rw [show height + 1 + j = height + (j + 1) by omega]
    rfl

/-- The loop of `RandomHeight` when the `n` draws that separate `height` from the
cap are all divisible by `kBranching`. -/
theorem randomHeight_loop_cap (gen : R → Nat × R) :
    ∀ (n fuel height : Nat) (r : R), n < fuel → height + n = kMaxHeight →
      (∀ i, i < n → nthDraw gen i r % kBranching = 0) →
      RandomHeight.loop gen fuel height r = .ok (kMaxHeight, stateAfter gen n r) := by
  intro n
  induction n with
  | zero =>
    intro fuel height r hf hh _
    obtain ⟨m, rfl⟩ : ∃ m, fuel = m + 1 := ⟨fuel - 1, by omega⟩
    simp [RandomHeight.loop, show ¬ height < kMaxHeight by omega, stateAfter]
    omega
  | succ n ih =>
    intro fuel height r hf hh hall
    obtain ⟨m, rfl⟩ : ∃ m, fuel = m + 1 := ⟨fuel - 1, by omega⟩
    have h0 : (gen r).1 % kBranching = 0 := hall 0 (by omega)
    have := ih m (height + 1) (gen r).2 (by omega) (by omega)
      (fun i hi => by rw [← nthDraw_succ]; exact hall (i + 1) (by omega))
    simp only [RandomHeight.loop, show height < kMaxHeight by omega, if_true, h0, this]
    rfl

/-- The loop of `RandomHeight` returns after at most `kMaxHeight - height` draws. -/
theorem randomHeight_loop_draws (gen : R → Nat × R) :
    ∀ (fuel height : Nat) (r : R), kMaxHeight - height < fuel →
      ∃ h n, n ≤ kMaxHeight - height ∧
        RandomHeight.loop gen fuel height r = .ok (h, stateAfter gen n r) := by
  intro fuel
  induction fuel with
  | zero => intro height r hf; omega
  | succ fuel ih =>
    intro height r hf
    by_cases hlt : height < kMaxHeight
    · by_cases hd : (gen r).1 % kBranching = 0
      · obtain ⟨h, n, hn, hl⟩ := ih (height + 1) (gen r).2 (by omega)
        exact ⟨h, n + 1, by omega, by simp [RandomHeight.loop, hlt, hd, hl, stateAfter]⟩
      · exact ⟨height, 1, by omega, by simp [RandomHeight.loop, hlt, hd, stateAfter]⟩
    · exact ⟨height, 0, by omega, by simp [RandomHeight.loop, hlt, stateAfter]⟩

end Random

/-! ## Results do not depend on the fuel -/

section Stable

variable {K R : Type}

/-- A result of the loop of `FindGreaterOrEqual` other than running out of fuel is
also the result for any larger fuel. -/
theorem fge_loop_stable (cmp : K → K → Int) (s : SkipList K R) (key : K) :
    ∀ (fuel fuel1 : Nat) (cur : Ptr) (level : Nat) (prev : Option (List Ptr)),
      fuel ≤ fuel1 →
      FindGreaterOrEqual.loop cmp s key fuel cur level prev ≠ .error .outOfFuel →
      FindGreaterOrEqual.loop cmp s key fuel1 cur level prev =
        FindGreaterOrEqual.loop cmp s key fuel cur level prev := by
  intro fuel
  induction fuel with
  | zero => intro fuel1 cur level prev _ h; simp [FindGreaterOrEqual.loop] at h
  | succ n ih =>
    intro fuel1 cur level prev hle h
    cases fuel1 with
    | zero => omega
    | succ m =>
      simp only [FindGreaterOrEqual.loop] at h ⊢
      cases hN : Next s cur level with
      | error e => rfl
      | ok next =>
        simp only [hN] at h ⊢
        cases hK : KeyIsAfterNode cmp s key next with
        | error e => rfl
        | ok b =>
          cases b with
          | true =>
            simp only [hK] at h ⊢
            exact ih m _ _ _ (by omega) h
          | false =>
            simp only [hK] at h ⊢
            cases prev with
            | none =>
              simp only at h ⊢
              by_cases h0 : level = 0
              · simp [h0]
              · simp only [h0, if_false] at h ⊢
                exact ih m _ _ _ (by omega) h
            | some p =>
              cases hs : setPrev p level cur with
              | error e => simp [hs]
              | ok q =>
                simp only [hs] at h ⊢
                by_cases h0 : level = 0
                · simp [h0]
                · simp only [h0, if_false] at h ⊢
                  exact ih m _ _ _ (by omega) h

theorem fge_stable (cmp : K → K → Int) (s : SkipList K R) (key : K) (fuel fuel1 : Nat)
    (prev : Option (List Ptr)) (hle : fuel ≤ fuel1)
    (h : FindGreaterOrEqual cmp fuel s key prev ≠ .error .outOfFuel) :
    FindGreaterOrEqual cmp fuel1 s key prev = FindGreaterOrEqual cmp fuel s key prev := by
  unfold FindGreaterOrEqual at h ⊢
  by_cases h0 : GetMaxHeight s = 0
  · simp [h0]
  · simp only [h0, if_false] at h ⊢
    exact fge_loop_stable cmp s key fuel fuel1 _ _ _ hle h

/-- The same for the loop of `FindLessThan`. -/
theorem flt_loop_stable (cmp : K → K → Int) (s : SkipList K R) (key : K) :
    ∀ (fuel fuel1 : Nat) (cur : Ptr) (level : Nat), fuel ≤ fuel1 →
      FindLessThan.loop cmp s key fuel cur level ≠ .error .outOfFuel →
      FindLessThan.loop cmp s key fuel1 cur level =
        FindLessThan.loop cmp s key fuel cur level := by
  intro fuel
  induction fuel with
  | zero => intro fuel1 cur level _ h; simp [FindLessThan.loop] at h
  | succ n ih =>
    intro fuel1 cur level hle h
    cases fuel1 with
    | zero => omega
    | succ m =>
      simp only [FindLessThan.loop] at h ⊢
      cases hN : Next s cur level with
      | error e => rfl
      | ok next =>
        simp only [hN] at h ⊢
        cases next with
        | none =>
          simp only at h ⊢
          by_cases h0 : level = 0
          · simp [h0]
          · simp only [h0, if_false, ge_iff_le, zero_le_one, if_true] at h ⊢
            exact ih m _ _ (by omega) h
        | some i =>
          cases hk : keyOf s (some i) with
          | error e => simp [hk]
          | ok k =>
            simp only [hk] at h ⊢
            by_cases hc : toInt32 (cmp k key) ≥ 0
            · simp only [hc, if_true] at h ⊢
              by_cases h0 : level = 0
              · simp [h0]
              · simp only [h0, if_false] at h ⊢
                exact ih m _ _ (by omega) h
            · simp only [hc, if_false] at h ⊢
              exact ih m _ _ (by omega) h

theorem flt_stable (cmp : K → K → Int) (s : SkipList K R) (key : K) (fuel fuel1 : Nat)
    (hle : fuel ≤ fuel1) (h : FindLessThan cmp fuel s key ≠ .error .outOfFuel) :
    FindLessThan cmp fuel1 s key = FindLessThan cmp fuel s key := by
  unfold FindLessThan at h ⊢
  by_cases h0 : GetMaxHeight s = 0
  · simp [h0]
  · simp only [h0, if_false] at h ⊢
    exact flt_loop_stable cmp s key fuel fuel1 _ _ hle h

/-- The same for the loop of `FindLast`. -/
theorem findLast_loop_stable (s : SkipList K R) :
    ∀ (fuel fuel1 : Nat) (cur : Ptr), fuel ≤ fuel1 →
      FindLast.loop s fuel cur ≠ .error .outOfFuel →
      FindLast.loop s fuel1 cur = FindLast.loop s fuel cur := by
  intro fuel
  induction fuel with
  | zero => intro fuel1 cur _ h; simp [FindLast.loop] at h
  | succ n ih =>
    intro fuel1 cur hle h
    cases fuel1 with
    | zero => omega
    | succ m =>
      simp only [FindLast.loop] at h ⊢
      cases hN : Next s cur 0 with
      | error e => rfl
      | ok next =>
        cases next with
        | none => rfl
        | some i =>
          simp only [hN] at h ⊢
          exact ih m _ (by omega) h

theorem contains_stable (cmp : K → K → Int) (s : SkipList K R) (key : K) (fuel fuel1 : Nat)
    (hle : fuel ≤ fuel1) (h : Contains cmp fuel s key ≠ .error .outOfFuel) :
    Contains cmp fuel1 s key = Contains cmp fuel s key := by
  have hF : FindGreaterOrEqual cmp fuel s key none ≠ .error .outOfFuel := by
    intro hc
    apply h
    simp [Contains, hc]
  unfold Contains
  rw [fge_stable cmp s key fuel fuel1 none hle hF]

theorem insert_stable (cmp : K → K → Int) (gen : R → Nat × R) (s : SkipList K R) (key : K)
    (fuel fuel1 : Nat) (hle : fuel ≤ fuel1)
    (h : Insert cmp gen fuel s key ≠ .error .outOfFuel) :
    Insert cmp gen fuel1 s key = Insert cmp gen fuel s key := by
  have hF : FindGreaterOrEqual cmp fuel s key (some (List.replicate kMaxHeight none)) ≠
      .error .outOfFuel := by
    intro hc
    apply h
    simp [Insert, hc]
  unfold Insert
  rw [fge_stable cmp s key fuel fuel1 _ hle hF]

end Stable

/-! ## The event logs agree with the operations -/

section Logs

variable {K R : Type}

theorem map_ok_inv {α β : Type} (f : α → β) (x : Except Fault α) (r : β)
    (h : Except.map f x = .ok r) : ∃ y, x = .ok y ∧ f y = r := by
  cases x with
  | error e => simp [Except.map] at h
  | ok y => exact ⟨y, rfl, by simpa [Except.map] using h⟩

/-- Dropping the events of `FindGreaterOrEqual.loopLog` gives
`FindGreaterOrEqual.loop`. -/
theorem fge_loopLog_erase (cmp : K → K → Int) (s : SkipList K R) (key : K) :
    ∀ (fuel : Nat) (cur : Ptr) (level : Nat) (prev : Option (List Ptr)),
      Except.map Prod.fst (FindGreaterOrEqual.loopLog cmp s key fuel cur level prev) =
        FindGreaterOrEqual.loop cmp s key fuel cur level prev := by
  intro fuel
  induction fuel with
  | zero => intro cur level prev; rfl
  | succ n ih =>
    intro cur level prev
    simp only [FindGreaterOrEqual.loop, FindGreaterOrEqual.loopLog]
    cases hN : Next s cur level with
    | error e => rfl
    | ok next =>
      simp only [hN]
      cases hK : KeyIsAfterNode cmp s key next with
      | error e => rfl
      | ok b =>
        cases b with
        | true =>
          simp only [hK]
          rw [← ih next level prev]
          cases FindGreaterOrEqual.loopLog cmp s key n next level prev <;> rfl
        | false =>
          simp only [hK]
          cases prev with
          | none =>
            simp only
            by_cases h0 : level = 0
            · simp [h0, Except.map]
            · simp only [h0, if_false]
              rw [← ih cur (level - 1) none]
              cases FindGreaterOrEqual.loopLog cmp s key n cur (level - 1) none <;> rfl
          | some p =>
            cases hs : setPrev p level cur with
            | error e => simp [hs, Except.map]
            | ok q =>
              simp only [hs]
              by_cases h0 : level = 0
              · simp [h0, Except.map]
              · simp only [h0, if_false]
                rw [← ih cur (level - 1) (some q)]
                cases FindGreaterOrEqual.loopLog cmp s key n cur (level - 1) (some q) <;> rfl

theorem fgeLog_erase (cmp : K → K → Int) (fuel : Nat) (s : SkipList K R) (key : K)
    (prev : Option (List Ptr)) :
    Except.map Prod.fst (FindGreaterOrEqualLog cmp fuel s key prev) =
      FindGreaterOrEqual cmp fuel s key prev := by
  unfold FindGreaterOrEqualLog FindGreaterOrEqual
  by_cases h0 : GetMaxHeight s = 0
  · simp [h0, Except.map]
  · simp only [h0, if_false]
    exact fge_loopLog_erase cmp s key fuel _ _ _

/-- Dropping the events of `FindLessThan.loopLog` gives `FindLessThan.loop`. -/
theorem flt_loopLog_erase (cmp : K → K → Int) (s : SkipList K R) (key : K) :
    ∀ (fuel : Nat) (cur : Ptr) (level : Nat),
      Except.map Prod.fst (FindLessThan.loopLog cmp s key fuel cur level) =
        FindLessThan.loop cmp s key fuel cur level := by
  intro fuel
  induction fuel with
  | zero => intro cur level; rfl
  | succ n ih =>
    intro cur level
    simp only [FindLessThan.loop, FindLessThan.loopLog]
    cases hN : Next s cur level with
    | error e => rfl
    | ok next =>
      simp only [hN]
      cases next with
      | none =>
        simp only
        by_cases h0 : level = 0
        · simp [h0, Except.map]
        · simp only [h0, if_false, ge_iff_le, zero_le_one, if_true]
          rw [← ih cur (level - 1)]
          cases FindLessThan.loopLog cmp s key n cur (level - 1) <;> rfl
      | some i =>
        cases hk : keyOf s (some i) with
        | error e => simp [hk, Except.map]
        | ok k =>
          simp only [hk]
          by_cases hc : toInt32 (cmp k key) ≥ 0
          · simp only [hc, if_true]
            by_cases h0 : level = 0
            · simp [h0, Except.map]
            · simp only [h0, if_false]
              rw [← ih cur (level - 1)]
              cases FindLessThan.loopLog cmp s key n cur (level - 1) <;> rfl
          · simp only [hc, if_false]
            rw [← ih (some i) level]
            cases FindLessThan.loopLog cmp s key n (some i) level <;> rfl

theorem fltLog_erase (cmp : K → K → Int) (fuel : Nat) (s : SkipList K R) (key : K) :
    Except.map Prod.fst (FindLessThanLog cmp fuel s key) = FindLessThan cmp fuel s key := by
  unfold FindLessThanLog FindLessThan
  by_cases h0 : GetMaxHeight s = 0
  · simp [h0, Except.map]
  · simp only [h0, if_false]
    exact flt_loopLog_erase cmp s key fuel _ _

/-- Dropping the events of `FindLast.loopLog` gives `FindLast.loop`. -/
theorem findLast_loopLog_erase (s : SkipList K R) :
    ∀ (fuel : Nat) (cur : Ptr),
      Except.map Prod.fst (FindLast.loopLog s fuel cur) = FindLast.loop s fuel cur := by
  intro fuel
  induction fuel with
  | zero => intro cur; rfl
  | succ n ih =>
    intro cur
    simp only [FindLast.loop, FindLast.loopLog]
    cases hN : Next s cur 0 with
    | error e => rfl
    | ok next =>
      cases next with
      | none => rfl
      | some i =>
        simp only
        rw [← ih (some i)]
        cases FindLast.loopLog s n (some i) <;> rfl

theorem containsLog_erase (cmp : K → K → Int) (fuel : Nat) (s : SkipList K R) (key : K) :
    Except.map Prod.fst (ContainsLog cmp fuel s key) = Contains cmp fuel s key := by
  unfold ContainsLog Contains
  rw [← fgeLog_erase cmp fuel s key none]
  cases FindGreaterOrEqualLog cmp fuel s key none with
  | error e => rfl
  | ok res =>
    obtain ⟨⟨node, prev⟩, evs⟩ := res
    cases node with
    | none => rfl
    | some i =>
      simp only [Except.map]
      cases keyOf s (some i) <;> rfl

theorem linkStepLog_erase (prev : List Ptr) (nn : Ptr) (s : SkipList K R) (index : Nat) :
    Except.map Prod.fst (Insert.linkStepLog prev nn s index) =
      Insert.linkStep prev nn s index := by
  unfold Insert.linkStepLog Insert.linkStep
  cases prev[index]? with
  | none => rfl
  | some p =>
    simp only
    cases NoBarrier_Next s p index with
    | error e => rfl
    | ok nx =>
      simp only
      cases NoBarrier_SetNext s nn index nx with
      | error e => rfl
      | ok s1 =>
        simp only
        cases NoBarrier_SetNext s1 p index nn <;> rfl

theorem linkLog_erase (prev : List Ptr) (nn : Ptr) :
    ∀ (l : List Nat) (s : SkipList K R),
      Except.map Prod.fst (Insert.linkLog prev nn l s) =
        l.foldlM (Insert.linkStep prev nn) s := by
  intro l
  induction l with
  | nil => intro s; rfl
  | cons a l ih =>
    intro s
    rw [List.foldlM_cons, Insert.linkLog, ← linkStepLog_erase prev nn s a]
    cases Insert.linkStepLog prev nn s a with
    | error e => rfl
    | ok res =>
      obtain ⟨s1, evs⟩ := res
      simp only [Except.map]
      have := ih s1
      cases hl : Insert.linkLog prev nn l s1 with
      | error e =>
        rw [hl] at this
        simp only [Except.map] at this
        simp [← this, bind, Except.bind]
      | ok res2 =>
        obtain ⟨s2, evs2⟩ := res2
        rw [hl] at this
        simp only [Except.map] at this
        simp [← this, bind, Except.bind]

theorem freshLog_erase (gen : R → Nat × R) (s : SkipList K R) (key : K) (prev : List Ptr) :
    Except.map Prod.fst (Insert.freshLog gen s key prev) = Insert.fresh gen s key prev := by
  unfold Insert.freshLog Insert.fresh Insert.link
  cases RandomHeight gen s.rnd_ with
  | error e => rfl
  | ok res =>
    obtain ⟨new_level, r⟩ := res
    simp only
    split
    · rfl
    · rename_i prev1 s2 _
      simp only [NewNode]
      rw [← linkLog_erase]
      cases Insert.linkLog prev1 (some s2.arena_.length) (List.range' 0 new_level)
        { s2 with arena_ := s2.arena_ ++ [⟨key, List.replicate new_level Slot.uninit⟩] } with
      | error e => rfl
      | ok res2 => rfl

theorem insertLog_erase (cmp : K → K → Int) (gen : R → Nat × R) (fuel : Nat)
    (s : SkipList K R) (key : K) :
    Except.map Prod.fst (InsertLog cmp gen fuel s key) = Insert cmp gen fuel s key := by
  unfold InsertLog Insert
  rw [← fgeLog_erase cmp fuel s key (some (List.replicate kMaxHeight none))]
  cases FindGreaterOrEqualLog cmp fuel s key (some (List.replicate kMaxHeight none)) with
  | error e => rfl
  | ok res =>
    obtain ⟨⟨node, prev⟩, evs⟩ := res
    cases prev with
    | none => cases node <;> rfl
    | some prev =>
      cases node with
      | none =>
        simp only [Except.map]
        rw [← freshLog_erase]
        cases Insert.freshLog gen s key prev <;> rfl
      | some i =>
        simp only [Except.map]
        cases keyOf s (some i) with
        | error e => rfl
        | ok k =>
          simp only
          by_cases he : Equal cmp key k = true
          · simp [he]
          · simp only [he, if_false]
            rw [← freshLog_erase]
            cases Insert.freshLog gen s key prev <;> rfl

theorem slotAt_of_Next (s : SkipList K R) (c : Ptr) (L : Nat) (x : Ptr)
    (h : Next s c L = .ok x) : ∃ i, c = some i ∧ slotAt s i L = some (.ptr x) := by
  cases c with
  | none => simp [Next] at h
  | some i =>
    refine ⟨i, rfl, ?_⟩
    unfold Next at h
    unfold slotAt
    cases hn : s.arena_[i]? with
    | none => simp [hn] at h
    | some nd =>
      simp only [hn] at h ⊢
      cases hs : nd.next_[L]? with
      | none => simp [hs] at h
      | some sl =>
        cases sl with
        | uninit => simp [hs] at h
        | ptr y =>
          simp only [hs, Except.ok.injEq] at h
          rw [h]

theorem storesOf_append (a b : List Event) : storesOf (a ++ b) = storesOf a ++ storesOf b := by
  simp [storesOf]

theorem storesOf_compareEvents (n : Ptr) : storesOf (compareEvents n) = [] := by
  cases n <;> rfl

theorem mem_compareEvents (n m : Ptr) (h : Event.compare m ∈ compareEvents n) :
    ∃ i, n = some i ∧ m = some i := by
  cases n with
  | none => simp [compareEvents] at h
  | some i =>
    simp only [compareEvents, List.mem_singleton, Event.compare.injEq] at h
    exact ⟨i, rfl, h⟩

/-- The events of `FindGreaterOrEqual.loopLog`: no stores; every key handed to the
comparator belongs to a node that some forward slot points to; so does the node
returned. -/
theorem fge_loopLog_events (cmp : K → K → Int) (s : SkipList K R) (key : K) :
    ∀ (fuel : Nat) (cur : Ptr) (level : Nat) (prev : Option (List Ptr))
      (r : Ptr × Option (List Ptr)) (evs : List Event),
      FindGreaterOrEqual.loopLog cmp s key fuel cur level prev = .ok (r, evs) →
      storesOf evs = [] ∧
      (∀ n, Event.compare n ∈ evs → ∃ c L i, n = some i ∧ Next s c L = .ok (some i)) ∧
      (∀ i, r.1 = some i → ∃ c L, Next s c L = .ok (some i)) := by
  intro fuel
  induction fuel with
  | zero => intro cur level prev r evs h; simp [FindGreaterOrEqual.loopLog] at h
  | succ n ih =>
    intro cur level prev r evs h
    simp only [FindGreaterOrEqual.loopLog] at h
    cases hN : Next s cur level with
    | error e => simp [hN] at h
    | ok next =>
      simp only [hN] at h
      have hcmpEv : ∀ m, Event.compare m ∈ compareEvents next →
          ∃ c L i, m = some i ∧ Next s c L = .ok (some i) := by
        intro m hm
        obtain ⟨i, hi, hmi⟩ := mem_compareEvents next m hm
        exact ⟨cur, level, i, hmi, by rw [hN, hi]⟩
      have hrec : ∀ (c1 : Ptr) (l1 : Nat) (p1 : Option (List Ptr)) (r1 : Ptr × Option (List Ptr))
          (evs1 : List Event),
          FindGreaterOrEqual.loopLog cmp s key n c1 l1 p1 = .ok (r1, evs1) →
          storesOf (NextEvent cur level :: (compareEvents next ++ evs1)) = [] ∧
          (∀ m, Event.compare m ∈ NextEvent cur level :: (compareEvents next ++ evs1) →
            ∃ c L i, m = some i ∧ Next s c L = .ok (some i)) ∧
          (∀ i, r1.1 = some i → ∃ c L, Next s c L = .ok (some i)) := by
        intro c1 l1 p1 r1 evs1 h1
        obtain ⟨hs, hc, hr⟩ := ih c1 l1 p1 r1 evs1 h1
        refine ⟨?_, ?_, hr⟩
        · rw [show NextEvent cur level :: (compareEvents next ++ evs1) =
            [NextEvent cur level] ++ (compareEvents next ++ evs1) from rfl,
            storesOf_append, storesOf_append, storesOf_compareEvents, hs]
          rfl
        · intro m hm
          simp only [List.mem_cons, List.mem_append, NextEvent] at hm
          rcases hm with hm | hm | hm
          · cases hm
          · exact hcmpEv m hm
          · exact hc m hm
      cases hK : KeyIsAfterNode cmp s key next with
      | error e => simp [hK] at h
      | ok b =>
        cases b with
        | true =>
          simp only [hK] at h
          cases hl : FindGreaterOrEqual.loopLog cmp s key n next level prev with
          | error e => simp [hl] at h
          | ok res =>
            obtain ⟨r1, evs1⟩ := res
            simp only [hl, Except.ok.injEq, Prod.mk.injEq] at h
            obtain ⟨rfl, rfl⟩ := h
            exact hrec _ _ _ _ _ hl
        | false =>
          simp only [hK] at h
          split at h
          · exact absurd h (by simp)
          · rename_i prev1 _
            by_cases h0 : level = 0
            · simp only [h0, if_true, Except.ok.injEq, Prod.mk.injEq] at h
              obtain ⟨rfl, rfl⟩ := h
              refine ⟨?_, ?_, ?_⟩
              · rw [show NextEvent cur 0 :: compareEvents next =
                  [NextEvent cur 0] ++ compareEvents next from rfl,
                  storesOf_append, storesOf_compareEvents]
                rfl
              · intro m hm
                simp only [List.mem_cons, NextEvent] at hm
                rcases hm with hm | hm
                · cases hm
                · exact hcmpEv m hm
              · intro i hi
                simp only at hi
                exact ⟨cur, level, by rw [hN, hi]⟩
            · simp only [h0, if_false] at h
              cases hl : FindGreaterOrEqual.loopLog cmp s key n cur (level - 1) prev1 with
              | error e => simp [hl] at h
              | ok res =>
                obtain ⟨r1, evs1⟩ := res
                simp only [hl, Except.ok.injEq, Prod.mk.injEq] at h
                obtain ⟨rfl, rfl⟩ := h
                exact hrec _ _ _ _ _ hl

/-- Every key `FindLessThan.loopLog` hands to the comparator belongs to a node that
some forward slot points to. -/
theorem flt_loopLog_events (cmp : K → K → Int) (s : SkipList K R) (key : K) :
    ∀ (fuel : Nat) (cur : Ptr) (level : Nat) (r : Ptr) (evs : List Event),
      FindLessThan.loopLog cmp s key fuel cur level = .ok (r, evs) →
      ∀ n, Event.compare n ∈ evs → ∃ c L i, n = some i ∧ Next s c L = .ok (some i) := by
  intro fuel
  induction fuel with
  | zero => intro cur level r evs h; simp [FindLessThan.loopLog] at h
  | succ n ih =>
    intro cur level r evs h
    simp only [FindLessThan.loopLog] at h
    cases hN : Next s cur level with
    | error e => simp [hN] at h
    | ok next =>
      simp only [hN] at h
      have hcmpEv : ∀ m, Event.compare m ∈ compareEvents next →
          ∃ c L i, m = some i ∧ Next s c L = .ok (some i) := by
        intro m hm
        obtain ⟨i, hi, hmi⟩ := mem_compareEvents next m hm
        exact ⟨cur, level, i, hmi, by rw [hN, hi]⟩
      have hrec : ∀ (c1 : Ptr) (l1 : Nat) (r1 : Ptr) (evs1 : List Event),
          FindLessThan.loopLog cmp s key n c1 l1 = .ok (r1, evs1) →
          ∀ m, Event.compare m ∈ NextEvent cur level :: (compareEvents next ++ evs1) →
            ∃ c L i, m = some i ∧ Next s c L = .ok (some i) := by
        intro c1 l1 r1 evs1 h1 m hm
        simp only [List.mem_cons, List.mem_append, NextEvent] at hm
        rcases hm with hm | hm | hm
        · cases hm
        · exact hcmpEv m hm
        · exact ih c1 l1 r1 evs1 h1 m hm
      have hlast : ∀ m, Event.compare m ∈ NextEvent cur level :: compareEvents next →
          ∃ c L i, m = some i ∧ Next s c L = .ok (some i) := by
        intro m hm
        simp only [List.mem_cons, NextEvent] at hm
        rcases hm with hm | hm
        · cases hm
        · exact hcmpEv m hm
      split at h
      · exact absurd h (by simp)
      · rename_i c _
        by_cases hc : c ≥ 0
        · simp only [hc, if_true] at h
          by_cases h0 : level = 0
          · simp only [h0, if_true, Except.ok.injEq, Prod.mk.injEq] at h
            obtain ⟨_, rfl⟩ := h
            rw [h0] at hlast
            exact hlast
          · simp only [h0, if_false] at h
            cases hl : FindLessThan.loopLog cmp s key n cur (level - 1) with
            | error e => simp [hl] at h
            | ok res =>
              obtain ⟨r1, evs1⟩ := res
              simp only [hl, Except.ok.injEq, Prod.mk.injEq] at h
              obtain ⟨_, rfl⟩ := h
              exact hrec _ _ _ _ hl
        · simp only [hc, if_false] at h
          cases hl : FindLessThan.loopLog cmp s key n next level with
          | error e => simp [hl] at h
          | ok res =>
            obtain ⟨r1, evs1⟩ := res
            simp only [hl, Except.ok.injEq, Prod.mk.injEq] at h
            obtain ⟨_, rfl⟩ := h
            exact hrec _ _ _ _ hl

/-- The loop of `FindLast` never calls the comparator. -/
theorem findLast_loopLog_events (s : SkipList K R) :
    ∀ (fuel : Nat) (cur : Ptr) (r : Ptr) (evs : List Event),
      FindLast.loopLog s fuel cur = .ok (r, evs) → ∀ n, Event.compare n ∉ evs := by
  intro fuel
  induction fuel with
  | zero => intro cur r evs h; simp [FindLast.loopLog] at h
  | succ n ih =>
    intro cur r evs h
    simp only [FindLast.loopLog] at h
    cases hN : Next s cur 0 with
    | error e => simp [hN] at h
    | ok next =>
      cases next with
      | none =>
        simp only [hN, Except.ok.injEq, Prod.mk.injEq] at h
        obtain ⟨_, rfl⟩ := h
        intro m hm
        simp [NextEvent] at hm
      | some i =>
        simp only [hN] at h
        cases hl : FindLast.loopLog s n (some i) with
        | error e => simp [hl] at h
        | ok res =>
          obtain ⟨r1, evs1⟩ := res
          simp only [hl, Except.ok.injEq, Prod.mk.injEq] at h
          obtain ⟨_, rfl⟩ := h
          intro m hm
          simp only [List.mem_cons, NextEvent] at hm
          rcases hm with hm | hm
          · cases hm
          · exact ih _ _ _ hl m hm

/-- What one returning iteration of the linking loop did. -/
theorem linkStepLog_inv (prev : List Ptr) (nn : Ptr) (s s1 : SkipList K R) (index : Nat)
    (evs : List Event) (h : Insert.linkStepLog prev nn s index = .ok (s1, evs)) :
    ∃ p nx, prev[index]? = some p ∧ NoBarrier_Next s p index = .ok nx ∧
      Insert.linkStep prev nn s index = .ok s1 ∧
      evs = [NoBarrier_NextEvent p index, NoBarrier_SetNextEvent nn index nx,
        NoBarrier_SetNextEvent p index nn] := by
  have hers := linkStepLog_erase prev nn s index
  rw [h] at hers
  unfold Insert.linkStepLog at h
  cases hp : prev[index]? with
  | none => simp [hp] at h
  | some p =>
    simp only [hp] at h
    cases hx : NoBarrier_Next s p index with
    | error e => simp [hx] at h
    | ok nx =>
      simp only [hx] at h
      cases ha : NoBarrier_SetNext s nn index nx with
      | error e => simp [ha] at h
      | ok sa =>
        simp only [ha] at h
        cases hb : NoBarrier_SetNext sa p index nn with
        | error e => simp [hb] at h
        | ok sb =>
          simp only [hb, Except.ok.injEq, Prod.mk.injEq] at h
          exact ⟨p, nx, rfl, hx, hers.symm, h.2.symm⟩

/-- The stores of the linking loop come level by level, own pointer first and then
the store into a node allocated before the new one, as long as the new node is the
last one allocated and its slots are unwritten when the loop reaches them; the loop
never calls the comparator. -/
theorem linkLog_levelwise (prev : List Ptr) (i : Nat) :
    ∀ (n j : Nat) (s s1 : SkipList K R) (evs : List Event),
      s.arena_.length = i + 1 →
      (∀ L, j ≤ L → L < j + n → slotAt s i L = some .uninit) →
      Insert.linkLog prev (some i) (List.range' j n) s = .ok (s1, evs) →
      LevelwiseStores i (List.range' j n) (storesOf evs) ∧
        ∀ m, Event.compare m ∉ evs := by
  intro n
  induction n with
  | zero =>
    intro j s s1 evs _ _ h
    simp only [List.range'_zero, Insert.linkLog, Except.ok.injEq, Prod.mk.injEq] at h
    obtain ⟨_, rfl⟩ := h
    exact ⟨rfl, fun m hm => by cases hm⟩
  | succ n ih =>
    intro j s s1 evs hlen hun h
    rw [List.range'_succ] at h ⊢
    simp only [Insert.linkLog] at h
    cases ha : Insert.linkStepLog prev (some i) s j with
    | error e => simp [ha] at h
    | ok res =>
      obtain ⟨sa, evsa⟩ := res
      simp only [ha] at h
      cases hb : Insert.linkLog prev (some i) (List.range' (j + 1) n) sa with
      | error e => simp [hb] at h
      | ok res2 =>
        obtain ⟨sb, evsb⟩ := res2
        simp only [hb, Except.ok.injEq, Prod.mk.injEq] at h
        obtain ⟨_, rfl⟩ := h
        obtain ⟨p, nx, hp, hnx, hstep, rfl⟩ := linkStepLog_inv prev (some i) s sa j evsa ha
        obtain ⟨i1, rfl, hsl⟩ := slotAt_of_Next s p j nx hnx
        have hi1 : i1 < i := by
          have hlt : i1 < s.arena_.length := by
            by_contra hc
            unfold slotAt at hsl
            rw [List.getElem?_eq_none (by omega)] at hsl
            cases hsl
          have hne : i1 ≠ i := by
            intro hc
            rw [hc, hun j (le_refl _) (by omega)] at hsl
            cases hsl
          omega
        obtain ⟨hlev, hnc⟩ := ih (j + 1) sa sb evsb
          (by rw [(linkStep_ok prev (some i) s sa j hstep).len_eq]; exact hlen)
          (fun L h1 h2 => by
            rw [linkStep_frame prev (some i) s sa j hstep i L (by omega)]
            exact hun L (by omega) (by omega))
          hb
        refine ⟨⟨nx, i1, storesOf evsb, hi1, ?_, hlev⟩, ?_⟩
        · rw [storesOf_append]
          rfl
        · intro m hm
          simp only [List.mem_append, List.mem_cons, NoBarrier_NextEvent,
            NoBarrier_SetNextEvent, List.mem_nil_iff, or_false] at hm
          rcases hm with (hm | hm | hm) | hm
          · cases hm
          · cases hm
          · cases hm
          · exact hnc m hm

/-- A returning `Insert.freshLog` created the node at the next free arena address
with the height `RandomHeight` drew, and made its stores level by level. -/
theorem freshLog_inv (gen : R → Nat × R) (s s1 : SkipList K R) (key : K) (prev : List Ptr)
    (evs : List Event) (nn : Ptr) (h : Nat)
    (hf : Insert.freshLog gen s key prev = .ok (s1, evs, nn, h)) :
    nn = some s.arena_.length ∧ (∃ r, RandomHeight gen s.rnd_ = .ok (h, r)) ∧
      LevelwiseStores s.arena_.length (List.range' 0 h) (storesOf evs) ∧
      ∀ m, Event.compare m ∉ evs := by
  unfold Insert.freshLog at hf
  cases hrh : RandomHeight gen s.rnd_ with
  | error e => simp [hrh] at hf
  | ok res =>
    obtain ⟨new_level, r⟩ := res
    simp only [hrh] at hf
    split at hf
    · exact absurd hf (by simp)
    · rename_i prev1 s2 hraised
      have h2a : s2.arena_ = s.arena_ := by
        by_cases hgt : new_level > GetMaxHeight { s with rnd_ := r }
        · simp only [hgt, if_true] at hraised
          split at hraised
          · exact absurd hraised (by simp)
          · simp only [Except.ok.injEq, Prod.mk.injEq] at hraised
            rw [← hraised.2]
        · simp only [hgt, if_false, Except.ok.injEq, Prod.mk.injEq] at hraised
          rw [← hraised.2]
      simp only [NewNode] at hf
      split at hf
      · exact absurd hf (by simp)
      · rename_i s4 evs4 hlink
        simp only [Except.ok.injEq, Prod.mk.injEq] at hf
        obtain ⟨rfl, rfl, rfl, rfl⟩ := hf
        obtain ⟨_, _, _, _, hnl, _, _, hns⟩ := NewNode_spec s2 key new_level
        simp only [NewNode] at hns hnl
        obtain ⟨hlev, hnc⟩ := linkLog_levelwise prev1 s2.arena_.length new_level 0 _ _ _
          hnl (fun L _ hL => by rw [hns]; simp at hL; simp [hL]) hlink
        rw [h2a] at hlev
        exact ⟨by rw [h2a], ⟨r, rfl⟩, hlev, hnc⟩

/-- What a returning `InsertLog` did: its stores come level by level, it either
found the key and changed nothing or created the node at the next free address with
the height `RandomHeight` drew, and every key it compared belongs to a node that
some forward slot of the state before points to. -/
theorem insertLog_inv (cmp : K → K → Int) (gen : R → Nat × R) (fuel : Nat)
    (s s1 : SkipList K R) (key : K) (evs : List Event) (nn : Ptr) (h : Nat)
    (hI : InsertLog cmp gen fuel s key = .ok (s1, evs, nn, h)) :
    LevelwiseStores s.arena_.length (List.range' 0 h) (storesOf evs) ∧
      ((nn = none ∧ h = 0 ∧ s1 = s) ∨
        (nn = some s.arena_.length ∧ ∃ r, RandomHeight gen s.rnd_ = .ok (h, r))) ∧
      ∀ n, Event.compare n ∈ evs → ∃ c L i, n = some i ∧ Next s c L = .ok (some i) := by
  unfold InsertLog at hI
  cases hF : FindGreaterOrEqualLog cmp fuel s key (some (List.replicate kMaxHeight none)) with
  | error e => simp [hF] at hI
  | ok res =>
    obtain ⟨⟨node, oprev⟩, evs0⟩ := res
    have hF1 := hF
    unfold FindGreaterOrEqualLog at hF1
    split at hF1
    · cases hF1
    obtain ⟨hst0, hcmp0, hres0⟩ := fge_loopLog_events cmp s key _ _ _ _ _ _ hF1
    cases oprev with
    | none => simp [hF] at hI
    | some prev =>
      have hfresh : ∀ (pre : List Event) (evs1 : List Event),
          storesOf pre = [] →
          (∀ n, Event.compare n ∈ pre → ∃ c L i, n = some i ∧ Next s c L = .ok (some i)) →
          Insert.freshLog gen s key prev = .ok (s1, evs1, nn, h) →
          LevelwiseStores s.arena_.length (List.range' 0 h) (storesOf (pre ++ evs1)) ∧
          ((nn = none ∧ h = 0 ∧ s1 = s) ∨
            (nn = some s.arena_.length ∧ ∃ r, RandomHeight gen s.rnd_ = .ok (h, r))) ∧
          ∀ n, Event.compare n ∈ pre ++ evs1 →
            ∃ c L i, n = some i ∧ Next s c L = .ok (some i) := by
        intro pre evs1 hpre hprec hfr
        obtain ⟨hnn, hrh, hlev, hnc⟩ := freshLog_inv gen s s1 key prev evs1 nn h hfr
        refine ⟨?_, Or.inr ⟨hnn, hrh⟩, ?_⟩
        · rw [storesOf_append, hpre, List.nil_append]
          exact hlev
        · intro n hn
          rcases List.mem_append.1 hn with hn | hn
          · exact hprec n hn
          · exact absurd hn (hnc n)
      cases node with
      | none =>
        simp only [hF] at hI
        cases hfr : Insert.freshLog gen s key prev with
        | error e => simp [hfr] at hI
        | ok res1 =>
          obtain ⟨s2, evs1, nn1, h1⟩ := res1
          simp only [hfr, Except.ok.injEq, Prod.mk.injEq] at hI
          obtain ⟨rfl, rfl, rfl, rfl⟩ := hI
          exact hfresh evs0 evs1 hst0 hcmp0 hfr
      | some i =>
        simp only [hF] at hI
        cases hk : keyOf s (some i) with
        | error e => simp [hk] at hI
        | ok k =>
          simp only [hk] at hI
          have hpre : storesOf (evs0 ++ [Event.compare (some i)]) = [] := by
            rw [storesOf_append, hst0]
            rfl
          have hprec : ∀ n, Event.compare n ∈ evs0 ++ [Event.compare (some i)] →
              ∃ c L i, n = some i ∧ Next s c L = .ok (some i) := by
            intro n hn
            rcases List.mem_append.1 hn with hn | hn
            · exact hcmp0 n hn
            · simp only [List.mem_singleton, Event.compare.injEq] at hn
              obtain ⟨c, L, hc⟩ := hres0 i rfl
              exact ⟨c, L, i, hn, hc⟩
          by_cases heq : Equal cmp key k = true
          · simp only [heq, if_true, Except.ok.injEq, Prod.mk.injEq] at hI
            obtain ⟨rfl, rfl, rfl, rfl⟩ := hI
            refine ⟨?_, Or.inl ⟨rfl, rfl, rfl⟩, hprec⟩
            rw [hpre]
            rfl
          · simp only [heq, Bool.false_eq_true, if_false] at hI
            cases hfr : Insert.freshLog gen s key prev with
            | error e => simp [hfr] at hI
            | ok res1 =>
              obtain ⟨s2, evs1, nn1, h1⟩ := res1
              simp only [hfr, Except.ok.injEq, Prod.mk.injEq] at hI
              obtain ⟨rfl, rfl, rfl, rfl⟩ := hI
              have := hfresh (evs0 ++ [Event.compare (some i)]) evs1 hpre hprec hfr
              simpa only [List.append_assoc, List.singleton_append] using this

/-- Every key a returning `ContainsLog` compared belongs to a node that some forward
slot points to. -/
theorem containsLog_inv (cmp : K → K → Int) (fuel : Nat) (s : SkipList K R) (key : K)
    (b : Bool) (evs : List Event) (hC : ContainsLog cmp fuel s key = .ok (b, evs)) :
    ∀ n, Event.compare n ∈ evs → ∃ c L i, n = some i ∧ Next s c L = .ok (some i) := by
  unfold ContainsLog at hC
  cases hF : FindGreaterOrEqualLog cmp fuel s key none with
  | error e => simp [hF] at hC
  | ok res =>
    obtain ⟨⟨node, oprev⟩, evs0⟩ := res
    have hF1 := hF
    unfold FindGreaterOrEqualLog at hF1
    split at hF1
    · cases hF1
    obtain ⟨_, hcmp0, hres0⟩ := fge_loopLog_events cmp s key _ _ _ _ _ _ hF1
    cases node with
    | none =>
      simp only [hF, Except.ok.injEq, Prod.mk.injEq] at hC
      obtain ⟨_, rfl⟩ := hC
      exact hcmp0
    | some i =>
      simp only [hF] at hC
      cases hk : keyOf s (some i) with
      | error e => simp [hk] at hC
      | ok k =>
        simp only [hk, Except.ok.injEq, Prod.mk.injEq] at hC
        obtain ⟨_, rfl⟩ := hC
        intro n hn
        rcases List.mem_append.1 hn with hn | hn
        · exact hcmp0 n hn
        · simp only [List.mem_singleton, Event.compare.injEq] at hn
          obtain ⟨c, L, hc⟩ := hres0 i rfl
          exact ⟨c, L, i, hn, hc⟩

end Logs

/-! ## Main results -/

section Claims

variable {K R : Type}

/-- A three-way comparison in which `cmp a b = 0` only for `a = b` meets the
comparator contract as soon as it is antisymmetric and transitive. -/
theorem strictTotal_of_eq (cmp : K → K → Int)
    (flip : ∀ a b, cmp a b < 0 ↔ 0 < cmp b a)
    (trans : ∀ a b c, cmp a b < 0 → cmp b c < 0 → cmp a c < 0)
    (heq : ∀ a b, cmp a b = 0 → a = b) : StrictTotal cmp :=
  ⟨flip, trans, fun a b c h1 h2 => by rw [heq a b h1]; exact h2,
    fun a b c h1 h2 => by rw [← heq b c h2]; exact h1⟩

theorem natCompare_strictTotal : StrictTotal natCompare :=
  ⟨fun a b => by unfold natCompare; omega,
   fun a b c => by unfold natCompare; omega,
   fun a b c => by unfold natCompare; omega,
   fun a b c => by unfold natCompare; omega⟩

theorem reachable_build (cmp : K → K → Int) (gen : R → Nat × R) (fuel : Nat) (zero : K)
    (r0 : R) (s : SkipList K R) :
    ∀ (keys : List K), build cmp gen fuel zero r0 keys = .ok s → Reachable cmp gen s := by
  intro keys h
  unfold build at h
  cases h0 : SkipList.new zero r0 with
  | error e => simp [h0] at h
  | ok s0 =>
    simp only [h0] at h
    have hr0 : Reachable cmp gen s0 := Reachable.init zero r0 s0 h0
    clear h0
    induction keys generalizing s0 with
    | nil => simp [insertAll] at h; subst h; exact hr0
    | cons k ks ih =>
      simp only [insertAll] at h
      cases h1 : Insert cmp gen fuel s0 k with
      | error e => simp [h1] at h
      | ok s1 =>
        simp only [h1] at h
        exact ih s1 h (Reachable.insert fuel s0 s1 k hr0 h1)

theorem sampleList_build :
    build natCompare counterGen 40 0 3 [5, 3, 8, 3, 1, 9] = .ok sampleList := by
  rfl

theorem sampleList_reachable : Reachable natCompare counterGen sampleList :=
  reachable_build natCompare counterGen 40 0 3 sampleList _ sampleList_build

/-- C1: for a strict-total-order comparator, any random source and any sequence
`keys` of `Insert` calls on a freshly constructed list, the calls run to
completion and `Contains(k)` returns true if and only if some inserted key
compares equal to `k` (`Compare == 0`). -/
theorem contains_iff_inserted (cmp : K → K → Int) (hcmp : StrictTotal cmp)
    (gen : R → Nat × R) (zero : K) (r0 : R) (keys : List K) (k : K) (fuel : Nat)
    (hfuel : keys.length + kMaxHeight ≤ fuel) :
    ∃ s0 s b, SkipList.new zero r0 = .ok s0 ∧ insertAll cmp gen fuel s0 keys = .ok s ∧
      Contains cmp fuel s k = .ok b ∧ (b = true ↔ ∃ k1 ∈ keys, cmp k k1 = 0) := by
  obtain ⟨s0, s, hd, order, h0, h1, M, hp, hlen, _⟩ :=
    build_spec cmp hcmp gen zero r0 keys fuel hfuel
  have hcl := M.cur_le
  obtain ⟨b, hb, hiff⟩ := contains_spec cmp hcmp s hd order M k fuel (by omega)
  refine ⟨s0, s, b, h0, h1, hb, hiff.trans ?_⟩
  have := firstOccurrences_equal_iff cmp hcmp k keys []
  simp only [List.not_mem_nil, false_and, exists_false, false_or] at this
  rw [← this]
  constructor
  · rintro ⟨e, he, h⟩
    exact ⟨e.key, hp.mem_iff.1 (List.mem_map_of_mem _ he), h⟩
  · rintro ⟨a, ha, h⟩
    obtain ⟨e, he, hek⟩ := List.mem_map.1 (hp.mem_iff.2 ha)
    exact ⟨e, he, by rw [hek]; exact h⟩

theorem contains_iff_inserted_witness :
    ∃ s0 s b, SkipList.new (0 : Nat) (0 : Nat) = .ok s0 ∧
      insertAll natCompare counterGen 23 s0 [5, 3, 8] = .ok s ∧
      Contains natCompare 23 s 3 = .ok b ∧ (b = true ↔ ∃ k1 ∈ [5, 3, 8], natCompare 3 k1 = 0) :=
  contains_iff_inserted natCompare natCompare_strictTotal counterGen 0 0 [5, 3, 8] 3 23
    (by decide)

/-- C2: for a strict-total-order comparator and any sequence of `Insert` calls on a
freshly constructed list, whatever the insertion order and the heights drawn, the
level-0 traversal from the head visits allocated nodes whose keys are strictly
increasing: each key compares less than the next one (and than every later one). -/
theorem level0_strictly_increasing (cmp : K → K → Int) (hcmp : StrictTotal cmp)
    (gen : R → Nat × R) (zero : K) (r0 : R) (keys : List K) (fuel : Nat)
    (hfuel : keys.length + kMaxHeight ≤ fuel) :
    ∃ s0 s nodes ks, SkipList.new zero r0 = .ok s0 ∧
      insertAll cmp gen fuel s0 keys = .ok s ∧ levelNodes fuel s 0 = .ok nodes ∧
      nodes.map (keyAt s) = ks.map some ∧
      List.Chain' (fun a b => cmp a b < 0) ks ∧ List.Pairwise (fun a b => cmp a b < 0) ks := by
  obtain ⟨s0, s, hd, order, h0, h1, M, _, hlen, _⟩ :=
    build_spec cmp hcmp gen zero r0 keys fuel hfuel
  have hk : 0 < kMaxHeight := by simp [kMaxHeight]
  have hpw : List.Pairwise (fun a b => cmp a b < 0) (order.map Entry.key) := by
    rw [List.pairwise_map]; exact M.sorted
  refine ⟨s0, s, order.map Entry.idx, order.map Entry.key, h0, h1,
    models_level0 cmp s hd order M fuel (by omega), ?_, hpw.chain', hpw⟩
  rw [List.map_map, List.map_map]
  apply List.map_congr_left
  intro e he
  exact (M.describes e (by simp [he])).1

theorem level0_strictly_increasing_witness :
    ∃ s0 s nodes ks, SkipList.new (0 : Nat) (0 : Nat) = .ok s0 ∧
      insertAll natCompare counterGen 23 s0 [2, 1, 3] = .ok s ∧
      levelNodes 23 s 0 = .ok nodes ∧ nodes.map (keyAt s) = ks.map some ∧
      List.Chain' (fun a b => natCompare a b < 0) ks ∧
      List.Pairwise (fun a b => natCompare a b < 0) ks :=
  level0_strictly_increasing natCompare natCompare_strictTotal counterGen 0 0 [2, 1, 3] 23
    (by decide)

/-- A real node of a modelled state is one of the listed entries. -/
theorem models_real_node (cmp : K → K → Int) (s : SkipList K R) (hd : Entry K)
    (order : List (Entry K)) (M : Models cmp s hd order) (i : Nat)
    (hi : i < s.arena_.length) (hne : some i ≠ s.head_) : ∃ e ∈ order, e.idx = i := by
  have := M.covers i hi
  simp only [List.map_cons, List.mem_cons, List.mem_map] at this
  rcases this with h | ⟨e, he, hei⟩
  · exact absurd (by rw [M.head_eq, h]) hne
  · exact ⟨e, he, hei⟩

/-- C3: in a reachable state that already holds a real node `i` whose key compares
equal to `k`, `Insert(k)` returns the state unchanged (same nodes, same forward
pointers, same `cur_height_`), and `Contains(k)` is true. -/
theorem insert_existing_unchanged (cmp : K → K → Int) (hcmp : StrictTotal cmp)
    (gen : R → Nat × R) (s : SkipList K R) (hr : Reachable cmp gen s) (k k1 : K) (i : Nat)
    (hi : some i ≠ s.head_) (hk : keyAt s i = some k1) (heq : cmp k k1 = 0)
    (fuel : Nat) (hfuel : s.arena_.length + kMaxHeight ≤ fuel) :
    Insert cmp gen fuel s k = .ok s ∧ Contains cmp fuel s k = .ok true := by
  obtain ⟨hd, order, M⟩ := reachable_models cmp hcmp gen s hr
  obtain ⟨hf1, _⟩ := models_fuel cmp s hd order M fuel hfuel
  obtain ⟨e, he, hei⟩ := models_real_node cmp s hd order M i (keyAt_lt_length s i k1 hk) hi
  have hek : e.key = k1 := by
    have := (M.describes e (by simp [he])).1
    rw [hei, hk] at this
    exact (Option.some.inj this).symm
  have hex : ∃ e ∈ order, cmp k e.key = 0 := ⟨e, he, by rw [hek]; exact heq⟩
  constructor
  · rcases insert_spec cmp hcmp gen s hd order M k fuel hf1 with ⟨_, h⟩ | ⟨hne, _⟩
    · exact h
    · exact absurd (by rw [hek]; exact heq) (hne e he)
  · obtain ⟨b, hb, hiff⟩ := contains_spec cmp hcmp s hd order M k fuel hf1
    rw [hb, hiff.2 hex]

theorem insert_existing_unchanged_witness :
    (Reachable natCompare counterGen sampleList ∧ some 2 ≠ sampleList.head_ ∧
      keyAt sampleList 2 = some 3 ∧ natCompare 3 3 = 0 ∧
      sampleList.arena_.length + kMaxHeight ≤ 40) ∧
    Insert natCompare counterGen 40 sampleList 3 = .ok sampleList ∧
      Contains natCompare 40 sampleList 3 = .ok true :=
  ⟨⟨sampleList_reachable, by decide, by decide, by decide, by decide⟩,
    insert_existing_unchanged natCompare natCompare_strictTotal counterGen sampleList
      sampleList_reachable 3 3 2 (by decide) (by decide) (by decide) 40 (by decide)⟩

/-- C4: in every state reachable from the constructor by `Insert` calls (any
comparator, any random draws) `1 <= cur_height_ <= kMaxHeight` and every allocated
node has a height between 1 and `kMaxHeight`; a returning `Insert` never lowers
`cur_height_` and keeps it within the same bounds; and with a strict-total-order
comparator and enough fuel `Insert` does return. -/
theorem heights_bounded (cmp : K → K → Int) (gen : R → Nat × R) (s : SkipList K R)
    (hr : Reachable cmp gen s) :
    (1 ≤ s.cur_height_ ∧ s.cur_height_ ≤ kMaxHeight) ∧
    (∀ i, i < s.arena_.length → 1 ≤ heightAt s i ∧ heightAt s i ≤ kMaxHeight) ∧
    (∀ fuel key s1, Insert cmp gen fuel s key = .ok s1 →
      s.cur_height_ ≤ s1.cur_height_ ∧ 1 ≤ s1.cur_height_ ∧ s1.cur_height_ ≤ kMaxHeight ∧
      ∀ i, i < s1.arena_.length → 1 ≤ heightAt s1 i ∧ heightAt s1 i ≤ kMaxHeight) ∧
    (StrictTotal cmp → ∀ fuel key, s.arena_.length + kMaxHeight ≤ fuel →
      ∃ s1, Insert cmp gen fuel s key = .ok s1) := by
  obtain ⟨hc, hn⟩ := reachable_heights cmp gen s hr
  refine ⟨hc, hn, ?_, ?_⟩
  · intro fuel key s1 h
    obtain ⟨h1, h2, h3⟩ := insert_heights cmp gen fuel s s1 key h hc hn
    exact ⟨h1, h2.1, h2.2, h3⟩
  · intro hcmp fuel key hfuel
    obtain ⟨hd, order, M⟩ := reachable_models cmp hcmp gen s hr
    obtain ⟨hf1, _⟩ := models_fuel cmp s hd order M fuel hfuel
    rcases insert_spec cmp hcmp gen s hd order M key fuel hf1 with
      ⟨_, h⟩ | ⟨_, s1, _, _, _, _, _, _, _, _, _, _, h, _⟩
    · exact ⟨s, h⟩
    · exact ⟨s1, h⟩

theorem heights_bounded_witness :
    Reachable natCompare counterGen sampleList ∧
    ((1 ≤ sampleList.cur_height_ ∧ sampleList.cur_height_ ≤ kMaxHeight) ∧
    (∀ i, i < sampleList.arena_.length →
      1 ≤ heightAt sampleList i ∧ heightAt sampleList i ≤ kMaxHeight) ∧
    (∀ fuel key s1, Insert natCompare counterGen fuel sampleList key = .ok s1 →
      sampleList.cur_height_ ≤ s1.cur_height_ ∧ 1 ≤ s1.cur_height_ ∧
      s1.cur_height_ ≤ kMaxHeight ∧
      ∀ i, i < s1.arena_.length → 1 ≤ heightAt s1 i ∧ heightAt s1 i ≤ kMaxHeight) ∧
    (StrictTotal natCompare → ∀ fuel key, sampleList.arena_.length + kMaxHeight ≤ fuel →
      ∃ s1, Insert natCompare counterGen fuel sampleList key = .ok s1)) :=
  ⟨sampleList_reachable, heights_bounded natCompare counterGen sampleList sampleList_reachable⟩

theorem find_none_iff (p : Nat → Bool) (l : List Nat) :
    l.find? p = none ↔ ∀ i ∈ l, p i = false := by
  rw [List.find?_eq_none]
  simp

theorem keyBelow_entry (cmp : K → K → Int) (s : SkipList K R) (t : K) (e : Entry K)
    (h : keyAt s e.idx = some e.key) : keyBelow cmp s t e.idx = decide (cmp e.key t < 0) := by
  simp [keyBelow, h]

theorem keyAtLeast_entry (cmp : K → K → Int) (s : SkipList K R) (t : K) (e : Entry K)
    (h : keyAt s e.idx = some e.key) :
    keyAtLeast cmp s t e.idx = decide (0 ≤ cmp e.key t) := by
  simp [keyAtLeast, h]

/-- The node `FindGreaterOrEqual` returns is the first node of the level-0
traversal whose key is at least the target. -/
theorem firstAbove_eq_find (cmp : K → K → Int) (s : SkipList K R) (t : K)
    (At Bt : List (Entry K)) (hdesc : Describes s (At ++ Bt))
    (hpos : ∀ e ∈ At ++ Bt, 1 ≤ e.height)
    (hA : ∀ a ∈ At, cmp a.key t < 0) (hB : ∀ b ∈ Bt, ¬ cmp b.key t < 0) :
    firstAbove 0 Bt = ((At ++ Bt).map Entry.idx).find? (keyAtLeast cmp s t) := by
  have hAn : (At.map Entry.idx).find? (keyAtLeast cmp s t) = none := by
    rw [List.find?_eq_none]
    intro i hi
    obtain ⟨a, ha, rfl⟩ := List.mem_map.1 hi
    rw [keyAtLeast_entry cmp s t a (hdesc a (by simp [ha])).1]
    have := hA a ha
    simp; omega
  rw [List.map_append, List.find?_append, hAn, Option.none_or]
  cases Bt with
  | nil => rfl
  | cons b Bt1 =>
    have hb : 0 < b.height := hpos b (by simp)
    have hk : keyAtLeast cmp s t b.idx = true := by
      rw [keyAtLeast_entry cmp s t b (hdesc b (by simp)).1]
      have := hB b (by simp)
      simp; omega
    simp [firstAbove, hb, hk]

theorem lastAbove_eq_getLast (L : Nat) :
    ∀ (X : List (Entry K)) (d : Nat),
      lastAbove L d X =
        (((X.filter (fun e => decide (L < e.height))).map Entry.idx).getLast?).getD d := by
  intro X
  induction X with
  | nil => intro d; rfl
  | cons e es ih =>
    intro d
    rw [lastAbove, ih]
    by_cases h : L < e.height
    · simp [h, List.getLast?_cons]
    · simp [h]

/-- Among the nodes of the level-`L` traversal those with a key below the target are
the tall-enough entries of `At`. -/
theorem filter_keyBelow (cmp : K → K → Int) (s : SkipList K R) (t : K) (L : Nat)
    (At Bt : List (Entry K)) (hdesc : Describes s (At ++ Bt))
    (hA : ∀ a ∈ At, cmp a.key t < 0) (hB : ∀ b ∈ Bt, ¬ cmp b.key t < 0) :
    ((((At ++ Bt).filter (fun e => decide (L < e.height))).map Entry.idx).filter
        (keyBelow cmp s t)) =
      (At.filter (fun e => decide (L < e.height))).map Entry.idx := by
  rw [List.filter_map, List.filter_filter, List.filter_append]
  have h1 : At.filter (fun a => (keyBelow cmp s t ∘ Entry.idx) a && decide (L < a.height)) =
      At.filter (fun e => decide (L < e.height)) := by
    apply List.filter_congr
    intro a ha
    simp [keyBelow_entry cmp s t a (hdesc a (by simp [ha])).1, hA a ha]
  have h2 : Bt.filter (fun a => (keyBelow cmp s t ∘ Entry.idx) a && decide (L < a.height)) =
      [] := by
    rw [List.filter_eq_nil_iff]
    intro b hb
    simp [keyBelow_entry cmp s t b (hdesc b (by simp [hb])).1, hB b hb]
  rw [h1, h2, List.append_nil]

/-- The level-`L` predecessor computed from the traversal is the last tall-enough
entry of `hd :: At`. -/
theorem lastBelow_eq (cmp : K → K → Int) (s : SkipList K R) (t : K) (L : Nat)
    (hd : Entry K) (At Bt : List (Entry K)) (M : Models cmp s hd (At ++ Bt))
    (hL : L < kMaxHeight)
    (hA : ∀ a ∈ At, cmp a.key t < 0) (hB : ∀ b ∈ Bt, ¬ cmp b.key t < 0) :
    lastBelow cmp s t (((At ++ Bt).filter (fun e => decide (L < e.height))).map Entry.idx) =
      some (lastAbove L hd.idx (hd :: At)) := by
  have hdesc : Describes s (At ++ Bt) := fun e he => M.describes e (by simp [he])
  have hLh : L < hd.height := by rw [M.head_height]; exact hL
  rw [lastBelow, filter_keyBelow cmp s t L At Bt hdesc hA hB, M.head_eq]
  simp only [lastAbove, hLh, if_true]
  rw [lastAbove_eq_getLast]
  cases ((At.filter (fun e => decide (L < e.height))).map Entry.idx).getLast? <;> rfl

/-- C5: in a reachable state (strict-total-order comparator) `FindGreaterOrEqual`
returns the first node of the level-0 traversal whose key compares `>= t`; that is
`nullptr` exactly when no node has such a key; and the node returned is the same
with a `prev` array supplied and with `prev == NULL`. -/
theorem findGreaterOrEqual_first (cmp : K → K → Int) (hcmp : StrictTotal cmp)
    (gen : R → Nat × R) (s : SkipList K R) (hr : Reachable cmp gen s) (t : K)
    (prev : List Ptr) (hprev : prev.length = kMaxHeight)
    (fuel : Nat) (hfuel : s.arena_.length + kMaxHeight ≤ fuel) :
    ∃ nodes out, levelNodes fuel s 0 = .ok nodes ∧
      FindGreaterOrEqual cmp fuel s t none = .ok (nodes.find? (keyAtLeast cmp s t), none) ∧
      FindGreaterOrEqual cmp fuel s t (some prev) =
        .ok (nodes.find? (keyAtLeast cmp s t), some out) ∧
      (nodes.find? (keyAtLeast cmp s t) = none ↔ ∀ i ∈ nodes, keyAtLeast cmp s t i = false) := by
  obtain ⟨hd, order, M⟩ := reachable_models cmp hcmp gen s hr
  obtain ⟨hf1, hf2⟩ := models_fuel cmp s hd order M fuel hfuel
  obtain ⟨At, Bt, rfl, hA, hB⟩ := exists_split cmp hcmp t order M.sorted
  have hcl := M.cur_le
  have hfind := firstAbove_eq_find cmp s t At Bt (fun e he => M.describes e (by simp [he]))
    M.height_pos hA hB
  have h1 := fge_spec cmp s t hd At Bt M hA hB fuel (by simp at hf1; omega) none
    (by intro p hp; cases hp)
  have h2 := fge_spec cmp s t hd At Bt M hA hB fuel (by simp at hf1; omega) (some prev)
    (by intro p hp; cases hp; omega)
  rw [hfind] at h1 h2
  exact ⟨_, _, models_level0 cmp s hd _ M fuel hf2, h1, h2, find_none_iff _ _⟩

theorem findGreaterOrEqual_first_witness :
    (Reachable natCompare counterGen sampleList ∧
      (List.replicate kMaxHeight (none : Ptr)).length = kMaxHeight ∧
      sampleList.arena_.length + kMaxHeight ≤ 40) ∧
    ∃ nodes out, levelNodes 40 sampleList 0 = .ok nodes ∧
      FindGreaterOrEqual natCompare 40 sampleList 4 none =
        .ok (nodes.find? (keyAtLeast natCompare sampleList 4), none) ∧
      FindGreaterOrEqual natCompare 40 sampleList 4 (some (List.replicate kMaxHeight none)) =
        .ok (nodes.find? (keyAtLeast natCompare sampleList 4), some out) ∧
      (nodes.find? (keyAtLeast natCompare sampleList 4) = none ↔
        ∀ i ∈ nodes, keyAtLeast natCompare sampleList 4 i = false) :=
  ⟨⟨sampleList_reachable, by decide, by decide⟩,
    findGreaterOrEqual_first natCompare natCompare_strictTotal counterGen sampleList
      sampleList_reachable 4 (List.replicate kMaxHeight none) (by decide) 40 (by decide)⟩

/-- C6: in a reachable state, after `FindGreaterOrEqual(t, prev)` with an array
`prev` of `kMaxHeight` entries, for every level `L < cur_height_` the entry
`prev[L]` is the last node of the level-`L` traversal whose key is strictly less
than `t`, or `head_` when that traversal has no such node; the entries at levels
`>= cur_height_` are as they were. -/
theorem findGreaterOrEqual_prev (cmp : K → K → Int) (hcmp : StrictTotal cmp)
    (gen : R → Nat × R) (s : SkipList K R) (hr : Reachable cmp gen s) (t : K)
    (prev : List Ptr) (hprev : prev.length = kMaxHeight)
    (fuel : Nat) (hfuel : s.arena_.length + kMaxHeight ≤ fuel) :
    ∃ r out, FindGreaterOrEqual cmp fuel s t (some prev) = .ok (r, some out) ∧
      out.length = prev.length ∧
      (∀ L, s.cur_height_ ≤ L → out[L]? = prev[L]?) ∧
      ∀ L, L < s.cur_height_ →
        ∃ nodesL, levelNodes fuel s L = .ok nodesL ∧
          out[L]? = some (lastBelow cmp s t nodesL) := by
  obtain ⟨hd, order, M⟩ := reachable_models cmp hcmp gen s hr
  obtain ⟨hf1, hf2⟩ := models_fuel cmp s hd order M fuel hfuel
  obtain ⟨At, Bt, rfl, hA, hB⟩ := exists_split cmp hcmp t order M.sorted
  have hcl := M.cur_le
  have hcp := M.cur_pos
  have h2 := fge_spec cmp s t hd At Bt M hA hB fuel (by simp at hf1; omega) (some prev)
    (by intro p hp; cases hp; omega)
  refine ⟨_, _, h2, recordPrev_length _ _ _, ?_, ?_⟩
  · intro L hL
    rw [recordPrev_get, if_neg (by omega)]
  · intro L hL
    refine ⟨_, models_levelNodes cmp s hd _ M L (by omega) fuel hf2, ?_⟩
    rw [recordPrev_get, if_pos ⟨by omega, by omega⟩,
      lastBelow_eq cmp s t L hd At Bt M (by omega) hA hB]

theorem findGreaterOrEqual_prev_witness :
    (Reachable natCompare counterGen sampleList ∧
      (List.replicate kMaxHeight (none : Ptr)).length = kMaxHeight ∧
      sampleList.arena_.length + kMaxHeight ≤ 40) ∧
    ∃ r out, FindGreaterOrEqual natCompare 40 sampleList 4
        (some (List.replicate kMaxHeight none)) = .ok (r, some out) ∧
      out.length = (List.replicate kMaxHeight (none : Ptr)).length ∧
      (∀ L, sampleList.cur_height_ ≤ L →
        out[L]? = (List.replicate kMaxHeight (none : Ptr))[L]?) ∧
      ∀ L, L < sampleList.cur_height_ →
        ∃ nodesL, levelNodes 40 sampleList L = .ok nodesL ∧
          out[L]? = some (lastBelow natCompare sampleList 4 nodesL) :=
  ⟨⟨sampleList_reachable, by decide, by decide⟩,
    findGreaterOrEqual_prev natCompare natCompare_strictTotal counterGen sampleList
      sampleList_reachable 4 (List.replicate kMaxHeight none) (by decide) 40 (by decide)⟩

theorem exists_concat (l : List (Entry K)) (h : l ≠ []) : ∃ l1 a, l = l1 ++ [a] := by
  rcases List.eq_nil_or_concat l with h0 | ⟨l1, a, h1⟩
  · exact absurd h0 h
  · exact ⟨l1, a, by rw [h1, List.concat_eq_append]⟩

theorem models_idx_ne_head (cmp : K → K → Int) (s : SkipList K R) (hd : Entry K)
    (order : List (Entry K)) (M : Models cmp s hd order) (e : Entry K) (he : e ∈ order) :
    some e.idx ≠ s.head_ := by
  have hnd := M.nodup
  rw [List.map_cons, List.nodup_cons] at hnd
  rw [M.head_eq]
  intro h
  exact hnd.1 (by rw [← Option.some.inj h]; exact List.mem_map_of_mem _ he)

theorem models_nodeLt (cmp : K → K → Int) (s : SkipList K R) (hd : Entry K)
    (order : List (Entry K)) (M : Models cmp s hd order) (e a : Entry K) (he : e ∈ order)
    (ha : a ∈ order) (hlt : cmp e.key a.key < 0) : nodeLt cmp s e.idx a.idx :=
  ⟨e.key, a.key, (M.describes e (by simp [he])).1, (M.describes a (by simp [ha])).1, hlt⟩

/-- C8: in a reachable state `FindLast()` returns a non-null node: `head_` when the
list holds no real node, and otherwise the real node with the greatest key, which
is the one real node whose level-0 forward pointer is `nullptr`. -/
theorem findLast_greatest (cmp : K → K → Int) (hcmp : StrictTotal cmp)
    (gen : R → Nat × R) (s : SkipList K R) (hr : Reachable cmp gen s)
    (fuel : Nat) (hfuel : s.arena_.length + kMaxHeight ≤ fuel) :
    ∃ nodes p, levelNodes fuel s 0 = .ok nodes ∧ FindLast fuel s = .ok (some p) ∧
      ((nodes = [] ∧ some p = s.head_) ∨
       (some p ≠ s.head_ ∧ p ∈ nodes ∧ (∀ i ∈ nodes, i = p ∨ nodeLt cmp s i p) ∧
         ∀ i ∈ nodes, (Next s (some i) 0 = .ok none ↔ i = p))) := by
  obtain ⟨hd, order, M⟩ := reachable_models cmp hcmp gen s hr
  obtain ⟨_, hf2⟩ := models_fuel cmp s hd order M fuel hfuel
  have hhd : 0 < hd.height := by rw [M.head_height]; simp [kMaxHeight]
  have hfl : FindLast fuel s = .ok (some (lastAbove 0 hd.idx order)) := by
    rw [FindLast, M.head_eq]
    exact findLast_loop_spec s fuel [] hd order M.linked hhd M.height_pos hf2
  refine ⟨_, _, models_level0 cmp s hd _ M fuel hf2, hfl, ?_⟩
  by_cases hnil : order = []
  · subst hnil
    left
    exact ⟨rfl, by simp [lastAbove, M.head_eq]⟩
  · obtain ⟨O1, a, rfl⟩ := exists_concat order hnil
    right
    have ha : a ∈ O1 ++ [a] := by simp
    have hpa : lastAbove 0 hd.idx (O1 ++ [a]) = a.idx :=
      lastAbove_split 0 hd.idx O1 [] a (M.height_pos a ha) rfl
    have hnext_a : Next s (some a.idx) 0 = .ok none :=
      Next_of_slotAt _ _ _ _
        (linked_slot s (hd :: O1) [] a (by simpa using M.linked) 0 (M.height_pos a ha))
    rw [hpa]
    refine ⟨models_idx_ne_head cmp s hd _ M a ha, List.mem_map_of_mem _ ha, ?_, ?_⟩
    · intro i hi
      obtain ⟨e, he, rfl⟩ := List.mem_map.1 hi
      rcases List.mem_append.1 he with he1 | he1
      · right
        have hs := M.sorted
        rw [List.pairwise_append] at hs
        exact models_nodeLt cmp s hd _ M e a he ha (hs.2.2 e he1 a (by simp))
      · left
        simp only [List.mem_singleton] at he1
        rw [he1]
    · intro i hi
      constructor
      · intro hn
        obtain ⟨e, he, rfl⟩ := List.mem_map.1 hi
        obtain ⟨X, Y, hXY⟩ := List.append_of_mem he
        have hslot := linked_slot s (hd :: X) Y e
          (by rw [List.cons_append, ← hXY]; exact M.linked) 0 (M.height_pos e he)
        rw [Next_of_slotAt _ _ _ _ hslot] at hn
        cases Y with
        | nil =>
          have := List.append_inj' hXY rfl
          rw [List.singleton_inj.1 this.2]
        | cons y Y1 =>
          have hy : 0 < y.height := M.height_pos y (by rw [hXY]; simp)
          simp [firstAbove, hy] at hn
      · intro hi2
        rw [hi2]
        exact hnext_a

theorem findLast_greatest_witness :
    (Reachable natCompare counterGen sampleList ∧
      sampleList.arena_.length + kMaxHeight ≤ 40) ∧
    ∃ nodes p, levelNodes 40 sampleList 0 = .ok nodes ∧ FindLast 40 sampleList = .ok (some p) ∧
      ((nodes = [] ∧ some p = sampleList.head_) ∨
       (some p ≠ sampleList.head_ ∧ p ∈ nodes ∧
         (∀ i ∈ nodes, i = p ∨ nodeLt natCompare sampleList i p) ∧
         ∀ i ∈ nodes, (Next sampleList (some i) 0 = .ok none ↔ i = p))) :=
  ⟨⟨sampleList_reachable, by decide⟩,
    findLast_greatest natCompare natCompare_strictTotal counterGen sampleList
      sampleList_reachable 40 (by decide)⟩

theorem models_levelOrdered (cmp : K → K → Int) (s : SkipList K R) (hd : Entry K)
    (order : List (Entry K)) (M : Models cmp s hd order) (L : Nat) (hL : L < kMaxHeight)
    (fuel : Nat) (hfuel : order.length < fuel) : LevelOrdered cmp fuel s L := by
  refine ⟨_, _, (order.filter (fun e => decide (L < e.height))).map Entry.key,
    models_levelNodes cmp s hd order M L hL fuel hfuel,
    models_level0 cmp s hd order M fuel hfuel,
    (List.filter_sublist order).map Entry.idx, ?_, ?_⟩
  · rw [List.map_map, List.map_map]
    apply List.map_congr_left
    intro e he
    exact (M.describes e (by simp [(List.mem_filter.1 he).1])).1
  · rw [List.pairwise_map]
    exact M.sorted.sublist (List.filter_sublist order)

theorem models_mem_level (cmp : K → K → Int) (s : SkipList K R) (hd : Entry K)
    (order : List (Entry K)) (M : Models cmp s hd order) (e : Entry K) (he : e ∈ order)
    (L : Nat) :
    e.idx ∈ (order.filter (fun e => decide (L < e.height))).map Entry.idx ↔
      L < heightAt s e.idx := by
  rw [(M.describes e (by simp [he])).2]
  have hnd := M.nodup
  rw [List.map_cons, List.nodup_cons] at hnd
  constructor
  · intro h
    obtain ⟨e1, he1, hidx⟩ := List.mem_map.1 h
    rw [List.mem_filter] at he1
    have := List.inj_on_of_nodup_map hnd.2 he1.1 he hidx
    rw [← this]
    simpa using he1.2
  · intro h
    exact List.mem_map_of_mem _ (List.mem_filter.2 ⟨he, by simpa using h⟩)

/-- C9: in a reachable state, for every level `L < kMaxHeight` the level-`L`
traversal from the head visits nodes with strictly increasing keys and is a
subsequence of the level-0 traversal; `Insert` of any key returns a state in
which this holds again. -/
theorem levels_ordered (cmp : K → K → Int) (hcmp : StrictTotal cmp)
    (gen : R → Nat × R) (s : SkipList K R) (hr : Reachable cmp gen s)
    (L : Nat) (hL : L < kMaxHeight) (fuel : Nat) (hfuel : s.arena_.length + kMaxHeight ≤ fuel) :
    LevelOrdered cmp fuel s L ∧
      ∀ key, ∃ s1, Insert cmp gen fuel s key = .ok s1 ∧ LevelOrdered cmp (fuel + 1) s1 L := by
  obtain ⟨hd, order, M⟩ := reachable_models cmp hcmp gen s hr
  obtain ⟨hf1, hf2⟩ := models_fuel cmp s hd order M fuel hfuel
  refine ⟨models_levelOrdered cmp s hd order M L hL fuel hf2, ?_⟩
  intro key
  rcases insert_spec cmp hcmp gen s hd order M key fuel hf1 with
    ⟨_, h⟩ | ⟨_, s1, At, Bt, _, _, rfl, _, _, _, _, _, h, hM, _⟩
  · exact ⟨s, h, models_levelOrdered cmp s hd order M L hL (fuel + 1) (by omega)⟩
  · exact ⟨s1, h, models_levelOrdered cmp s1 hd _ hM L hL (fuel + 1)
      (by simp at hf2 ⊢; omega)⟩

theorem levels_ordered_witness :
    (Reachable natCompare counterGen sampleList ∧ 1 < kMaxHeight ∧
      sampleList.arena_.length + kMaxHeight ≤ 40) ∧
    (LevelOrdered natCompare 40 sampleList 1 ∧
      ∀ key, ∃ s1, Insert natCompare counterGen 40 sampleList key = .ok s1 ∧
        LevelOrdered natCompare (40 + 1) s1 1) :=
  ⟨⟨sampleList_reachable, by decide, by decide⟩,
    levels_ordered natCompare natCompare_strictTotal counterGen sampleList
      sampleList_reachable 1 (by decide) 40 (by decide)⟩

/-- C10: in a reachable state a real node `i` is visited by the level-`L`
traversal (`L < kMaxHeight`) if and only if `L` is less than the height the node
was created with; an `Insert` of any key returns a state in which the node has
the same height and is visited at the same levels. -/
theorem node_levels (cmp : K → K → Int) (hcmp : StrictTotal cmp)
    (gen : R → Nat × R) (s : SkipList K R) (hr : Reachable cmp gen s)
    (i : Nat) (hi : i < s.arena_.length) (hne : some i ≠ s.head_)
    (L : Nat) (hL : L < kMaxHeight) (fuel : Nat) (hfuel : s.arena_.length + kMaxHeight ≤ fuel) :
    ∃ nodesL, levelNodes fuel s L = .ok nodesL ∧ (i ∈ nodesL ↔ L < heightAt s i) ∧
      ∀ key, ∃ s1 nodesL1, Insert cmp gen fuel s key = .ok s1 ∧
        levelNodes (fuel + 1) s1 L = .ok nodesL1 ∧ heightAt s1 i = heightAt s i ∧
        (i ∈ nodesL1 ↔ i ∈ nodesL) := by
  obtain ⟨hd, order, M⟩ := reachable_models cmp hcmp gen s hr
  obtain ⟨hf1, hf2⟩ := models_fuel cmp s hd order M fuel hfuel
  obtain ⟨e, he, rfl⟩ := models_real_node cmp s hd order M i hi hne
  have hmem := models_mem_level cmp s hd order M e he L
  refine ⟨_, models_levelNodes cmp s hd order M L hL fuel hf2, hmem, ?_⟩
  intro key
  rcases insert_spec cmp hcmp gen s hd order M key fuel hf1 with
    ⟨_, h⟩ | ⟨_, s1, At, Bt, hgt, _, rfl, _, _, _, _, _, h, hM, _⟩
  · exact ⟨s, _, h, models_levelNodes cmp s hd order M L hL (fuel + 1) (by omega), rfl,
      Iff.rfl⟩
  · have he1 : e ∈ At ++ (⟨s.arena_.length, key, hgt⟩ : Entry K) :: Bt := by
      rcases List.mem_append.1 he with h1 | h1
      · exact List.mem_append_left _ h1
      · exact List.mem_append_right _ (List.mem_cons_of_mem _ h1)
    have hh : heightAt s1 e.idx = heightAt s e.idx := by
      rw [(hM.describes e (by simp [he1])).2, (M.describes e (by simp [he])).2]
    refine ⟨s1, _, h, models_levelNodes cmp s1 hd _ hM L hL (fuel + 1)
      (by simp at hf2 ⊢; omega), hh, ?_⟩
    rw [models_mem_level cmp s1 hd _ hM e he1 L, hh, hmem]

theorem node_levels_witness :
    (Reachable natCompare counterGen sampleList ∧ 2 < sampleList.arena_.length ∧
      some 2 ≠ sampleList.head_ ∧ 1 < kMaxHeight ∧
      sampleList.arena_.length + kMaxHeight ≤ 40) ∧
    ∃ nodesL, levelNodes 40 sampleList 1 = .ok nodesL ∧
      (2 ∈ nodesL ↔ 1 < heightAt sampleList 2) ∧
      ∀ key, ∃ s1 nodesL1, Insert natCompare counterGen 40 sampleList key = .ok s1 ∧
        levelNodes (40 + 1) s1 1 = .ok nodesL1 ∧ heightAt s1 2 = heightAt sampleList 2 ∧
        (2 ∈ nodesL1 ↔ 2 ∈ nodesL) :=
  ⟨⟨sampleList_reachable, by decide, by decide, by decide, by decide⟩,
    node_levels natCompare natCompare_strictTotal counterGen sampleList
      sampleList_reachable 2 (by decide) (by decide) 1 (by decide) 40 (by decide)⟩

/-- C11: for every draw sequence, when draw number `j` (counting from 0) is the
first that is not divisible by `kBranching`, `RandomHeight` returns
`min(kMaxHeight, 1 + j)` and leaves the random source `min(j + 1, kMaxHeight - 1)`
draws further; in particular it returns 1 when the first draw is not divisible by
4, and it returns `kMaxHeight` when the first `kMaxHeight - 1` draws are all
divisible by 4. -/
theorem randomHeight_formula (gen : R → Nat × R) (r : R) :
    (∀ j, (∀ i, i < j → nthDraw gen i r % kBranching = 0) →
      nthDraw gen j r % kBranching ≠ 0 →
      RandomHeight gen r =
        .ok (min kMaxHeight (1 + j), stateAfter gen (min (j + 1) (kMaxHeight - 1)) r)) ∧
    (nthDraw gen 0 r % kBranching ≠ 0 → RandomHeight gen r = .ok (1, stateAfter gen 1 r)) ∧
    ((∀ i, i < kMaxHeight - 1 → nthDraw gen i r % kBranching = 0) →
      RandomHeight gen r = .ok (kMaxHeight, stateAfter gen (kMaxHeight - 1) r)) := by
  have hk : kMaxHeight = 20 := rfl
  have hcap : (∀ i, i < kMaxHeight - 1 → nthDraw gen i r % kBranching = 0) →
      RandomHeight gen r = .ok (kMaxHeight, stateAfter gen (kMaxHeight - 1) r) := by
    intro hall
    exact randomHeight_loop_cap gen (kMaxHeight - 1) kMaxHeight 1 r (by omega) (by omega) hall
  have hstop : ∀ j, (∀ i, i < j → nthDraw gen i r % kBranching = 0) →
      nthDraw gen j r % kBranching ≠ 0 →
      RandomHeight gen r =
        .ok (min kMaxHeight (1 + j), stateAfter gen (min (j + 1) (kMaxHeight - 1)) r) := by
    intro j hall hj
    by_cases hlt : 1 + j < kMaxHeight
    · rw [min_eq_right (le_of_lt hlt), min_eq_left (by omega)]
      exact randomHeight_loop_stop gen j kMaxHeight 1 r (by omega) hlt hall hj
    · rw [min_eq_left (by omega), min_eq_right (by omega)]
      exact hcap (fun i hi => hall i (by omega))
  exact ⟨hstop, fun h0 => by simpa using hstop 0 (fun i hi => by omega) h0, hcap⟩

theorem randomHeight_formula_witness :
    RandomHeight counterGen 4 =
      .ok (min kMaxHeight (1 + 1), stateAfter counterGen (min (1 + 1) (kMaxHeight - 1)) 4) :=
  (randomHeight_formula counterGen 4).1 1 (by decide) (by decide)

/-- C12: in every state reachable from the constructor by `Insert` calls (any
comparator) `cur_height_` is the maximum of 1 and the heights of all real nodes,
and the head's forward pointer is `nullptr` at every level `L` with
`cur_height_ <= L < kMaxHeight`; a freshly constructed list has `cur_height_ = 1`
and `nullptr` in all `kMaxHeight` slots of the head. -/
theorem cur_height_is_max (cmp : K → K → Int) (gen : R → Nat × R) (s : SkipList K R)
    (hr : Reachable cmp gen s) :
    s.cur_height_ = maxRealHeight s ∧
    (∀ L, s.cur_height_ ≤ L → L < kMaxHeight → Next s s.head_ L = .ok none) ∧
    (∀ (zero : K) (r0 : R), ∃ s0, SkipList.new zero r0 = .ok s0 ∧ s0.cur_height_ = 1 ∧
      ∀ L, L < kMaxHeight → Next s0 s0.head_ L = .ok none) := by
  obtain ⟨hh, hlen, hb, hc, hd⟩ := reachable_cur_max cmp gen s hr
  have hcp := (reachable_heights cmp gen s hr).1.1
  have hmem : ∀ i, i ∈ (List.range s.arena_.length).filter (fun i => decide (some i ≠ s.head_))
      ↔ i < s.arena_.length ∧ i ≠ 0 := by
    intro i
    simp [List.mem_filter, hh]
  refine ⟨?_, ?_, ?_⟩
  · rw [maxRealHeight]
    symm
    apply foldl_max_eq (heightAt s) _ 1 s.cur_height_ hcp
    · intro i hi
      exact hb i ((hmem i).1 hi).1 ((hmem i).1 hi).2
    · rcases hc with hc | ⟨i, hi, hne, hic⟩
      · exact Or.inl hc
      · exact Or.inr ⟨i, (hmem i).2 ⟨hi, hne⟩, hic⟩
  · intro L hL hL20
    rw [hh]
    exact Next_of_slotAt s 0 L none (hd L hL hL20)
  · intro zero r0
    obtain ⟨s0, hs0, M, hc0, _⟩ := new_spec cmp zero r0
    refine ⟨s0, hs0, hc0, ?_⟩
    intro L hL
    rw [M.head_eq]
    exact Next_of_slotAt s0 0 L none (by simpa [firstAbove] using M.linked.1 L hL)

theorem cur_height_is_max_witness :
    Reachable natCompare counterGen sampleList ∧
    (sampleList.cur_height_ = maxRealHeight sampleList ∧
    (∀ L, sampleList.cur_height_ ≤ L → L < kMaxHeight →
      Next sampleList sampleList.head_ L = .ok none) ∧
    (∀ (z : Nat) (r0 : Nat), ∃ s0, SkipList.new z r0 = .ok s0 ∧ s0.cur_height_ = 1 ∧
      ∀ L, L < kMaxHeight → Next s0 s0.head_ L = .ok none)) :=
  ⟨sampleList_reachable, cur_height_is_max natCompare counterGen sampleList sampleList_reachable⟩

theorem firstOccurrences_sublist (cmp : K → K → Int) :
    ∀ (keys acc : List K), ∃ l, firstOccurrences cmp acc keys = acc ++ l ∧ l.Sublist keys := by
  intro keys
  induction keys with
  | nil => intro acc; exact ⟨[], by simp [firstOccurrences], List.Sublist.refl _⟩
  | cons k ks ih =>
    intro acc
    rw [firstOccurrences]
    by_cases hany : acc.any (fun a => decide (cmp k a = 0)) = true
    · rw [if_pos hany]
      obtain ⟨l, hl, hsub⟩ := ih acc
      exact ⟨l, hl, hsub.cons k⟩
    · rw [if_neg hany]
      obtain ⟨l, hl, hsub⟩ := ih (acc ++ [k])
      exact ⟨k :: l, by rw [hl]; simp, hsub.cons₂ k⟩

/-- C13: for a strict-total-order comparator and any sequence `keys` of `Insert`
calls on a freshly constructed list, the keys of the real nodes on level 0 are a
rearrangement of the first occurrences of the distinct inserted keys, so their
number is the number of pairwise non-equal keys of the sequence; no two nodes hold
comparator-equal keys and every inserted key is equal to the key of some node. -/
theorem nodes_are_first_occurrences (cmp : K → K → Int) (hcmp : StrictTotal cmp)
    (gen : R → Nat × R) (zero : K) (r0 : R) (keys : List K) (fuel : Nat)
    (hfuel : keys.length + kMaxHeight ≤ fuel) :
    ∃ s0 s nodes ks, SkipList.new zero r0 = .ok s0 ∧
      insertAll cmp gen fuel s0 keys = .ok s ∧ levelNodes fuel s 0 = .ok nodes ∧
      nodes.map (keyAt s) = ks.map some ∧
      ks.Perm (firstOccurrences cmp [] keys) ∧
      nodes.length = (firstOccurrences cmp [] keys).length ∧
      List.Pairwise (fun a b => cmp a b ≠ 0) ks ∧
      (∀ k ∈ keys, ∃ a ∈ ks, cmp k a = 0) ∧
      (firstOccurrences cmp [] keys).Sublist keys ∧
      List.Pairwise (fun a b => cmp a b ≠ 0) (firstOccurrences cmp [] keys) := by
  obtain ⟨s0, s, hd, order, h0, h1, M, hp, hlen, _⟩ :=
    build_spec cmp hcmp gen zero r0 keys fuel hfuel
  have hk : 0 < kMaxHeight := by simp [kMaxHeight]
  have hpw : List.Pairwise (fun a b => cmp a b ≠ 0) (order.map Entry.key) := by
    rw [List.pairwise_map]
    exact M.sorted.imp (fun h => by omega)
  have hsymm : ∀ a b : K, cmp a b ≠ 0 → cmp b a ≠ 0 :=
    fun a b h hc => h (cmp_eq_zero_symm cmp hcmp b a hc)
  have hsub : (firstOccurrences cmp [] keys).Sublist keys := by
    obtain ⟨l, hl, hs⟩ := firstOccurrences_sublist cmp keys []
    rw [hl]
    simpa using hs
  refine ⟨s0, s, order.map Entry.idx, order.map Entry.key, h0, h1,
    models_level0 cmp s hd order M fuel (by omega), ?_, hp, ?_, hpw, ?_, hsub,
    hp.pairwise hpw (fun h => hsymm _ _ h)⟩
  · rw [List.map_map, List.map_map]
    apply List.map_congr_left
    intro e he
    exact (M.describes e (by simp [he])).1
  · rw [← hp.length_eq]
    simp
  · intro k hkm
    have := (firstOccurrences_equal_iff cmp hcmp k keys []).2
      (Or.inr ⟨k, hkm, by
        have h1 := hcmp.flip k k
        omega⟩)
    obtain ⟨a, ha, hka⟩ := this
    exact ⟨a, hp.mem_iff.2 ha, hka⟩

theorem nodes_are_first_occurrences_witness :
    ∃ s0 s nodes ks, SkipList.new (0 : Nat) (0 : Nat) = .ok s0 ∧
      insertAll natCompare counterGen 24 s0 [7, 2, 7, 2] = .ok s ∧
      levelNodes 24 s 0 = .ok nodes ∧
      nodes.map (keyAt s) = ks.map some ∧
      ks.Perm (firstOccurrences natCompare [] [7, 2, 7, 2]) ∧
      nodes.length = (firstOccurrences natCompare [] [7, 2, 7, 2]).length ∧
      List.Pairwise (fun a b => natCompare a b ≠ 0) ks ∧
      (∀ k ∈ [7, 2, 7, 2], ∃ a ∈ ks, natCompare k a = 0) ∧
      (firstOccurrences natCompare [] [7, 2, 7, 2]).Sublist [7, 2, 7, 2] ∧
      List.Pairwise (fun a b => natCompare a b ≠ 0)
        (firstOccurrences natCompare [] [7, 2, 7, 2]) :=
  nodes_are_first_occurrences natCompare natCompare_strictTotal counterGen 0 0 [7, 2, 7, 2] 24
    (by decide)

/-- Enough fuel makes every operation return on a reachable state, with a result
that no longer depends on the fuel; `RandomHeight` needs no fuel. -/
theorem operations_total (cmp : K → K → Int) (hcmp : StrictTotal cmp)
    (gen : R → Nat × R) (s : SkipList K R) (hr : Reachable cmp gen s) (key : K)
    (prev : List Ptr) (hprev : prev.length = kMaxHeight) :
    (∃ r, ∀ fuel, s.arena_.length - 1 + s.cur_height_ ≤ fuel →
      FindGreaterOrEqual cmp fuel s key none = .ok r) ∧
    (∃ r, ∀ fuel, s.arena_.length - 1 + s.cur_height_ ≤ fuel →
      FindGreaterOrEqual cmp fuel s key (some prev) = .ok r) ∧
    (∃ p, ∀ fuel, s.arena_.length - 1 + s.cur_height_ ≤ fuel →
      FindLessThan cmp fuel s key = .ok p) ∧
    (∃ p, ∀ fuel, s.arena_.length - 1 + s.cur_height_ ≤ fuel → FindLast fuel s = .ok p) ∧
    (∃ b, ∀ fuel, s.arena_.length - 1 + s.cur_height_ ≤ fuel →
      Contains cmp fuel s key = .ok b) ∧
    (∃ s1, ∀ fuel, s.arena_.length - 1 + s.cur_height_ ≤ fuel →
      Insert cmp gen fuel s key = .ok s1) ∧
    (∀ r, ∃ h n, n ≤ kMaxHeight - 1 ∧ RandomHeight gen r = .ok (h, stateAfter gen n r)) := by
  obtain ⟨hd, order, M⟩ := reachable_models cmp hcmp gen s hr
  have hsz := M.size
  have hcl := M.cur_le
  have hcp := M.cur_pos
  have hB : s.arena_.length - 1 + s.cur_height_ = order.length + s.cur_height_ := by omega
  rw [hB]
  obtain ⟨At, Bt, hsplit, hA, hB1⟩ := exists_split cmp hcmp key order M.sorted
  have hAt : At.length ≤ order.length := by rw [hsplit]; simp
  have hhd : 0 < hd.height := by rw [M.head_height]; simp [kMaxHeight]
  refine ⟨⟨(firstAbove 0 Bt, none), fun fuel hf => ?_⟩,
    ⟨(firstAbove 0 Bt, (some prev).map
      (recordPrev (fun L => some (lastAbove L hd.idx (hd :: At))) (s.cur_height_ - 1))),
      fun fuel hf => ?_⟩,
    ?_, ⟨some (lastAbove 0 hd.idx order), fun fuel hf => ?_⟩, ?_, ?_, ?_⟩
  · subst hsplit
    exact fge_spec cmp s key hd At Bt M hA hB1 fuel (by omega) none (by intro p hp; cases hp)
  · subst hsplit
    exact fge_spec cmp s key hd At Bt M hA hB1 fuel (by omega) (some prev)
      (by intro p hp; cases hp; omega)
  · obtain ⟨e, _, he⟩ := flt_total cmp cmp s key hd order M
      (order.length + s.cur_height_) (le_refl _)
    refine ⟨some e.idx, fun fuel hf => ?_⟩
    rw [flt_stable cmp s key _ fuel hf (by rw [he]; simp), he]
  · rw [FindLast, M.head_eq]
    exact findLast_loop_spec s fuel [] hd order M.linked hhd M.height_pos (by omega)
  · obtain ⟨b, hb, _⟩ := contains_spec cmp hcmp s hd order M key
      (order.length + s.cur_height_) (le_refl _)
    refine ⟨b, fun fuel hf => ?_⟩
    rw [contains_stable cmp s key _ fuel hf (by rw [hb]; simp), hb]
  · have hins : ∃ s1, Insert cmp gen (order.length + s.cur_height_) s key = .ok s1 := by
      rcases insert_spec cmp hcmp gen s hd order M key (order.length + s.cur_height_)
          (le_refl _) with ⟨_, h⟩ | ⟨_, s1, _, _, _, _, _, _, _, _, _, _, h, _⟩
      · exact ⟨s, h⟩
      · exact ⟨s1, h⟩
    obtain ⟨s1, hs1⟩ := hins
    refine ⟨s1, fun fuel hf => ?_⟩
    rw [insert_stable cmp gen s key _ fuel hf (by rw [hs1]; simp), hs1]
  · intro r
    obtain ⟨h, n, hn, hl⟩ := randomHeight_loop_draws gen kMaxHeight 1 r (by simp [kMaxHeight])
    exact ⟨h, n, hn, hl⟩

/-- C16: in a reachable state (strict-total-order comparator) each of
`FindGreaterOrEqual`, `FindLessThan`, `FindLast`, `Contains` and `Insert` returns
within `(number of real nodes) + cur_height_` loop iterations (one move to a later
node per real node at most, one level decrease per level), and the value returned
is the same for every larger iteration budget; `RandomHeight` returns after at most
`kMaxHeight - 1` draws for every draw sequence. -/
theorem operations_terminate (cmp : K → K → Int) (hcmp : StrictTotal cmp)
    (gen : R → Nat × R) (s : SkipList K R) (hr : Reachable cmp gen s) (key : K)
    (prev : List Ptr) (hprev : prev.length = kMaxHeight) :
    (∃ r, ∀ fuel, s.arena_.length - 1 + s.cur_height_ ≤ fuel →
      FindGreaterOrEqual cmp fuel s key none = .ok r) ∧
    (∃ r, ∀ fuel, s.arena_.length - 1 + s.cur_height_ ≤ fuel →
      FindGreaterOrEqual cmp fuel s key (some prev) = .ok r) ∧
    (∃ p, ∀ fuel, s.arena_.length - 1 + s.cur_height_ ≤ fuel →
      FindLessThan cmp fuel s key = .ok p) ∧
    (∃ p, ∀ fuel, s.arena_.length - 1 + s.cur_height_ ≤ fuel → FindLast fuel s = .ok p) ∧
    (∃ b, ∀ fuel, s.arena_.length - 1 + s.cur_height_ ≤ fuel →
      Contains cmp fuel s key = .ok b) ∧
    (∃ s1, ∀ fuel, s.arena_.length - 1 + s.cur_height_ ≤ fuel →
      Insert cmp gen fuel s key = .ok s1) ∧
    (∀ r, ∃ h n, n ≤ kMaxHeight - 1 ∧ RandomHeight gen r = .ok (h, stateAfter gen n r)) :=
  operations_total cmp hcmp gen s hr key prev hprev

theorem operations_terminate_witness :
    (Reachable natCompare counterGen sampleList ∧
      (List.replicate kMaxHeight (none : Ptr)).length = kMaxHeight) ∧
    ((∃ r, ∀ fuel, sampleList.arena_.length - 1 + sampleList.cur_height_ ≤ fuel →
      FindGreaterOrEqual natCompare fuel sampleList 4 none = .ok r) ∧
    (∃ r, ∀ fuel, sampleList.arena_.length - 1 + sampleList.cur_height_ ≤ fuel →
      FindGreaterOrEqual natCompare fuel sampleList 4
        (some (List.replicate kMaxHeight none)) = .ok r) ∧
    (∃ p, ∀ fuel, sampleList.arena_.length - 1 + sampleList.cur_height_ ≤ fuel →
      FindLessThan natCompare fuel sampleList 4 = .ok p) ∧
    (∃ p, ∀ fuel, sampleList.arena_.length - 1 + sampleList.cur_height_ ≤ fuel →
      FindLast fuel sampleList = .ok p) ∧
    (∃ b, ∀ fuel, sampleList.arena_.length - 1 + sampleList.cur_height_ ≤ fuel →
      Contains natCompare fuel sampleList 4 = .ok b) ∧
    (∃ s1, ∀ fuel, sampleList.arena_.length - 1 + sampleList.cur_height_ ≤ fuel →
      Insert natCompare counterGen fuel sampleList 4 = .ok s1) ∧
    (∀ r, ∃ h n, n ≤ kMaxHeight - 1 ∧
      RandomHeight counterGen r = .ok (h, stateAfter counterGen n r))) :=
  ⟨⟨sampleList_reachable, by decide⟩,
    operations_terminate natCompare natCompare_strictTotal counterGen sampleList
      sampleList_reachable 4 (List.replicate kMaxHeight none) (by decide)⟩

/-- An operation whose result is stable under more fuel and which returns a value
for enough fuel can fail, for any fuel, by running out of fuel only. -/
theorem only_outOfFuel {α : Type} (f : Nat → Except Fault α) (B : Nat)
    (hstable : ∀ fuel fuel1, fuel ≤ fuel1 → f fuel ≠ .error .outOfFuel → f fuel1 = f fuel)
    (hok : ∀ fuel, B ≤ fuel → ∃ r, f fuel = .ok r) :
    ∀ fuel e, f fuel = .error e → e = .outOfFuel := by
  intro fuel e h
  by_contra hne
  have h1 := hstable fuel (fuel + B) (by omega) (by rw [h]; simpa using hne)
  obtain ⟨r, hr⟩ := hok (fuel + B) (by omega)
  rw [h1, h] at hr
  cases hr

theorem lastAbove_entry (L d : Nat) (X : List (Entry K)) (h : firstAbove L X ≠ none) :
    ∃ e ∈ X, e.idx = lastAbove L d X ∧ L < e.height := by
  induction X generalizing d with
  | nil => simp [firstAbove] at h
  | cons e es ih =>
    by_cases hes : firstAbove L es = none
    · by_cases hL : L < e.height
      · exact ⟨e, by simp, by simp [lastAbove, hL, lastAbove_of_none _ _ _ hes], hL⟩
      · simp [firstAbove, hL, hes] at h
    · obtain ⟨a, ha, hai, haL⟩ := ih (if L < e.height then e.idx else d) hes
      exact ⟨a, by simp [ha], by simpa [lastAbove] using hai, haL⟩

/-- C17: in a reachable state, whatever the iteration budget, none of
`FindGreaterOrEqual`, `FindLessThan`, `FindLast`, `Contains` and `Insert` ever
dereferences `nullptr`, accesses a forward slot or a `prev` entry out of range, or
reads an unwritten slot: the only way not to return is to exhaust the budget. The
array `FindGreaterOrEqual` hands to `Insert` holds, at every level below
`cur_height_`, an allocated node that has a slot at that level, and the head has
`kMaxHeight` slots. -/
theorem accesses_in_range (cmp : K → K → Int) (hcmp : StrictTotal cmp)
    (gen : R → Nat × R) (s : SkipList K R) (hr : Reachable cmp gen s) (key : K)
    (prev : List Ptr) (hprev : prev.length = kMaxHeight) :
    (∀ fuel e, FindGreaterOrEqual cmp fuel s key none = .error e → e = .outOfFuel) ∧
    (∀ fuel e, FindGreaterOrEqual cmp fuel s key (some prev) = .error e → e = .outOfFuel) ∧
    (∀ fuel e, FindLessThan cmp fuel s key = .error e → e = .outOfFuel) ∧
    (∀ fuel e, FindLast fuel s = .error e → e = .outOfFuel) ∧
    (∀ fuel e, Contains cmp fuel s key = .error e → e = .outOfFuel) ∧
    (∀ fuel e, Insert cmp gen fuel s key = .error e → e = .outOfFuel) ∧
    (∃ r out, FindGreaterOrEqual cmp (s.arena_.length + kMaxHeight) s key (some prev) =
        .ok (r, some out) ∧
      ∀ L, L < s.cur_height_ → ∃ p, out[L]? = some (some p) ∧ L < heightAt s p) ∧
    (∃ h, s.head_ = some h ∧ heightAt s h = kMaxHeight) := by
  obtain ⟨hd, order, M⟩ := reachable_models cmp hcmp gen s hr
  have hsz := M.size
  have hcl := M.cur_le
  have hcp := M.cur_pos
  have hk : kMaxHeight = 20 := rfl
  obtain ⟨At, Bt, hsplit, hA, hB1⟩ := exists_split cmp hcmp key order M.sorted
  have hAt : At.length ≤ order.length := by rw [hsplit]; simp
  have hhd : 0 < hd.height := by rw [M.head_height]; simp [kMaxHeight]
  subst hsplit
  refine ⟨?_, ?_, ?_, ?_, ?_, ?_, ?_, ?_⟩
  · exact only_outOfFuel (fun fuel => FindGreaterOrEqual cmp fuel s key none)
      ((At ++ Bt).length + s.cur_height_)
      (fun fuel fuel1 hle h => fge_stable cmp s key fuel fuel1 none hle h)
      (fun fuel hf => ⟨_, fge_spec cmp s key hd At Bt M hA hB1 fuel (by omega) none
        (by intro p hp; cases hp)⟩)
  · exact only_outOfFuel (fun fuel => FindGreaterOrEqual cmp fuel s key (some prev))
      ((At ++ Bt).length + s.cur_height_)
      (fun fuel fuel1 hle h => fge_stable cmp s key fuel fuel1 (some prev) hle h)
      (fun fuel hf => ⟨_, fge_spec cmp s key hd At Bt M hA hB1 fuel (by omega) (some prev)
        (by intro p hp; cases hp; omega)⟩)
  · exact only_outOfFuel (fun fuel => FindLessThan cmp fuel s key)
      ((At ++ Bt).length + s.cur_height_)
      (fun fuel fuel1 hle h => flt_stable cmp s key fuel fuel1 hle h)
      (fun fuel hf => by
        obtain ⟨e, _, he⟩ := flt_total cmp cmp s key hd _ M fuel (by omega)
        exact ⟨_, he⟩)
  · exact only_outOfFuel (fun fuel => FindLast fuel s) ((At ++ Bt).length + 1)
      (fun fuel fuel1 hle h => findLast_loop_stable s fuel fuel1 _ hle h)
      (fun fuel hf => ⟨some (lastAbove 0 hd.idx (At ++ Bt)), by
        show FindLast.loop s fuel s.head_ = _
        rw [M.head_eq]
        exact findLast_loop_spec s fuel [] hd _ M.linked hhd M.height_pos (by omega)⟩)
  · exact only_outOfFuel (fun fuel => Contains cmp fuel s key)
      ((At ++ Bt).length + s.cur_height_)
      (fun fuel fuel1 hle h => contains_stable cmp s key fuel fuel1 hle h)
      (fun fuel hf => by
        obtain ⟨b, hb, _⟩ := contains_spec cmp hcmp s hd _ M key fuel hf
        exact ⟨b, hb⟩)
  · exact only_outOfFuel (fun fuel => Insert cmp gen fuel s key)
      ((At ++ Bt).length + s.cur_height_)
      (fun fuel fuel1 hle h => insert_stable cmp gen s key fuel fuel1 hle h)
      (fun fuel hf => by
        rcases insert_spec cmp hcmp gen s hd _ M key fuel hf with
          ⟨_, h⟩ | ⟨_, s1, _, _, _, _, _, _, _, _, _, _, h, _⟩
        · exact ⟨s, h⟩
        · exact ⟨s1, h⟩)
  · refine ⟨_, _, fge_spec cmp s key hd At Bt M hA hB1 (s.arena_.length + kMaxHeight)
      (by omega) (some prev) (by intro p hp; cases hp; omega), ?_⟩
    intro L hL
    have hLh : L < hd.height := by rw [M.head_height]; omega
    obtain ⟨e, he, hei, heL⟩ := lastAbove_entry L hd.idx (hd :: At)
      (by simp [firstAbove, hLh])
    refine ⟨lastAbove L hd.idx (hd :: At), ?_, ?_⟩
    · rw [recordPrev_get, if_pos ⟨by omega, by omega⟩]
    · rw [← hei, (M.describes e (by
        rcases List.mem_cons.1 he with rfl | he1
        · simp
        · simp [he1])).2]
      exact heL
  · exact ⟨hd.idx, M.head_eq, by rw [(M.describes hd (by simp)).2, M.head_height]⟩

theorem accesses_in_range_witness :
    (Reachable natCompare counterGen sampleList ∧
      (List.replicate kMaxHeight (none : Ptr)).length = kMaxHeight) ∧
    ((∀ fuel e, FindGreaterOrEqual natCompare fuel sampleList 4 none = .error e →
      e = .outOfFuel) ∧
    (∀ fuel e, FindGreaterOrEqual natCompare fuel sampleList 4
      (some (List.replicate kMaxHeight none)) = .error e → e = .outOfFuel) ∧
    (∀ fuel e, FindLessThan natCompare fuel sampleList 4 = .error e → e = .outOfFuel) ∧
    (∀ fuel e, FindLast fuel sampleList = .error e → e = .outOfFuel) ∧
    (∀ fuel e, Contains natCompare fuel sampleList 4 = .error e → e = .outOfFuel) ∧
    (∀ fuel e, Insert natCompare counterGen fuel sampleList 4 = .error e → e = .outOfFuel) ∧
    (∃ r out, FindGreaterOrEqual natCompare (sampleList.arena_.length + kMaxHeight)
        sampleList 4 (some (List.replicate kMaxHeight none)) = .ok (r, some out) ∧
      ∀ L, L < sampleList.cur_height_ →
        ∃ p, out[L]? = some (some p) ∧ L < heightAt sampleList p) ∧
    (∃ h, sampleList.head_ = some h ∧ heightAt sampleList h = kMaxHeight)) :=
  ⟨⟨sampleList_reachable, by decide⟩,
    accesses_in_range natCompare natCompare_strictTotal counterGen sampleList
      sampleList_reachable 4 (List.replicate kMaxHeight none) (by decide)⟩

/-- C14: `Insert` does not publish the new node with `SetNext`. For `Insert(5)` on
the freshly constructed list (the draws 0, 1 give height 2) the events are: the
acquire load of `FindGreaterOrEqual` through `Next`, and then per level a relaxed
load, the relaxed store into the new node (node 1) and the relaxed store of the new
node into the head's slot (node 0), made by `NoBarrier_SetNext`; there is no release
store. -/
theorem insert_publishes_relaxed :
    ∃ s1, InsertLog natCompare counterGen 40 emptyList 5 =
      .ok (s1,
        [NextEvent (some 0) 0,
         NoBarrier_NextEvent (some 0) 0,
         NoBarrier_SetNextEvent (some 1) 0 none,
         NoBarrier_SetNextEvent (some 0) 0 (some 1),
         NoBarrier_NextEvent (some 0) 1,
         NoBarrier_SetNextEvent (some 1) 1 none,
         NoBarrier_SetNextEvent (some 0) 1 (some 1)],
        some 1, 2) ∧
      NoBarrier_SetNextEvent (some 0) 0 (some 1) = .store .relaxed (some 0) 0 (some 1) ∧
      SetNextEvent (some 0) 0 (some 1) = .store .release (some 0) 0 (some 1) ∧
      NextEvent (some 0) 0 = .load .acquire (some 0) 0 :=
  ⟨_, rfl, rfl, rfl, rfl⟩

/-- C15, refuted as stated: in `Insert(5)` on the freshly constructed list, which
draws height 2 and creates node 1, the store of the new node into the head's
level-0 slot is event 3 and the store into the new node's own level-1 pointer is
event 5: the new node is reachable from the head before all its own forward
pointers are written. -/
theorem insert_publishes_before_own_stores_done :
    ∃ s1 evs, InsertLog natCompare counterGen 40 emptyList 5 = .ok (s1, evs, some 1, 2) ∧
      evs[3]? = some (.store .relaxed (some 0) 0 (some 1)) ∧
      evs[5]? = some (.store .relaxed (some 1) 1 none) :=
  ⟨_, _, rfl, rfl, rfl⟩

/-- On a modelled state every non-null forward pointer leads to a real node: an
allocated node other than the head. -/
theorem models_next_real (cmp : K → K → Int) (s : SkipList K R) (hd : Entry K)
    (order : List (Entry K)) (M : Models cmp s hd order) (c : Ptr) (L i : Nat)
    (h : Next s c L = .ok (some i)) : IsRealNode s (some i) := by
  obtain ⟨ci, rfl, hsl⟩ := slotAt_of_Next s c L (some i) h
  have hci : ci < s.arena_.length := by
    by_contra hc
    unfold slotAt at hsl
    rw [List.getElem?_eq_none (by omega)] at hsl
    cases hsl
  have hmem := M.covers ci hci
  rw [List.mem_map] at hmem
  obtain ⟨ce, hce, rfl⟩ := hmem
  obtain ⟨X, Y, hXY⟩ := List.append_of_mem hce
  have hL : L < ce.height := by
    rw [← (M.describes ce hce).2]
    unfold slotAt at hsl
    unfold heightAt
    cases hn : s.arena_[ce.idx]? with
    | none => simp [hn] at hsl
    | some nd =>
      simp only [hn] at hsl ⊢
      by_contra hc
      rw [List.getElem?_eq_none (by omega)] at hsl
      cases hsl
  have hlink := M.linked
  rw [hXY] at hlink
  have hslot := linked_slot s X Y ce hlink L hL
  rw [hsl] at hslot
  have hfa : firstAbove L Y = some i := by
    injection hslot with h1
    injection h1 with h2
    exact h2.symm
  obtain ⟨e, heY, hei, _⟩ := firstAbove_mem L Y i hfa
  have heo : e ∈ order := mem_tail_of_split hd ce order X Y hXY e heY
  refine ⟨i, rfl, ?_, ?_⟩
  · rw [← hei]
    exact keyAt_lt_length s e.idx e.key (M.describes e (by simp [heo])).1
  · rw [← hei]
    exact models_idx_ne_head cmp s hd order M e heo

/-- The events of a returning `FindGreaterOrEqualLog`: no stores, and every compared
node and the returned node are successors of some node. -/
theorem fgeLog_events (cmp : K → K → Int) (fuel : Nat) (s : SkipList K R) (key : K)
    (prev : Option (List Ptr)) (r : Ptr × Option (List Ptr)) (evs : List Event)
    (h : FindGreaterOrEqualLog cmp fuel s key prev = .ok (r, evs)) :
    storesOf evs = [] ∧
      (∀ n, Event.compare n ∈ evs → ∃ c L i, n = some i ∧ Next s c L = .ok (some i)) ∧
      (∀ i, r.1 = some i → ∃ c L, Next s c L = .ok (some i)) := by
  unfold FindGreaterOrEqualLog at h
  split at h
  · cases h
  · exact fge_loopLog_events cmp s key _ _ _ _ _ _ h

/-- Every node a returning `FindLessThanLog` compared is the successor of some node. -/
theorem fltLog_events (cmp : K → K → Int) (fuel : Nat) (s : SkipList K R) (key : K)
    (r : Ptr) (evs : List Event) (h : FindLessThanLog cmp fuel s key = .ok (r, evs)) :
    ∀ n, Event.compare n ∈ evs → ∃ c L i, n = some i ∧ Next s c L = .ok (some i) := by
  unfold FindLessThanLog at h
  split at h
  · cases h
  · exact flt_loopLog_events cmp s key _ _ _ _ _ h

theorem sampleListTall_build :
    build natCompare counterGen 40 0 3 [5, 3, 8, 3, 1] = .ok sampleListTall := by
  rfl

theorem sampleListTall_reachable : Reachable natCompare counterGen sampleListTall :=
  reachable_build natCompare counterGen 40 0 3 sampleListTall _ sampleListTall_build

/-- C15, amended: for every `Insert` of a key not already present (one `Contains`
answers false for) on a reachable state, the node is created at the next free
address with the height `h` that `RandomHeight` draws, and the pointer writes of
`Insert` are exactly, for the levels 0, 1, ..., h-1 in this order, first the relaxed
write of the new node's own level-L pointer and then the relaxed write that stores
the new node into the level-L slot of an existing node: a node allocated before
the `Insert`, that is the head or a real node. So at each level the new node's own
pointer of that level is written before an existing node points to the new node at
that level. -/
theorem insert_stores_levelwise (cmp : K → K → Int) (hcmp : StrictTotal cmp)
    (gen : R → Nat × R) (s : SkipList K R) (hr : Reachable cmp gen s) (key : K)
    (fuel : Nat) (hfuel : s.arena_.length - 1 + s.cur_height_ ≤ fuel)
    (hnew : Contains cmp fuel s key = .ok false) :
    ∃ s1 evs h r, InsertLog cmp gen fuel s key = .ok (s1, evs, some s.arena_.length, h) ∧
      Insert cmp gen fuel s key = .ok s1 ∧
      RandomHeight gen s.rnd_ = .ok (h, r) ∧ 1 ≤ h ∧
      LevelwiseStores s.arena_.length (List.range' 0 h) (storesOf evs) := by
  obtain ⟨hd, order, M⟩ := reachable_models cmp hcmp gen s hr
  have hsz := M.size
  have hf : order.length + s.cur_height_ ≤ fuel := by omega
  obtain ⟨b, hb, hiff⟩ := contains_spec cmp hcmp s hd order M key fuel hf
  rw [hnew] at hb
  have hbf : b = false := by
    injection hb with h1
    exact h1.symm
  rcases insert_spec cmp hcmp gen s hd order M key fuel hf with
    ⟨hex, _⟩ | ⟨_, s1, At, Bt, h, r, hsplit, _, _, hrh, hh1, _, hins, M1, _, _⟩
  · have := hiff.2 hex
    rw [hbf] at this
    cases this
  · have hlen : s1.arena_.length ≠ s.arena_.length := by
      have h1 := M1.size
      rw [hsplit] at hsz
      simp only [List.length_append, List.length_cons] at h1 hsz
      omega
    have hers := insertLog_erase cmp gen fuel s key
    rw [hins] at hers
    obtain ⟨⟨s2, evs, nn, h2⟩, hlog, hfst⟩ := map_ok_inv _ _ _ hers
    simp only at hfst
    subst hfst
    obtain ⟨hlev, hcase, _⟩ := insertLog_inv cmp gen fuel s s2 key evs nn h2 hlog
    rcases hcase with ⟨_, _, hss⟩ | ⟨hnn, r2, hrh2⟩
    · exact absurd (by rw [hss]) hlen
    · rw [hrh] at hrh2
      simp only [Except.ok.injEq, Prod.mk.injEq] at hrh2
      obtain ⟨rfl, rfl⟩ := hrh2
      subst hnn
      exact ⟨s2, evs, h, r, hlog, hins, hrh, hh1, hlev⟩

theorem insert_stores_levelwise_witness :
    (Reachable natCompare counterGen sampleListTall ∧
      sampleListTall.arena_.length - 1 + sampleListTall.cur_height_ ≤ 40 ∧
      Contains natCompare 40 sampleListTall 4 = .ok false ∧
      RandomHeight counterGen sampleListTall.rnd_ = .ok (2, 10)) ∧
    ∃ s1 evs h r,
      InsertLog natCompare counterGen 40 sampleListTall 4 =
        .ok (s1, evs, some sampleListTall.arena_.length, h) ∧
      Insert natCompare counterGen 40 sampleListTall 4 = .ok s1 ∧
      RandomHeight counterGen sampleListTall.rnd_ = .ok (h, r) ∧ 1 ≤ h ∧
      LevelwiseStores sampleListTall.arena_.length (List.range' 0 h) (storesOf evs) :=
  ⟨⟨sampleListTall_reachable, by decide, rfl, rfl⟩,
    insert_stores_levelwise natCompare natCompare_strictTotal counterGen sampleListTall
      sampleListTall_reachable 4 40 (by decide) rfl⟩

/-- C18: on every list state reachable by inserts, with enough fuel, each of
`FindGreaterOrEqual`, `FindLessThan`, `Contains` and `Insert` returns, and every
node whose key it hands to the comparator is a real node: an allocated node other
than the head. `FindLast` returns without calling the comparator at all. The reason
is that the head is never the successor of any node and is never returned by
`FindGreaterOrEqual`. -/
theorem comparator_never_sees_head (cmp : K → K → Int) (hcmp : StrictTotal cmp)
    (gen : R → Nat × R) (s : SkipList K R) (hr : Reachable cmp gen s) (key : K)
    (prev : List Ptr) (hprev : prev.length = kMaxHeight)
    (fuel : Nat) (hfuel : s.arena_.length - 1 + s.cur_height_ ≤ fuel) :
    (∃ r evs, FindGreaterOrEqualLog cmp fuel s key none = .ok (r, evs) ∧
      (∀ n, Event.compare n ∈ evs → IsRealNode s n) ∧ r.1 ≠ s.head_) ∧
    (∃ r evs, FindGreaterOrEqualLog cmp fuel s key (some prev) = .ok (r, evs) ∧
      (∀ n, Event.compare n ∈ evs → IsRealNode s n) ∧ r.1 ≠ s.head_) ∧
    (∃ p evs, FindLessThanLog cmp fuel s key = .ok (p, evs) ∧
      ∀ n, Event.compare n ∈ evs → IsRealNode s n) ∧
    (∃ p evs, FindLastLog fuel s = .ok (p, evs) ∧ ∀ n, Event.compare n ∉ evs) ∧
    (∃ b evs, ContainsLog cmp fuel s key = .ok (b, evs) ∧
      ∀ n, Event.compare n ∈ evs → IsRealNode s n) ∧
    (∃ s1 evs nn h, InsertLog cmp gen fuel s key = .ok (s1, evs, nn, h) ∧
      ∀ n, Event.compare n ∈ evs → IsRealNode s n) ∧
    (∀ c L x, Next s c L = .ok x → x ≠ s.head_) := by
  obtain ⟨hd, order, M⟩ := reachable_models cmp hcmp gen s hr
  obtain ⟨⟨r0, h0⟩, ⟨r1, h1⟩, ⟨p2, h2⟩, ⟨p3, h3⟩, ⟨b4, h4⟩, ⟨s5, h5⟩, _⟩ :=
    operations_total cmp hcmp gen s hr key prev hprev
  have hreal : ∀ n, (∃ c L i, n = some i ∧ Next s c L = .ok (some i)) → IsRealNode s n := by
    rintro n ⟨c, L, i, rfl, hN⟩
    exact models_next_real cmp s hd order M c L i hN
  have hsucc : ∀ c L x, Next s c L = .ok x → x ≠ s.head_ := by
    intro c L x hN
    cases x with
    | none => rw [M.head_eq]; simp
    | some i =>
      obtain ⟨j, hj, _, hne⟩ := models_next_real cmp s hd order M c L i hN
      cases hj
      exact hne
  have hfge : ∀ (op : Option (List Ptr)) (r : Ptr × Option (List Ptr)),
      FindGreaterOrEqual cmp fuel s key op = .ok r →
      ∃ r evs, FindGreaterOrEqualLog cmp fuel s key op = .ok (r, evs) ∧
        (∀ n, Event.compare n ∈ evs → IsRealNode s n) ∧ r.1 ≠ s.head_ := by
    intro op r hop
    have hers := fgeLog_erase cmp fuel s key op
    rw [hop] at hers
    obtain ⟨⟨r9, evs⟩, hlog, _⟩ := map_ok_inv _ _ _ hers
    obtain ⟨_, hc, hres⟩ := fgeLog_events cmp fuel s key op r9 evs hlog
    refine ⟨r9, evs, hlog, fun n hn => hreal n (hc n hn), ?_⟩
    cases hr9 : r9.1 with
    | none => rw [M.head_eq]; simp
    | some i =>
      obtain ⟨c, L, hN⟩ := hres i hr9
      exact hsucc c L (some i) hN
  refine ⟨hfge none r0 (h0 fuel hfuel), hfge (some prev) r1 (h1 fuel hfuel), ?_, ?_, ?_, ?_,
    hsucc⟩
  · have hers := fltLog_erase cmp fuel s key
    rw [h2 fuel hfuel] at hers
    obtain ⟨⟨p9, evs⟩, hlog, _⟩ := map_ok_inv _ _ _ hers
    exact ⟨p9, evs, hlog, fun n hn => hreal n (fltLog_events cmp fuel s key p9 evs hlog n hn)⟩
  · have hers := findLast_loopLog_erase s fuel s.head_
    have hfl : FindLast.loop s fuel s.head_ = .ok p3 := h3 fuel hfuel
    rw [hfl] at hers
    obtain ⟨⟨p9, evs⟩, hlog, _⟩ := map_ok_inv _ _ _ hers
    exact ⟨p9, evs, hlog, findLast_loopLog_events s fuel s.head_ p9 evs hlog⟩
  · have hers := containsLog_erase cmp fuel s key
    rw [h4 fuel hfuel] at hers
    obtain ⟨⟨b9, evs⟩, hlog, _⟩ := map_ok_inv _ _ _ hers
    exact ⟨b9, evs, hlog, fun n hn => hreal n (containsLog_inv cmp fuel s key b9 evs hlog n hn)⟩
  · have hers := insertLog_erase cmp gen fuel s key
    rw [h5 fuel hfuel] at hers
    obtain ⟨⟨s9, evs, nn, h⟩, hlog, _⟩ := map_ok_inv _ _ _ hers
    obtain ⟨_, _, hc⟩ := insertLog_inv cmp gen fuel s s9 key evs nn h hlog
    exact ⟨s9, evs, nn, h, hlog, fun n hn => hreal n (hc n hn)⟩

theorem comparator_never_sees_head_witness :
    (Reachable natCompare counterGen sampleList ∧
      (List.replicate kMaxHeight (none : Ptr)).length = kMaxHeight ∧
      sampleList.arena_.length - 1 + sampleList.cur_height_ ≤ 40) ∧
    ((∃ r evs, FindGreaterOrEqualLog natCompare 40 sampleList 4 none = .ok (r, evs) ∧
      (∀ n, Event.compare n ∈ evs → IsRealNode sampleList n) ∧ r.1 ≠ sampleList.head_) ∧
    (∃ r evs, FindGreaterOrEqualLog natCompare 40 sampleList 4
        (some (List.replicate kMaxHeight none)) = .ok (r, evs) ∧
      (∀ n, Event.compare n ∈ evs → IsRealNode sampleList n) ∧ r.1 ≠ sampleList.head_) ∧
    (∃ p evs, FindLessThanLog natCompare 40 sampleList 4 = .ok (p, evs) ∧
      ∀ n, Event.compare n ∈ evs → IsRealNode sampleList n) ∧
    (∃ p evs, FindLastLog 40 sampleList = .ok (p, evs) ∧ ∀ n, Event.compare n ∉ evs) ∧
    (∃ b evs, ContainsLog natCompare 40 sampleList 4 = .ok (b, evs) ∧
      ∀ n, Event.compare n ∈ evs → IsRealNode sampleList n) ∧
    (∃ s1 evs nn h, InsertLog natCompare counterGen 40 sampleList 4 = .ok (s1, evs, nn, h) ∧
      ∀ n, Event.compare n ∈ evs → IsRealNode sampleList n) ∧
    (∀ c L x, Next sampleList c L = .ok x → x ≠ sampleList.head_)) :=
  ⟨⟨sampleList_reachable, by decide, by decide⟩,
    comparator_never_sees_head natCompare natCompare_strictTotal counterGen sampleList
      sampleList_reachable 4 (List.replicate kMaxHeight none) (by decide) 40 (by decide)⟩

end Claims

end corekv
